import Mathlib

/-!
Block-cipher modes of `ak_bckey.c`.

A shallow embedding of `ak_bckey_context_encrypt_ecb`, `ak_bckey_context_decrypt_ecb`
and `ak_bckey_context_xcrypt` (file `source/ak_bckey.c`), followed by theorems about them.
The lifecycle functions of the same file, the option loop of `aktool_show`
(`aktool/aktool_show.c`) and `test_hash_ptr` (`tests/test-hash01a.c`) are embedded after
the modes.

Conventions of the embedding.

* A byte is a natural number; memory seen through a pointer `p` is a function
  `Mem` giving the byte stored at `p + i`.
* A C function that mutates the context and the output buffer becomes a pure
  function returning an `Outcome`: the returned error code, the context after the
  call, and the bytes the call stored through `out`, listed in address order
  starting at `out[0]` (both modes store contiguously from `out[0]`).
* `in` and `out` are modelled as distinct buffers.
* Function pointers of the context (`encrypt`, `decrypt`, `check_icode`, `set_mask`)
  are modelled by what one invocation does: a block transform is a pure function of
  the block it reads, `check_icode` and `set_mask` are represented by the value they
  return.  The library function `ak_buffer_set_size`, called on the `ivector` of the
  context, is represented in the same way (`set_size`).
* `size_t` values are natural numbers below `2 ^ 64`; the conversion to `ak_int64`
  is `toInt64`.  The host is little-endian.
* A context has a non-zero block size (`ak_bckey_context_create` rejects zero); the
  functions divide by it before any check.
* Loads and stores beyond `size` are not given a special meaning: a load returns what
  the memory holds there, a store is listed with the other stored bytes.
-/

namespace Akrypt

/-- Error codes of the library that occur in `ak_bckey.c`; `other` stands for any further
code a bound function may return. -/
inductive Err where
  | ak_error_ok
  | ak_error_null_pointer
  | ak_error_zero_length
  | ak_error_wrong_length
  | ak_error_wrong_block_cipher_length
  | ak_error_wrong_key_icode
  | ak_error_low_key_resource
  | ak_error_wrong_block_cipher_function
  | ak_error_wrong_iv_length
  | ak_error_wrong_block_cipher
  | other (code : Int)
  deriving DecidableEq, Repr

/-- Memory seen through a pointer: the byte stored at offset `i`. -/
abbrev Mem := Nat → Nat

/-- The `n` bytes stored at offsets `off .. off + n - 1`. -/
def load (m : Mem) (off n : Nat) : List Nat :=
  (List.range n).map (fun j => m (off + j))

/-- Memory whose first bytes are the given list (zero beyond it). -/
def ofList (l : List Nat) : Mem := fun i => l.getD i 0

/-- Pointer arithmetic `p + off`. -/
def shift (m : Mem) (off : Nat) : Mem := fun i => m (off + i)

/-- Memory after storing the bytes `l` at offset `off`. -/
def store (m : Mem) (off : Nat) (l : List Nat) : Mem :=
  fun i => if off ≤ i ∧ i < off + l.length then l.getD (i - off) 0 else m i

/-- Conversion of an unsigned 64-bit value to `ak_int64` (two's complement). -/
def toInt64 (n : Nat) : Int :=
  if n % 2 ^ 64 < 2 ^ 63 then ((n % 2 ^ 64 : Nat) : Int) else ((n % 2 ^ 64 : Nat) : Int) - 2 ^ 64

/-- The fields of `struct skey` used by the modes: `resource.counter`, the bit
`bckey_flag_not_xcrypt` of `flags`, and the values returned by the bound functions
`check_icode` and `set_mask`. -/
structure skey where
  resource_counter : Int
  flag_not_xcrypt : Bool
  check_icode : Bool
  set_mask : Err

/-- The fields of `struct bckey` used by the modes.  `ivector` is `none` while the buffer
is not assigned (as left by `ak_bckey_context_create`) and `some bytes` afterwards;
`set_size` is the value that `ak_buffer_set_size( &bkey->ivector, bkey->bsize )` returns on
this buffer (the function is not part of the file and is represented, like the bound
functions of the key, by the value it returns). -/
structure bckey where
  key : skey
  bsize : Nat
  ivector : Option (List Nat)
  set_size : Err
  encrypt : List Nat → List Nat
  decrypt : List Nat → List Nat

/-- What one call did: returned code, context afterwards, bytes stored through `out`
(from `out[0]` on), number of invocations of the block transform, number of invocations
of `set_mask`, and the bytes `memcpy` stored past the end of `ivector.data`. -/
structure Outcome where
  code : Err
  bkey : bckey
  out : List Nat
  calls : Nat
  masks : Nat
  overrun : List Nat

/-- An early `return ak_error_message( code, ... )`: nothing stored, no transform and no
`set_mask` invoked; the context is as it stands at the return. -/
def fail (code : Err) (bkey : bckey) : Outcome :=
  { code := code, bkey := bkey, out := [], calls := 0, masks := 0, overrun := [] }

/-- One invocation `f( &key, src, dst )` of a block transform: it reads the block at `src`
and stores exactly `bsize` bytes at `dst`. -/
def transform (f : List Nat → List Nat) (bsize : Nat) (src : List Nat) : List Nat :=
  (List.range bsize).map (fun j => (f src).getD j 0)

/-- The loop `do { body } while( --blocks > 0 )`: the body runs once and then once more for
every time the test succeeds; the argument is the number of successful tests. -/
def doWhile {σ : Type} (body : σ → σ) : Nat → σ → σ
  | 0, s => body s
  | k + 1, s => doWhile body k (body s)

/-- Number of times the test `--blocks > 0` succeeds when the loop is entered with `blocks`. -/
def passes (blocks : Int) : Nat := (blocks - 1).toNat

/-- Loop state of the ECB modes: `inptr` and `outptr` as a common byte offset, the bytes
stored so far, and the number of transform invocations. -/
structure EcbState where
  off : Nat
  out : List Nat
  calls : Nat

/-- Body of the ECB loops: `f( &bkey->key, inptr, outptr )` and both pointers advance by one
block (`inptr++; outptr++` for 8 bytes, `inptr+=2; outptr+=2` for 16 bytes). -/
def ecb_body (f : List Nat → List Nat) (bsize : Nat) (inp : Mem) (s : EcbState) : EcbState :=
  { off := s.off + bsize
    out := s.out ++ transform f bsize (load inp s.off bsize)
    calls := s.calls + 1 }

/-- The statement `bkey->key.resource.counter -= units`, as a subtraction of integers; it
is the `ak_int64` subtraction whenever its result fits `ak_int64`. -/
def spend (bkey : bckey) (units : Int) : bckey :=
  { bkey with key := { bkey.key with resource_counter := bkey.key.resource_counter - units } }

/-- The part of the ECB functions from `switch( bkey->bsize )` to the end: the loop for a
block of 8 or 16 bytes followed by `set_mask` and `return ak_error_ok`, or the `default`
branch. -/
def ecb_run (f : List Nat → List Nat) (bkey : bckey) (inp : Mem) (blocks : Int) : Outcome :=
  if bkey.bsize = 8 ∨ bkey.bsize = 16 then
    { code := .ak_error_ok
      bkey := bkey
      out := (doWhile (ecb_body f bkey.bsize inp) (passes blocks) ⟨0, [], 0⟩).out
      calls := (doWhile (ecb_body f bkey.bsize inp) (passes blocks) ⟨0, [], 0⟩).calls
      masks := 1
      overrun := [] }
  else fail .ak_error_wrong_block_cipher bkey

/-- Common text of `ak_bckey_context_encrypt_ecb` and `ak_bckey_context_decrypt_ecb`, which
differ only in the transform `f` they invoke: length check, integrity check, resource check
and decrement with `blocks = size / bsize`, then the `switch`. -/
def ecb_mode (f : List Nat → List Nat) (bkey : bckey) (inp : Mem) (size : Nat) : Outcome :=
  if size % bkey.bsize ≠ 0 then fail .ak_error_wrong_block_cipher_length bkey
  else if bkey.key.check_icode ≠ true then fail .ak_error_wrong_key_icode bkey
  else if bkey.key.resource_counter < toInt64 (size / bkey.bsize) then
    fail .ak_error_low_key_resource bkey
  else ecb_run f (spend bkey (toInt64 (size / bkey.bsize))) inp (toInt64 (size / bkey.bsize))

/-- The function `ak_bckey_context_encrypt_ecb( bkey, in, out, size )`. -/
def ak_bckey_context_encrypt_ecb (bkey : bckey) (inp : Mem) (size : Nat) : Outcome :=
  ecb_mode bkey.encrypt bkey inp size

/-- The function `ak_bckey_context_decrypt_ecb( bkey, in, out, size )`. -/
def ak_bckey_context_decrypt_ecb (bkey : bckey) (inp : Mem) (size : Nat) : Outcome :=
  ecb_mode bkey.decrypt bkey inp size

/-- The first 64-bit word of a buffer, little-endian. -/
def le64 (l : List Nat) : Nat :=
  ((List.range 8).map (fun j => l.getD j 0 * 256 ^ j)).sum

/-- The eight bytes of a 64-bit word, little-endian. -/
def bytes64 (w : Nat) : List Nat :=
  (List.range 8).map (fun j => w / 256 ^ j % 256)

/-- The statement `((ak_uint64 *)bkey->ivector.data)[0]++`. -/
def inc_word0 (iv : List Nat) : List Nat :=
  bytes64 ((le64 iv + 1) % 2 ^ 64) ++ iv.drop 8

/-- Contents of `ivector` after `memset( data, 0, size )` and
`memcpy( data + (bsize >> 1), iv, iv_size )`, for a buffer of `bsize` bytes. -/
def seed (bsize : Nat) (iv : Mem) (iv_size : Nat) : List Nat :=
  (List.range bsize).map
    (fun j => if bsize / 2 ≤ j ∧ j < bsize / 2 + iv_size then iv (j - bsize / 2) else 0)

/-- The bytes that `memcpy( data + (bsize >> 1), iv, iv_size )` stores past the end of the
`bsize`-byte buffer. -/
def seed_overrun (bsize : Nat) (iv : Mem) (iv_size : Nat) : List Nat :=
  load iv (bsize - bsize / 2) (bsize / 2 + iv_size - bsize)

/-- State of `ak_bckey_context_xcrypt` while it transforms: contents of `ivector`, the flag
`bckey_flag_not_xcrypt`, `inptr` and `outptr` as a common byte offset, the bytes stored so
far, and the number of transform invocations. -/
structure XState where
  ivector : List Nat
  flag : Bool
  off : Nat
  out : List Nat
  calls : Nat

/-- Body of the loops of `ak_bckey_context_xcrypt`: encrypt `ivector` into `yaout`, store
`*inptr ^ yaout` for one block, advance both pointers, increment the first word of `ivector`. -/
def xcrypt_body (E : List Nat → List Nat) (bsize : Nat) (inp : Mem) (s : XState) : XState :=
  { ivector := inc_word0 s.ivector
    flag := s.flag
    off := s.off + bsize
    out := s.out ++
      (List.range bsize).map (fun j => inp (s.off + j) ^^^ (transform E bsize s.ivector).getD j 0)
    calls := s.calls + 1 }

/-- The block `if( tail ) { ... }`: one more encryption of `ivector` into `yaout`, `tail`
bytes stored using the bytes `ivector.size - tail ..` of `yaout`, then `ivector` zeroed and
the flag `bckey_flag_not_xcrypt` set. -/
def xcrypt_tail (E : List Nat → List Nat) (bsize : Nat) (inp : Mem) (tail : Int)
    (s : XState) : XState :=
  if tail ≠ 0 then
    { ivector := List.replicate s.ivector.length 0
      flag := true
      off := s.off
      out := s.out ++
        (List.range tail.toNat).map (fun i => inp (s.off + i) ^^^
          (transform E bsize s.ivector).getD (s.ivector.length - tail.toNat + i) 0)
      calls := s.calls + 1 }
  else s

/-- The end of `ak_bckey_context_xcrypt`: `set_mask` is invoked and its value returned; the
context holds the final `ivector` and flag. -/
def xcrypt_finish (bkey : bckey) (overrun : List Nat) (s : XState) : Outcome :=
  { code := bkey.key.set_mask
    bkey := { bkey with ivector := some s.ivector,
                        key := { bkey.key with flag_not_xcrypt := s.flag } }
    out := s.out
    calls := s.calls
    masks := 1
    overrun := overrun }

/-- The part of `ak_bckey_context_xcrypt` from `switch( bkey->bsize )` to the end, entered
with the contents `v` of `ivector`: the loop for a block of 8 or 16 bytes, the tail, and the
re-masking; or the `default` branch. -/
def xcrypt_run (bkey : bckey) (inp : Mem) (blocks tail : Int) (v : List Nat)
    (overrun : List Nat) : Outcome :=
  if bkey.bsize = 8 ∨ bkey.bsize = 16 then
    xcrypt_finish bkey overrun
      (xcrypt_tail bkey.encrypt bkey.bsize inp tail
        (doWhile (xcrypt_body bkey.encrypt bkey.bsize inp) (passes blocks)
          ⟨v, bkey.key.flag_not_xcrypt, 0, [], 0⟩))
  else
    { code := .ak_error_wrong_block_cipher, bkey := bkey, out := [], calls := 0, masks := 0,
      overrun := overrun }

/-- The statements after a valid IV was received: `ivector` holds the fresh seed `v` and the
flag `bckey_flag_not_xcrypt` is cleared. -/
def reseed (bkey : bckey) (v : List Nat) : bckey :=
  { bkey with ivector := some v, key := { bkey.key with flag_not_xcrypt := false } }

/-- The part of `ak_bckey_context_xcrypt` that chooses the initial value and then runs the
transform.  `iv = none` is the null pointer; `ak_buffer_is_assigned` holds exactly when
`ivector` is `some _`.  When `ak_buffer_set_size( &bkey->ivector, bkey->bsize )` does not
return `ak_error_ok` the call returns that code, before `memset`, `memcpy` and the clearing
of the flag; what the failing helper leaves in the buffer is not known from the file, and
`ivector` is kept as it was. -/
def xcrypt_select (bkey : bckey) (inp : Mem) (blocks tail : Int) (iv : Option Mem)
    (iv_size : Nat) : Outcome :=
  match (if iv_size = 0 then none else iv) with
  | none =>
    match bkey.ivector with
    | none => fail .ak_error_wrong_block_cipher_function bkey
    | some v =>
      if bkey.key.flag_not_xcrypt = true then fail .ak_error_wrong_block_cipher_function bkey
      else xcrypt_run bkey inp blocks tail v []
  | some ivm =>
    if iv_size < bkey.bsize / 2 then fail .ak_error_wrong_iv_length bkey
    else if bkey.set_size ≠ .ak_error_ok then fail bkey.set_size bkey
    else
      xcrypt_run (reseed bkey (seed bkey.bsize ivm iv_size)) inp blocks tail
        (seed bkey.bsize ivm iv_size) (seed_overrun bkey.bsize ivm iv_size)

/-- Reduction of an integer to the range of `ak_int64` (two's complement). -/
def wrap64 (x : Int) : Int := (x + 2 ^ 63) % 2 ^ 64 - 2 ^ 63

/-- The resource units of one xcrypt call, `blocks + ( tail > 0 )`, with
`blocks = (ak_int64)size/bsize` and `tail = (ak_int64)size%bsize`; the sum is formed in
`ak_int64`. -/
def xunits (bsize size : Nat) : Int :=
  wrap64 (toInt64 (size / bsize) + (if toInt64 (size % bsize) > 0 then 1 else 0))

/-- The function `ak_bckey_context_xcrypt( bkey, in, out, size, iv, iv_size )`: integrity
check, resource check and decrement, choice of the initial value, transform. -/
def ak_bckey_context_xcrypt (bkey : bckey) (inp : Mem) (size : Nat) (iv : Option Mem)
    (iv_size : Nat) : Outcome :=
  if bkey.key.check_icode ≠ true then fail .ak_error_wrong_key_icode bkey
  else if bkey.key.resource_counter < xunits bkey.bsize size then
    fail .ak_error_low_key_resource bkey
  else
    xcrypt_select (spend bkey (xunits bkey.bsize size)) inp
      (toInt64 (size / bkey.bsize)) (toInt64 (size % bkey.bsize)) iv iv_size

/-- Calling `ak_bckey_context_xcrypt` once per fragment, in order, on consecutive fragments
of `in` and `out` of the given sizes: the first call receives the IV, the later ones
`NULL, 0`.  The state is the context, the offset reached, and the memory at `out`. -/
def xcrypt_chunks (inp : Mem) (iv : Option Mem) (iv_size : Nat) :
    List Nat → bckey × Nat × Mem → bckey × Nat × Mem
  | [], st => st
  | size :: rest, (bkey, off, outm) =>
    let r := ak_bckey_context_xcrypt bkey (shift inp off) size iv iv_size
    xcrypt_chunks inp none 0 rest (r.bkey, off + size, store outm off r.out)

/-- A toy block transform used to evaluate the modes on concrete inputs: byte `j` of the
block is replaced by `(b + 7 * j + 1) mod 256`. -/
def toyE (b : List Nat) : List Nat :=
  (List.range b.length).map (fun j => (b.getD j 0 + 7 * j + 1) % 256)

/-- Inverse of `toyE` on blocks of bytes. -/
def toyD (b : List Nat) : List Nat :=
  (List.range b.length).map (fun j => (b.getD j 0 + 256 - (7 * j + 1) % 256) % 256)

/-- A context with block size `bsize`, resource `counter`, the toy transforms, a valid
integrity code, a succeeding `set_mask`, and no stream state yet. -/
def toyKey (bsize : Nat) (counter : Int) : bckey :=
  { key := { resource_counter := counter, flag_not_xcrypt := false, check_icode := true,
             set_mask := .ak_error_ok }
    bsize := bsize, ivector := none, set_size := .ak_error_ok, encrypt := toyE,
    decrypt := toyD }

/-- The toy context with a failing integrity check. -/
def badKey (bsize : Nat) (counter : Int) : bckey :=
  { toyKey bsize counter with key := { (toyKey bsize counter).key with check_icode := false } }

/-- Keystream byte `i` of the full-block loop started with `ivector = v`: byte `i % bsize`
of the encryption of `v` after `i / bsize` increments of its first word. -/
def gammaByte (E : List Nat → List Nat) (bsize : Nat) (v : List Nat) (i : Nat) : Nat :=
  (transform E bsize (inc_word0^[i / bsize] v)).getD (i % bsize) 0

/-- Keystream byte `i` of a whole call whose loop makes `n` passes and whose tail has `t`
bytes: loop keystream below `n * bsize`, then the bytes `ivector.size - t ..` of the
encryption of the `n` times incremented `v`. -/
def keystream (E : List Nat → List Nat) (bsize : Nat) (v : List Nat) (n t : Nat) (i : Nat) : Nat :=
  if i < n * bsize then gammaByte E bsize v i
  else (transform E bsize (inc_word0^[n] v)).getD
    ((inc_word0^[n] v).length - t + (i - n * bsize)) 0

/-- The contents of `ivector` from which a call of `ak_bckey_context_xcrypt` starts: the
stored contents when no IV is supplied (`iv = NULL` or `iv_size = 0`), the freshly built
seed otherwise. -/
def start_seed (bkey : bckey) (iv : Option Mem) (iv_size : Nat) : Option (List Nat) :=
  match (if iv_size = 0 then none else iv) with
  | none => bkey.ivector
  | some ivm => some (seed bkey.bsize ivm iv_size)

/-- State in which a completed run started from `v` ends, for `n` loop passes and a tail of
`t` bytes. -/
def final_state (E : List Nat → List Nat) (bsize : Nat) (inp : Mem) (v : List Nat)
    (n t : Nat) : XState :=
  { ivector := if t = 0 then inc_word0^[n] v else List.replicate (inc_word0^[n] v).length 0
    flag := if t = 0 then false else true
    off := n * bsize
    out := (List.range (n * bsize + t)).map (fun i => inp i ^^^ keystream E bsize v n t i)
    calls := n + (if t = 0 then 0 else 1) }

/-- The context of `bkey` with `set_mask` bound to a function returning `e`. -/
def with_set_mask (bkey : bckey) (e : Err) : bckey :=
  { bkey with key := { bkey.key with set_mask := e } }

/-- An invocation of a function that the lifecycle functions call, with the arguments that
matter. -/
inductive Event where
  | skey_create (keysize icode_size : Nat)
  | skey_destroy
  | skey_set_key (size : Nat) (cflag : Bool)
  | buffer_create
  | buffer_wipe
  | buffer_destroy
  | delete_keys
  | schedule_keys
  deriving DecidableEq, Repr

/-- Values returned by `ak_skey_context_create`, `ak_skey_context_destroy`,
`ak_skey_context_set_key`, `ak_buffer_create`, `ak_buffer_wipe` and `ak_buffer_destroy`. -/
structure Helpers where
  skey_create : Err
  skey_destroy : Err
  skey_set_key : Err
  buffer_create : Err
  buffer_wipe : Err
  buffer_destroy : Err

/-- The fields of `struct bckey` that the lifecycle functions read or assign: `bsize`, the
four function pointers (`none` is `NULL`; a bound `schedule_keys` or `delete_keys` is
represented by the value it returns), `key.key.size`, and whether `ivector.data` is not
`NULL`. -/
structure bckey_obj where
  bsize : Nat
  encrypt : Option (List Nat → List Nat)
  decrypt : Option (List Nat → List Nat)
  schedule_keys : Option Err
  delete_keys : Option Err
  key_size : Nat
  ivector_data : Bool

/-- What a lifecycle function did: returned code, the context afterwards (`none` when the
pointer was `NULL`), and the invocations it made, in order. -/
structure Life where
  code : Err
  ctx : Option bckey_obj
  trace : List Event

/-- The function `ak_bckey_context_create( bkey, keysize, blocksize )`. -/
def ak_bckey_context_create (h : Helpers) (bkey : Option bckey_obj) (keysize blocksize : Nat) :
    Life :=
  match bkey with
  | none => { code := .ak_error_null_pointer, ctx := none, trace := [] }
  | some c =>
    if keysize = 0 then { code := .ak_error_zero_length, ctx := some c, trace := [] }
    else if blocksize = 0 then { code := .ak_error_zero_length, ctx := some c, trace := [] }
    else if h.skey_create ≠ .ak_error_ok then
      { code := h.skey_create, ctx := some c, trace := [.skey_create keysize 8] }
    else if h.buffer_create ≠ .ak_error_ok then
      { code := h.buffer_create, ctx := some c,
        trace := [.skey_create keysize 8, .buffer_create, .skey_destroy] }
    else
      { code := .ak_error_ok
        ctx := some { c with bsize := blocksize, encrypt := none, decrypt := none,
                             schedule_keys := none, delete_keys := none }
        trace := [.skey_create keysize 8, .buffer_create] }

/-- The values assigned to the variable `error` of `ak_bckey_context_destroy`, in order:
by `delete_keys` (if bound), by `ak_buffer_wipe` (if `ivector.data` is not `NULL`), by
`ak_buffer_destroy` and by `ak_skey_context_destroy`. -/
def destroy_assignments (h : Helpers) (c : bckey_obj) : List Err :=
  (match c.delete_keys with
   | some r => [r]
   | none => [])
  ++ (if c.ivector_data then [h.buffer_wipe] else [])
  ++ [h.buffer_destroy, h.skey_destroy]

/-- The function `ak_bckey_context_destroy( bkey )`: the value returned is that of the
variable `error`, initialised with `ak_error_ok` and overwritten by every assignment. -/
def ak_bckey_context_destroy (h : Helpers) (bkey : Option bckey_obj) : Life :=
  match bkey with
  | none => { code := .ak_error_null_pointer, ctx := none, trace := [] }
  | some c =>
    { code := (destroy_assignments h c).foldl (fun _ e => e) .ak_error_ok
      ctx := some { c with bsize := 0, encrypt := none, decrypt := none,
                           schedule_keys := none, delete_keys := none }
      trace := (if c.delete_keys.isSome then [Event.delete_keys] else [])
        ++ (if c.ivector_data then [Event.buffer_wipe] else [])
        ++ [Event.buffer_destroy, Event.skey_destroy] }

/-- The function `ak_bckey_context_set_key( bkey, keyptr, size, cflag )`; `keyptr = none` is
the null pointer. -/
def ak_bckey_context_set_key (h : Helpers) (bkey : Option bckey_obj)
    (keyptr : Option (List Nat)) (size : Nat) (cflag : Bool) : Life :=
  match bkey with
  | none => { code := .ak_error_null_pointer, ctx := none, trace := [] }
  | some c =>
    match keyptr with
    | none => { code := .ak_error_null_pointer, ctx := some c, trace := [] }
    | some _ =>
      if size ≠ c.key_size then { code := .ak_error_wrong_length, ctx := some c, trace := [] }
      else if h.skey_set_key ≠ .ak_error_ok then
        { code := h.skey_set_key, ctx := some c, trace := [.skey_set_key size cflag] }
      else
        { code := h.skey_set_key, ctx := some c
          trace := [Event.skey_set_key size cflag]
            ++ (if c.schedule_keys.isSome then [Event.schedule_keys] else []) }

/-- Helpers that all succeed. -/
def okHelpers : Helpers :=
  { skey_create := .ak_error_ok, skey_destroy := .ak_error_ok, skey_set_key := .ak_error_ok,
    buffer_create := .ak_error_ok, buffer_wipe := .ak_error_ok, buffer_destroy := .ak_error_ok }

/-- Helpers that all fail, with distinct codes. -/
def badHelpers : Helpers :=
  { skey_create := .other 1, skey_destroy := .other 2, skey_set_key := .other 3,
    buffer_create := .other 4, buffer_wipe := .other 5, buffer_destroy := .other 6 }

/-- A context with all four functions bound, key size 32, block size 16 and an allocated
`ivector`. -/
def toyObj : bckey_obj :=
  { bsize := 16, encrypt := some toyE, decrypt := some toyD,
    schedule_keys := some .ak_error_ok, delete_keys := some (.other 7),
    key_size := 32, ivector_data := true }

/-! The ECB functions called with `out = in`. -/

/-- Loop state of an ECB function running in place: the common byte offset of `inptr` and
`outptr`, the contents of the buffer, and the number of transform invocations. -/
structure AliasState where
  off : Nat
  mem : Mem
  calls : Nat

/-- Body of the ECB loops when `out = in`: the transform reads the block at the current
offset of the buffer and its result is stored at the same offset. -/
def ecb_body_alias (f : List Nat → List Nat) (bsize : Nat) (s : AliasState) : AliasState :=
  { off := s.off + bsize
    mem := store s.mem s.off (transform f bsize (load s.mem s.off bsize))
    calls := s.calls + 1 }

/-- What an in-place call did: returned code, context afterwards, contents of the buffer
afterwards, number of transform invocations. -/
structure AliasOutcome where
  code : Err
  bkey : bckey
  mem : Mem
  calls : Nat

/-- The part of the ECB functions from `switch( bkey->bsize )` to the end, when `out = in`. -/
def ecb_run_alias (f : List Nat → List Nat) (bkey : bckey) (buf : Mem) (blocks : Int) :
    AliasOutcome :=
  if bkey.bsize = 8 ∨ bkey.bsize = 16 then
    { code := .ak_error_ok
      bkey := bkey
      mem := (doWhile (ecb_body_alias f bkey.bsize) (passes blocks) ⟨0, buf, 0⟩).mem
      calls := (doWhile (ecb_body_alias f bkey.bsize) (passes blocks) ⟨0, buf, 0⟩).calls }
  else { code := .ak_error_wrong_block_cipher, bkey := bkey, mem := buf, calls := 0 }

/-- Common text of the two ECB functions when `out = in`. -/
def ecb_mode_alias (f : List Nat → List Nat) (bkey : bckey) (buf : Mem) (size : Nat) :
    AliasOutcome :=
  if size % bkey.bsize ≠ 0 then
    { code := .ak_error_wrong_block_cipher_length, bkey := bkey, mem := buf, calls := 0 }
  else if bkey.key.check_icode ≠ true then
    { code := .ak_error_wrong_key_icode, bkey := bkey, mem := buf, calls := 0 }
  else if bkey.key.resource_counter < toInt64 (size / bkey.bsize) then
    { code := .ak_error_low_key_resource, bkey := bkey, mem := buf, calls := 0 }
  else
    ecb_run_alias f (spend bkey (toInt64 (size / bkey.bsize))) buf (toInt64 (size / bkey.bsize))

/-- The call `ak_bckey_context_encrypt_ecb( bkey, buf, buf, size )`. -/
def ak_bckey_context_encrypt_ecb_inplace (bkey : bckey) (buf : Mem) (size : Nat) :
    AliasOutcome :=
  ecb_mode_alias bkey.encrypt bkey buf size

/-- The call `ak_bckey_context_decrypt_ecb( bkey, buf, buf, size )`. -/
def ak_bckey_context_decrypt_ecb_inplace (bkey : bckey) (buf : Mem) (size : Nat) :
    AliasOutcome :=
  ecb_mode_alias bkey.decrypt bkey buf size

/-! Sequences of calls on one context. -/

/-- The context after a fresh IV gave the seed `sd` and `m` full blocks were processed. -/
def seeded (bkey : bckey) (sd : List Nat) (m : Nat) : bckey :=
  { bkey with
    ivector := some (inc_word0^[m] sd)
    key := { bkey.key with resource_counter := bkey.key.resource_counter - (m : Int),
                           flag_not_xcrypt := false } }

/-- One call of a mode function, with its arguments. -/
inductive Call where
  | encrypt_ecb (inp : Mem) (size : Nat)
  | decrypt_ecb (inp : Mem) (size : Nat)
  | xcrypt (inp : Mem) (size : Nat) (iv : Option Mem) (iv_size : Nat)

/-- The `size` argument of a call. -/
def Call.size : Call → Nat
  | .encrypt_ecb _ size => size
  | .decrypt_ecb _ size => size
  | .xcrypt _ size _ _ => size

/-- The outcome of one call on a context. -/
def run_call (bkey : bckey) : Call → Outcome
  | .encrypt_ecb inp size => ak_bckey_context_encrypt_ecb bkey inp size
  | .decrypt_ecb inp size => ak_bckey_context_decrypt_ecb bkey inp size
  | .xcrypt inp size iv iv_size => ak_bckey_context_xcrypt bkey inp size iv iv_size

/-- A sequence of calls on one context, each on the context the previous one left: the
final context and the total number of block-transform invocations. -/
def run_calls : bckey → List Call → bckey × Nat
  | bkey, [] => (bkey, 0)
  | bkey, c :: cs =>
    ((run_calls (run_call bkey c).bkey cs).1,
     (run_call bkey c).calls + (run_calls (run_call bkey c).bkey cs).2)

/-! The option loop of `aktool_show` (file `aktool/aktool_show.c`).  `getopt_long` is
represented by the sequence of values it returns, each with the `optarg` it sets; when the
sequence is exhausted it returns `-1`. -/

/-- The enumeration of actions declared in `aktool_show`. -/
inductive Work where
  | do_nothing
  | do_alloids
  | do_oid
  | do_engines
  | do_modes
  | do_options
  | do_curve
  deriving DecidableEq, Repr

/-- Calls that the option loop makes into the library. -/
inductive ShowEvent where
  | set_audit (optarg : Option (List Nat))
  | set_color_output_false
  deriving DecidableEq, Repr

/-- The local variables of `aktool_show` that the option loop assigns, and the calls made so
far. -/
structure ShowState where
  work : Work
  show_caption : Bool
  value : Option (List Nat)
  curve : Option (List Nat)
  events : List ShowEvent
  deriving DecidableEq, Repr

/-- The local variables at the declaration: `work = do_nothing`, `show_caption = ak_true`,
`value = NULL`, `curve = NULL`. -/
def show_start : ShowState :=
  { work := .do_nothing, show_caption := true, value := none, curve := none, events := [] }

/-- Where one pass through the `switch` leaves the loop: at `return aktool_show_help()`, or
at the loop condition. -/
inductive Step where
  | returned (s : ShowState)
  | next (s : ShowState)
  deriving DecidableEq, Repr

/-- The statements of `case 254`: `work = do_alloids; break;`. -/
def case_254 (s : ShowState) : ShowState := { s with work := .do_alloids }

/-- The `switch( next_option )` of the option loop.  `case 3` has no `break`: after
`ak_libakrypt_set_color_output( ak_false )` control continues with the statements of
`case 254`. -/
def option_case (s : ShowState) (next_option : Int) (optarg : Option (List Nat)) : Step :=
  if next_option = 1 then .returned s
  else if next_option = 2 then .next { s with events := s.events ++ [.set_audit optarg] }
  else if next_option = 3 then
    .next (case_254 { s with events := s.events ++ [.set_color_output_false] })
  else if next_option = 254 then .next (case_254 s)
  else if next_option = 253 then .next { s with work := .do_oid, value := optarg }
  else if next_option = 252 then .next { s with work := .do_engines }
  else if next_option = 251 then .next { s with work := .do_options }
  else if next_option = 250 then .next { s with show_caption := false }
  else if next_option = 249 then .next { s with work := .do_modes }
  else if next_option = 220 then .next { s with work := .do_curve, curve := optarg }
  else if next_option ≠ -1 then .next { s with work := .do_nothing }
  else .next s

/-- The loop `do { next_option = getopt_long( ... ); switch ... } while( next_option != -1 )`
for the given sequence of results of `getopt_long`. -/
def option_loop (s : ShowState) : List (Int × Option (List Nat)) → Step
  | [] => option_case s (-1) none
  | (c, a) :: rest =>
    match option_case s c a with
    | .returned s1 => .returned s1
    | .next s1 => if c = -1 then .next s1 else option_loop s1 rest

/-- What `aktool_show` does after the option loop. -/
inductive ShowResult where
  | help
  | create_failed
  | performed (work : Work) (show_caption : Bool)
  deriving DecidableEq, Repr

/-- The function `aktool_show`: option loop, `aktool_show_help()` when no action was
selected, `ak_libakrypt_create`, then the selected action. -/
def aktool_show (create_ok : Bool) (opts : List (Int × Option (List Nat))) : ShowResult :=
  match option_loop show_start opts with
  | .returned _ => .help
  | .next s =>
    if s.work = .do_nothing then .help
    else if create_ok ≠ true then .create_failed
    else .performed s.work s.show_caption

/-! The function `test_hash_ptr` (file `tests/test-hash01a.c`).  The functions `clean`,
`update` and `finalize` are pointers of the hash context; their invocations are recorded
with the offset of their data pointer from `in` and with their size arguments. -/

/-- An invocation made by `test_hash_ptr`. -/
inductive HashEvent where
  | clean
  | update (off len : Nat)
  | finalize (off len out_size : Nat)
  deriving DecidableEq, Repr

/-- The value `offset = quot*hctx->mctx.bsize` with `quot = size/hctx->mctx.bsize`, in
`size_t` arithmetic. -/
def hash_offset (bsize size : Nat) : Nat := size / bsize * bsize % 2 ^ 64

/-- The function `test_hash_ptr( hctx, in, size, out, out_size )` for a context with block
size `bsize` whose `finalize` returns `result`: the returned value and the invocations. -/
def test_hash_ptr (bsize : Nat) (result : Err) (size out_size : Nat) : Err × List HashEvent :=
  (result,
   [HashEvent.clean]
     ++ (if size / bsize > 0 then [HashEvent.update 0 (hash_offset bsize size)] else [])
     ++ [HashEvent.finalize (hash_offset bsize size)
           ((size + 2 ^ 64 - hash_offset bsize size) % 2 ^ 64) out_size,
         HashEvent.clean])

/-- The array `some_pointer` of `main`. -/
def some_pointer : List Nat := [0, 1, 2, 3, 4, 5, 6]

/-- The call of `test_hash_ptr` in `main`, on `some_pointer` with `sizeof( some_pointer )`
and `sizeof( out ) = 32`, for a context of block size `bsize`. -/
def main_hash (bsize : Nat) (result : Err) : Err × List HashEvent :=
  test_hash_ptr bsize result some_pointer.length 32

/-! ## Conversions -/

theorem toInt64_of_lt {n : Nat} (h : n < 2 ^ 63) : toInt64 n = (n : Int) := by
  unfold toInt64
  have h1 : n % 2 ^ 64 = n := Nat.mod_eq_of_lt (by omega)
  rw [h1, if_pos h]

theorem wrap64_of_range (x : Int) (h0 : -2 ^ 63 ≤ x) (h1 : x < 2 ^ 63) : wrap64 x = x := by
  unfold wrap64
  omega

theorem xunits_eq (bsize size : Nat)
    (hsum : size / bsize + (if size % bsize > 0 then 1 else 0) < 2 ^ 63)
    (hmod : size % bsize < 2 ^ 63) :
    xunits bsize size = ((size / bsize : Nat) : Int) + (if size % bsize > 0 then 1 else 0) := by
  have hdiv : size / bsize < 2 ^ 63 := lt_of_le_of_lt (Nat.le_add_right _ _) hsum
  unfold xunits
  rw [toInt64_of_lt hdiv, toInt64_of_lt hmod]
  generalize size / bsize = q at hsum hdiv ⊢
  by_cases h0 : size % bsize > 0
  · have h0' : ((size % bsize : Nat) : Int) > 0 := by exact_mod_cast h0
    rw [if_pos h0] at hsum
    rw [if_pos h0', if_pos h0]
    exact wrap64_of_range _ (by omega) (by omega)
  · have h0' : ¬ ((size % bsize : Nat) : Int) > 0 := by
      intro h
      exact h0 (by exact_mod_cast h)
    rw [if_neg h0', if_neg h0]
    exact wrap64_of_range _ (by omega) (by omega)

theorem units_lt_of_bsize (bsize size : Nat) (hbs : bsize = 8 ∨ bsize = 16)
    (hs : size < 2 ^ 64) :
    size / bsize + (if size % bsize > 0 then 1 else 0) < 2 ^ 63 := by
  have h1 : (if size % bsize > 0 then 1 else 0) ≤ 1 := by split_ifs <;> omega
  rcases hbs with h | h <;> subst h <;> omega

theorem units_lt_of_size (bsize size : Nat) (hs : size < 2 ^ 63) :
    size / bsize + (if size % bsize > 0 then 1 else 0) < 2 ^ 63 := by
  by_cases h0 : size % bsize > 0
  · rw [if_pos h0]
    rcases Nat.lt_or_ge bsize 2 with hb | hb
    · interval_cases bsize
      · simp
      · simp [Nat.mod_one] at h0
    · have : size / bsize ≤ size / 2 := Nat.div_le_div_left hb (by decide)
      omega
  · rw [if_neg h0]
    exact lt_of_le_of_lt (Nat.div_le_self _ _) hs

theorem div_lt_of_bsize (bsize size : Nat) (hbs : bsize = 8 ∨ bsize = 16) (hs : size < 2 ^ 64) :
    size / bsize < 2 ^ 63 ∧ size % bsize < 2 ^ 63 := by
  rcases hbs with h | h <;> subst h <;> omega

theorem passes_natCast (n : Nat) : passes (n : Int) = n - 1 := by
  unfold passes
  omega

theorem spend_bsize (bkey : bckey) (u : Int) : (spend bkey u).bsize = bkey.bsize := rfl

theorem spend_counter (bkey : bckey) (u : Int) :
    (spend bkey u).key.resource_counter = bkey.key.resource_counter - u := rfl

/-! ## The stages of the ECB functions -/

theorem ecb_mode_unaligned (f : List Nat → List Nat) (bkey : bckey) (inp : Mem) (size : Nat)
    (h : size % bkey.bsize ≠ 0) :
    ecb_mode f bkey inp size = fail .ak_error_wrong_block_cipher_length bkey := by
  unfold ecb_mode
  rw [if_pos h]

theorem ecb_mode_bad_icode (f : List Nat → List Nat) (bkey : bckey) (inp : Mem) (size : Nat)
    (h : size % bkey.bsize = 0) (hic : bkey.key.check_icode ≠ true) :
    ecb_mode f bkey inp size = fail .ak_error_wrong_key_icode bkey := by
  unfold ecb_mode
  rw [if_neg (not_not.mpr h), if_pos hic]

theorem ecb_mode_low (f : List Nat → List Nat) (bkey : bckey) (inp : Mem) (size : Nat)
    (h : size % bkey.bsize = 0) (hic : bkey.key.check_icode = true)
    (hlow : bkey.key.resource_counter < toInt64 (size / bkey.bsize)) :
    ecb_mode f bkey inp size = fail .ak_error_low_key_resource bkey := by
  unfold ecb_mode
  rw [if_neg (not_not.mpr h), if_neg (not_not.mpr hic), if_pos hlow]

theorem ecb_mode_pass (f : List Nat → List Nat) (bkey : bckey) (inp : Mem) (size : Nat)
    (h : size % bkey.bsize = 0) (hic : bkey.key.check_icode = true)
    (hres : ¬ bkey.key.resource_counter < toInt64 (size / bkey.bsize)) :
    ecb_mode f bkey inp size =
      ecb_run f (spend bkey (toInt64 (size / bkey.bsize))) inp (toInt64 (size / bkey.bsize)) := by
  unfold ecb_mode
  rw [if_neg (not_not.mpr h), if_neg (not_not.mpr hic), if_neg hres]

theorem ecb_run_bkey (f : List Nat → List Nat) (bkey : bckey) (inp : Mem) (blocks : Int) :
    (ecb_run f bkey inp blocks).bkey = bkey := by
  unfold ecb_run
  split_ifs <;> rfl

theorem ecb_run_ok_bsize (f : List Nat → List Nat) (bkey : bckey) (inp : Mem) (blocks : Int)
    (h : (ecb_run f bkey inp blocks).code = .ak_error_ok) :
    bkey.bsize = 8 ∨ bkey.bsize = 16 := by
  unfold ecb_run at h
  split_ifs at h with h1
  · exact h1
  · simp [fail] at h

/-! ## The stages of xcrypt -/

theorem xcrypt_bad_icode (bkey : bckey) (inp : Mem) (size : Nat) (iv : Option Mem)
    (iv_size : Nat) (hic : bkey.key.check_icode ≠ true) :
    ak_bckey_context_xcrypt bkey inp size iv iv_size = fail .ak_error_wrong_key_icode bkey := by
  unfold ak_bckey_context_xcrypt
  rw [if_pos hic]

theorem xcrypt_low (bkey : bckey) (inp : Mem) (size : Nat) (iv : Option Mem)
    (iv_size : Nat) (hic : bkey.key.check_icode = true)
    (hlow : bkey.key.resource_counter < xunits bkey.bsize size) :
    ak_bckey_context_xcrypt bkey inp size iv iv_size = fail .ak_error_low_key_resource bkey := by
  unfold ak_bckey_context_xcrypt
  rw [if_neg (not_not.mpr hic), if_pos hlow]

theorem xcrypt_pass (bkey : bckey) (inp : Mem) (size : Nat) (iv : Option Mem)
    (iv_size : Nat) (hic : bkey.key.check_icode = true)
    (hres : ¬ bkey.key.resource_counter < xunits bkey.bsize size) :
    ak_bckey_context_xcrypt bkey inp size iv iv_size =
      xcrypt_select (spend bkey (xunits bkey.bsize size)) inp
        (toInt64 (size / bkey.bsize)) (toInt64 (size % bkey.bsize)) iv iv_size := by
  unfold ak_bckey_context_xcrypt
  rw [if_neg (not_not.mpr hic), if_neg hres]

/-- Case analysis on `xcrypt_run`: either the run completes on a supported block size or the
`default` branch returns. -/
theorem xcrypt_run_cases (P : Outcome → Prop) (bkey : bckey) (inp : Mem) (blocks tail : Int)
    (v ov : List Nat)
    (hrun : bkey.bsize = 8 ∨ bkey.bsize = 16 → ∀ s, P (xcrypt_finish bkey ov s))
    (hdef : ¬ (bkey.bsize = 8 ∨ bkey.bsize = 16) →
      P { code := .ak_error_wrong_block_cipher, bkey := bkey, out := [], calls := 0,
          masks := 0, overrun := ov }) :
    P (xcrypt_run bkey inp blocks tail v ov) := by
  unfold xcrypt_run
  split_ifs with h
  · exact hrun h _
  · exact hdef h

/-- Case analysis on `xcrypt_select`: an early return on the context as received, or a run
on the context as received (stored state reused) or on the reseeded context. -/
theorem xcrypt_select_cases (P : Outcome → Prop) (bkey : bckey) (inp : Mem) (blocks tail : Int)
    (iv : Option Mem) (iv_size : Nat)
    (hfail : ∀ e, e ≠ Err.ak_error_ok → P (fail e bkey))
    (hresume : ∀ v ov, P (xcrypt_run bkey inp blocks tail v ov))
    (hfresh : ∀ w v ov, P (xcrypt_run (reseed bkey w) inp blocks tail v ov)) :
    P (xcrypt_select bkey inp blocks tail iv iv_size) := by
  unfold xcrypt_select
  split
  · split
    · exact hfail _ (by decide)
    · split_ifs
      · exact hfail _ (by decide)
      · exact hresume _ _
  · split_ifs with h1 h2
    · exact hfail _ (by decide)
    · exact hfail _ h2
    · exact hfresh _ _ _

theorem xcrypt_select_counter (bkey : bckey) (inp : Mem) (blocks tail : Int)
    (iv : Option Mem) (iv_size : Nat) :
    (xcrypt_select bkey inp blocks tail iv iv_size).bkey.key.resource_counter
      = bkey.key.resource_counter := by
  apply xcrypt_select_cases
    (fun r => r.bkey.key.resource_counter = bkey.key.resource_counter)
  · intro e _
    rfl
  · intro v ov
    apply xcrypt_run_cases (fun r => r.bkey.key.resource_counter = bkey.key.resource_counter)
    · intro _ s
      rfl
    · intro _
      rfl
  · intro w v ov
    apply xcrypt_run_cases (fun r => r.bkey.key.resource_counter = bkey.key.resource_counter)
    · intro _ s
      rfl
    · intro _
      rfl

theorem xcrypt_select_masks (bkey : bckey) (inp : Mem) (blocks tail : Int)
    (iv : Option Mem) (iv_size : Nat) :
    ((xcrypt_select bkey inp blocks tail iv iv_size).code = .ak_error_ok →
      (xcrypt_select bkey inp blocks tail iv iv_size).masks = 1)
    ∧ ((xcrypt_select bkey inp blocks tail iv iv_size).masks = 1 →
      bkey.bsize = 8 ∨ bkey.bsize = 16) := by
  apply xcrypt_select_cases
    (fun r => (r.code = .ak_error_ok → r.masks = 1) ∧ (r.masks = 1 → bkey.bsize = 8 ∨ bkey.bsize = 16))
  · intro e he
    exact ⟨fun h => absurd h he, fun h => by simp [fail] at h⟩
  · intro v ov
    apply xcrypt_run_cases
      (fun r => (r.code = .ak_error_ok → r.masks = 1) ∧ (r.masks = 1 → bkey.bsize = 8 ∨ bkey.bsize = 16))
    · intro hbs s
      exact ⟨fun _ => rfl, fun _ => hbs⟩
    · intro _
      exact ⟨fun h => by simp at h, fun h => by simp at h⟩
  · intro w v ov
    apply xcrypt_run_cases
      (fun r => (r.code = .ak_error_ok → r.masks = 1) ∧ (r.masks = 1 → bkey.bsize = 8 ∨ bkey.bsize = 16))
    · intro hbs s
      exact ⟨fun _ => rfl, fun _ => hbs⟩
    · intro _
      exact ⟨fun h => by simp at h, fun h => by simp at h⟩

/-! ## The loops -/

theorem ecb_loop (f : List Nat → List Nat) (bsize : Nat) (inp : Mem) (k m : Nat) :
    doWhile (ecb_body f bsize inp) k
      ⟨m * bsize, (List.range m).flatMap (fun i => transform f bsize (load inp (i * bsize) bsize)), m⟩
    = ⟨(m + k + 1) * bsize,
       (List.range (m + k + 1)).flatMap (fun i => transform f bsize (load inp (i * bsize) bsize)),
       m + k + 1⟩ := by
  have step : ∀ m, ecb_body f bsize inp
      ⟨m * bsize, (List.range m).flatMap (fun i => transform f bsize (load inp (i * bsize) bsize)), m⟩
      = ⟨(m + 1) * bsize,
         (List.range (m + 1)).flatMap (fun i => transform f bsize (load inp (i * bsize) bsize)),
         m + 1⟩ := by
    intro m
    simp only [ecb_body]
    rw [List.range_succ, List.flatMap_append, List.flatMap_singleton, Nat.succ_mul]
  induction k generalizing m with
  | zero => exact step m
  | succ k ih =>
    rw [doWhile, step m, ih (m + 1)]
    have e : m + 1 + k + 1 = m + (k + 1) + 1 := by omega
    rw [e]

theorem ecb_loop_zero (f : List Nat → List Nat) (bsize : Nat) (inp : Mem) (k : Nat) :
    doWhile (ecb_body f bsize inp) k ⟨0, [], 0⟩
    = ⟨(k + 1) * bsize,
       (List.range (k + 1)).flatMap (fun i => transform f bsize (load inp (i * bsize) bsize)),
       k + 1⟩ := by
  have h := ecb_loop f bsize inp k 0
  simpa using h

theorem xcrypt_loop (E : List Nat → List Nat) (bsize : Nat) (hb : 0 < bsize) (inp : Mem)
    (v : List Nat) (fl : Bool) (k m : Nat) :
    doWhile (xcrypt_body E bsize inp) k
      ⟨inc_word0^[m] v, fl, m * bsize,
       (List.range (m * bsize)).map (fun i => inp i ^^^ gammaByte E bsize v i), m⟩
    = ⟨inc_word0^[m + k + 1] v, fl, (m + k + 1) * bsize,
       (List.range ((m + k + 1) * bsize)).map (fun i => inp i ^^^ gammaByte E bsize v i),
       m + k + 1⟩ := by
  have step : ∀ m, xcrypt_body E bsize inp
      ⟨inc_word0^[m] v, fl, m * bsize,
       (List.range (m * bsize)).map (fun i => inp i ^^^ gammaByte E bsize v i), m⟩
      = ⟨inc_word0^[m + 1] v, fl, (m + 1) * bsize,
         (List.range ((m + 1) * bsize)).map (fun i => inp i ^^^ gammaByte E bsize v i),
         m + 1⟩ := by
    intro m
    simp only [xcrypt_body]
    have e1 : (m + 1) * bsize = m * bsize + bsize := Nat.succ_mul m bsize
    rw [e1, List.range_add, List.map_append, List.map_map, Function.iterate_succ_apply']
    congr 2
    apply List.map_congr_left
    intro j hj
    have hj' : j < bsize := List.mem_range.mp hj
    have d1 : (m * bsize + j) / bsize = m := by
      rw [Nat.mul_comm, Nat.mul_add_div hb, Nat.div_eq_of_lt hj', Nat.add_zero]
    have d2 : (m * bsize + j) % bsize = j := by
      rw [Nat.mul_comm, Nat.mul_add_mod, Nat.mod_eq_of_lt hj']
    simp only [Function.comp, gammaByte, d1, d2]
  induction k generalizing m with
  | zero => exact step m
  | succ k ih =>
    rw [doWhile, step m, ih (m + 1)]
    have e : m + 1 + k + 1 = m + (k + 1) + 1 := by omega
    rw [e]

theorem xcrypt_loop_zero (E : List Nat → List Nat) (bsize : Nat) (hb : 0 < bsize) (inp : Mem)
    (v : List Nat) (fl : Bool) (k : Nat) :
    doWhile (xcrypt_body E bsize inp) k ⟨v, fl, 0, [], 0⟩
    = ⟨inc_word0^[k + 1] v, fl, (k + 1) * bsize,
       (List.range ((k + 1) * bsize)).map (fun i => inp i ^^^ gammaByte E bsize v i), k + 1⟩ := by
  have h := xcrypt_loop E bsize hb inp v fl k 0
  simpa using h

/-! ## Completed runs -/

theorem ecb_run_eq (f : List Nat → List Nat) (bkey : bckey) (inp : Mem) (n : Nat)
    (hbs : bkey.bsize = 8 ∨ bkey.bsize = 16) :
    ecb_run f bkey inp (n : Int) =
      { code := .ak_error_ok
        bkey := bkey
        out := (List.range (n - 1 + 1)).flatMap
                 (fun i => transform f bkey.bsize (load inp (i * bkey.bsize) bkey.bsize))
        calls := n - 1 + 1
        masks := 1
        overrun := [] } := by
  unfold ecb_run
  rw [if_pos hbs, passes_natCast, ecb_loop_zero]

theorem ecb_mode_run (f : List Nat → List Nat) (bkey : bckey) (inp : Mem) (size : Nat)
    (hbs : bkey.bsize = 8 ∨ bkey.bsize = 16) (hal : size % bkey.bsize = 0)
    (hic : bkey.key.check_icode = true) (hs : size < 2 ^ 64)
    (hres : ((size / bkey.bsize : Nat) : Int) ≤ bkey.key.resource_counter) :
    ecb_mode f bkey inp size =
      { code := .ak_error_ok
        bkey := spend bkey ((size / bkey.bsize : Nat) : Int)
        out := (List.range (size / bkey.bsize - 1 + 1)).flatMap
                 (fun i => transform f bkey.bsize (load inp (i * bkey.bsize) bkey.bsize))
        calls := size / bkey.bsize - 1 + 1
        masks := 1
        overrun := [] } := by
  have hlt := (div_lt_of_bsize _ _ hbs hs).1
  have hres' : ¬ bkey.key.resource_counter < toInt64 (size / bkey.bsize) := by
    rw [toInt64_of_lt hlt]
    exact not_lt.mpr hres
  rw [ecb_mode_pass f bkey inp size hal hic hres', toInt64_of_lt hlt]
  exact ecb_run_eq f (spend bkey _) inp _ hbs

theorem xcrypt_run_eq (bkey : bckey) (inp : Mem) (n t : Nat) (v ov : List Nat)
    (hbs : bkey.bsize = 8 ∨ bkey.bsize = 16) :
    xcrypt_run bkey inp (n : Int) (t : Int) v ov =
      xcrypt_finish bkey ov
        { ivector := if t = 0 then inc_word0^[n - 1 + 1] v
                     else List.replicate (inc_word0^[n - 1 + 1] v).length 0
          flag := if t = 0 then bkey.key.flag_not_xcrypt else true
          off := (n - 1 + 1) * bkey.bsize
          out := (List.range ((n - 1 + 1) * bkey.bsize + t)).map
            (fun i => inp i ^^^ keystream bkey.encrypt bkey.bsize v (n - 1 + 1) t i)
          calls := n - 1 + 1 + (if t = 0 then 0 else 1) } := by
  have hb : 0 < bkey.bsize := by rcases hbs with h | h <;> omega
  unfold xcrypt_run
  rw [if_pos hbs, passes_natCast, xcrypt_loop_zero _ _ hb]
  congr 1
  unfold xcrypt_tail
  by_cases ht : t = 0
  · subst ht
    simp only [Nat.cast_zero, ne_eq, not_true_eq_false, if_false, if_true, Nat.add_zero]
    congr 1
    apply List.map_congr_left
    intro i hi
    have hi' := List.mem_range.mp hi
    simp only [keystream, if_pos hi']
  · have htz : (t : Int) ≠ 0 := by exact_mod_cast ht
    simp only [ne_eq, htz, not_false_eq_true, if_true, Int.toNat_ofNat, ht, if_false]
    congr 1
    rw [List.range_add, List.map_append, List.map_map]
    congr 1
    · apply List.map_congr_left
      intro i hi
      have hi' := List.mem_range.mp hi
      simp only [keystream, if_pos hi']
    · apply List.map_congr_left
      intro i _
      have hn : ¬ ((n - 1 + 1) * bkey.bsize + i < (n - 1 + 1) * bkey.bsize) := by omega
      simp only [Function.comp, keystream, if_neg hn, Nat.add_sub_cancel_left]

/-! ## Lists of blocks -/

theorem length_transform (f : List Nat → List Nat) (bsize : Nat) (src : List Nat) :
    (transform f bsize src).length = bsize := by
  simp [transform]

theorem length_load (m : Mem) (off n : Nat) : (load m off n).length = n := by
  simp [load]

theorem map_getD_range (l : List Nat) (n : Nat) (h : l.length = n) :
    (List.range n).map (fun j => l.getD j 0) = l := by
  subst h
  apply List.ext_getElem
  · simp
  · intro i _ h2
    simp [List.getD_eq_getElem?_getD, h2]

theorem length_flatMap_range (g : Nat → List Nat) (bsize : Nat)
    (hg : ∀ i, (g i).length = bsize) (n : Nat) :
    ((List.range n).flatMap g).length = n * bsize := by
  induction n with
  | zero => simp
  | succ n ih =>
    rw [List.range_succ, List.flatMap_append, List.length_append, ih, List.flatMap_singleton,
      hg, Nat.succ_mul]

theorem getD_flatMap_range (g : Nat → List Nat) (bsize : Nat)
    (hg : ∀ i, (g i).length = bsize) (n i j : Nat) (hi : i < n) (hj : j < bsize) :
    ((List.range n).flatMap g).getD (i * bsize + j) 0 = (g i).getD j 0 := by
  induction n with
  | zero => omega
  | succ n ih =>
    rw [List.range_succ, List.flatMap_append, List.flatMap_singleton]
    have hlen := length_flatMap_range g bsize hg n
    by_cases hin : i < n
    · have hle : (i + 1) * bsize ≤ n * bsize := Nat.mul_le_mul_right bsize hin
      have hlt : i * bsize + j < ((List.range n).flatMap g).length := by
        rw [hlen, Nat.succ_mul] at *
        omega
      rw [List.getD_append _ _ _ _ hlt]
      exact ih hin
    · have hieq : i = n := by omega
      subst hieq
      rw [List.getD_append_right _ _ _ _ (by rw [hlen]; omega), hlen, Nat.add_sub_cancel_left]

theorem load_ofList_flatMap (g : Nat → List Nat) (bsize : Nat)
    (hg : ∀ i, (g i).length = bsize) (n i : Nat) (hi : i < n) :
    load (ofList ((List.range n).flatMap g)) (i * bsize) bsize = g i := by
  unfold load ofList
  refine Eq.trans ?_ (map_getD_range (g i) bsize (hg i))
  apply List.map_congr_left
  intro j hj
  exact getD_flatMap_range g bsize hg n i j hi (List.mem_range.mp hj)

theorem load_add (m : Mem) (a b : Nat) : load m 0 (a + b) = load m 0 a ++ load m a b := by
  unfold load
  rw [List.range_add, List.map_append, List.map_map]
  simp [Function.comp]

theorem flatMap_load (m : Mem) (bsize n : Nat) :
    (List.range n).flatMap (fun i => load m (i * bsize) bsize) = load m 0 (n * bsize) := by
  induction n with
  | zero => simp [load]
  | succ n ih =>
    rw [List.range_succ, List.flatMap_append, ih, List.flatMap_singleton, Nat.succ_mul, load_add]

theorem take_load (m : Mem) (a b : Nat) (h : a ≤ b) : (load m 0 b).take a = load m 0 a := by
  unfold load
  rw [← List.map_take, List.take_range, Nat.min_eq_left h]

/-! ## ECB: alignment, integrity, resource -/

/-- C9: for a non-zero block size and a size that is not a multiple of it, both ECB functions
return `ak_error_wrong_block_cipher_length`, invoke no block transform, store no output byte
and leave the context (hence the resource counter) unchanged. -/
theorem C9_ecb_alignment_check (bkey : bckey) (inp : Mem) (size : Nat)
    (_hb : bkey.bsize ≠ 0) (hal : size % bkey.bsize ≠ 0) :
    (ak_bckey_context_encrypt_ecb bkey inp size).code = .ak_error_wrong_block_cipher_length
    ∧ (ak_bckey_context_encrypt_ecb bkey inp size).calls = 0
    ∧ (ak_bckey_context_encrypt_ecb bkey inp size).out = []
    ∧ (ak_bckey_context_encrypt_ecb bkey inp size).bkey = bkey
    ∧ (ak_bckey_context_decrypt_ecb bkey inp size).code = .ak_error_wrong_block_cipher_length
    ∧ (ak_bckey_context_decrypt_ecb bkey inp size).calls = 0
    ∧ (ak_bckey_context_decrypt_ecb bkey inp size).out = []
    ∧ (ak_bckey_context_decrypt_ecb bkey inp size).bkey = bkey := by
  unfold ak_bckey_context_encrypt_ecb ak_bckey_context_decrypt_ecb
  rw [ecb_mode_unaligned _ _ _ _ hal, ecb_mode_unaligned _ _ _ _ hal]
  simp [fail]

/-- Witness for C9: block size 8, size 3. -/
theorem C9_ecb_alignment_check_witness :
    (ak_bckey_context_encrypt_ecb (toyKey 8 100) (fun i => i) 3).code
        = .ak_error_wrong_block_cipher_length
    ∧ (ak_bckey_context_decrypt_ecb (toyKey 8 100) (fun i => i) 3).out = [] :=
  have h := C9_ecb_alignment_check (toyKey 8 100) (fun i => i) 3 (by decide) (by decide)
  ⟨h.1, h.2.2.2.2.2.2.1⟩

/-- C8, counterexample: with a failing integrity check and the unaligned size 3 on an
8-byte block, `ak_bckey_context_encrypt_ecb` returns `ak_error_wrong_block_cipher_length`,
not `ak_error_wrong_key_icode`. -/
theorem C8_counterexample :
    (badKey 8 100).key.check_icode ≠ true
    ∧ (ak_bckey_context_encrypt_ecb (badKey 8 100) (fun i => i) 3).code
        = .ak_error_wrong_block_cipher_length
    ∧ (ak_bckey_context_encrypt_ecb (badKey 8 100) (fun i => i) 3).code
        ≠ .ak_error_wrong_key_icode := by
  decide

/-- C8, amended: when `check_icode` does not return true, both ECB functions return
`ak_error_wrong_key_icode` for every size that is a multiple of the block size and
`ak_error_wrong_block_cipher_length` for every other size; in both cases no output byte is
stored, no transform is invoked and the context (hence the resource counter) is unchanged. -/
theorem C8_ecb_integrity_gate (bkey : bckey) (inp : Mem) (size : Nat)
    (_hb : bkey.bsize ≠ 0) (hic : bkey.key.check_icode ≠ true) :
    (ak_bckey_context_encrypt_ecb bkey inp size).code
        = (if size % bkey.bsize = 0 then Err.ak_error_wrong_key_icode
           else Err.ak_error_wrong_block_cipher_length)
    ∧ (ak_bckey_context_encrypt_ecb bkey inp size).out = []
    ∧ (ak_bckey_context_encrypt_ecb bkey inp size).calls = 0
    ∧ (ak_bckey_context_encrypt_ecb bkey inp size).bkey = bkey
    ∧ (ak_bckey_context_decrypt_ecb bkey inp size).code
        = (if size % bkey.bsize = 0 then Err.ak_error_wrong_key_icode
           else Err.ak_error_wrong_block_cipher_length)
    ∧ (ak_bckey_context_decrypt_ecb bkey inp size).out = []
    ∧ (ak_bckey_context_decrypt_ecb bkey inp size).calls = 0
    ∧ (ak_bckey_context_decrypt_ecb bkey inp size).bkey = bkey := by
  unfold ak_bckey_context_encrypt_ecb ak_bckey_context_decrypt_ecb
  by_cases hal : size % bkey.bsize = 0
  · rw [ecb_mode_bad_icode _ _ _ _ hal hic, ecb_mode_bad_icode _ _ _ _ hal hic]
    simp [fail, hal]
  · rw [ecb_mode_unaligned _ _ _ _ hal, ecb_mode_unaligned _ _ _ _ hal]
    simp [fail, hal]

/-- Witness for the amended C8: block size 8, aligned size 16, failing integrity check. -/
theorem C8_ecb_integrity_gate_witness :
    (ak_bckey_context_encrypt_ecb (badKey 8 100) (fun i => i) 16).code
        = .ak_error_wrong_key_icode
    ∧ (ak_bckey_context_decrypt_ecb (badKey 8 100) (fun i => i) 16).out = [] :=
  have h := C8_ecb_integrity_gate (badKey 8 100) (fun i => i) 16 (by decide) (by decide)
  ⟨h.1, h.2.2.2.2.2.1⟩

/-- C7: when `check_icode` does not return true, `ak_bckey_context_xcrypt` returns
`ak_error_wrong_key_icode` for every input, size, IV and stored stream state, stores no
output byte, invokes no transform and leaves the context (resource counter, stream state,
continuation flag) unchanged. -/
theorem C7_xcrypt_integrity_gate (bkey : bckey) (inp : Mem) (size : Nat) (iv : Option Mem)
    (iv_size : Nat) (_hb : bkey.bsize ≠ 0) (hic : bkey.key.check_icode ≠ true) :
    (ak_bckey_context_xcrypt bkey inp size iv iv_size).code = .ak_error_wrong_key_icode
    ∧ (ak_bckey_context_xcrypt bkey inp size iv iv_size).out = []
    ∧ (ak_bckey_context_xcrypt bkey inp size iv iv_size).calls = 0
    ∧ (ak_bckey_context_xcrypt bkey inp size iv iv_size).overrun = []
    ∧ (ak_bckey_context_xcrypt bkey inp size iv iv_size).bkey = bkey := by
  rw [xcrypt_bad_icode _ _ _ _ _ hic]
  simp [fail]

/-- Witness for C7: block size 16, 20 bytes, an 8-byte IV, failing integrity check. -/
theorem C7_xcrypt_integrity_gate_witness :
    (ak_bckey_context_xcrypt (badKey 16 100) (fun i => i) 20 (some (fun i => i)) 8).code
        = .ak_error_wrong_key_icode
    ∧ (ak_bckey_context_xcrypt (badKey 16 100) (fun i => i) 20 (some (fun i => i)) 8).out = [] :=
  have h := C7_xcrypt_integrity_gate (badKey 16 100) (fun i => i) 20 (some (fun i => i)) 8
    (by decide) (by decide)
  ⟨h.1, h.2.1⟩

theorem ecb_mode_ok_counter (f : List Nat → List Nat) (bkey : bckey) (inp : Mem) (size : Nat)
    (hs : size < 2 ^ 64) (hok : (ecb_mode f bkey inp size).code = .ak_error_ok) :
    (ecb_mode f bkey inp size).bkey.key.resource_counter
      = bkey.key.resource_counter - ((size / bkey.bsize : Nat) : Int) := by
  by_cases h1 : size % bkey.bsize = 0
  · by_cases h2 : bkey.key.check_icode = true
    · by_cases h3 : bkey.key.resource_counter < toInt64 (size / bkey.bsize)
      · rw [ecb_mode_low _ _ _ _ h1 h2 h3] at hok
        simp [fail] at hok
      · rw [ecb_mode_pass _ _ _ _ h1 h2 h3] at hok ⊢
        have hbs : (spend bkey (toInt64 (size / bkey.bsize))).bsize = 8
            ∨ (spend bkey (toInt64 (size / bkey.bsize))).bsize = 16 :=
          ecb_run_ok_bsize _ _ _ _ hok
        have hbs : bkey.bsize = 8 ∨ bkey.bsize = 16 := hbs
        rw [ecb_run_bkey, toInt64_of_lt (div_lt_of_bsize _ _ hbs hs).1]
        rfl
    · rw [ecb_mode_bad_icode _ _ _ _ h1 h2] at hok
      simp [fail] at hok
  · rw [ecb_mode_unaligned _ _ _ _ h1] at hok
    simp [fail] at hok

theorem xcrypt_masks_counter (bkey : bckey) (inp : Mem) (size : Nat) (iv : Option Mem)
    (iv_size : Nat) (hs : size < 2 ^ 64)
    (h : (ak_bckey_context_xcrypt bkey inp size iv iv_size).masks = 1) :
    (ak_bckey_context_xcrypt bkey inp size iv iv_size).bkey.key.resource_counter
      = bkey.key.resource_counter
        - (((size / bkey.bsize : Nat) : Int) + (if size % bkey.bsize > 0 then 1 else 0)) := by
  by_cases h2 : bkey.key.check_icode = true
  · by_cases h3 : bkey.key.resource_counter < xunits bkey.bsize size
    · rw [xcrypt_low _ _ _ _ _ h2 h3] at h
      simp [fail] at h
    · rw [xcrypt_pass _ _ _ _ _ h2 h3] at h ⊢
      have hbs : (spend bkey (xunits bkey.bsize size)).bsize = 8
          ∨ (spend bkey (xunits bkey.bsize size)).bsize = 16 :=
        (xcrypt_select_masks _ _ _ _ _ _).2 h
      have hbs : bkey.bsize = 8 ∨ bkey.bsize = 16 := hbs
      have hd := div_lt_of_bsize _ _ hbs hs
      rw [xcrypt_select_counter, ← xunits_eq _ _ (units_lt_of_bsize _ _ hbs hs) hd.2]
      rfl
  · rw [xcrypt_bad_icode _ _ _ _ _ h2] at h
    simp [fail] at h

theorem xcrypt_ok_masks (bkey : bckey) (inp : Mem) (size : Nat) (iv : Option Mem)
    (iv_size : Nat) (h : (ak_bckey_context_xcrypt bkey inp size iv iv_size).code = .ak_error_ok) :
    (ak_bckey_context_xcrypt bkey inp size iv iv_size).masks = 1 := by
  by_cases h2 : bkey.key.check_icode = true
  · by_cases h3 : bkey.key.resource_counter < xunits bkey.bsize size
    · rw [xcrypt_low _ _ _ _ _ h2 h3] at h
      simp [fail] at h
    · rw [xcrypt_pass _ _ _ _ _ h2 h3] at h ⊢
      exact (xcrypt_select_masks _ _ _ _ _ _).1 h
  · rw [xcrypt_bad_icode _ _ _ _ _ h2] at h
    simp [fail] at h

/-- C5: whenever an ECB function returns `ak_error_ok` on `size` bytes, the resource counter
afterwards is its value before minus `size / bsize`; whenever `ak_bckey_context_xcrypt`
completes its transform on `size` bytes (it reaches its concluding `set_mask`, which
includes every call returning `ak_error_ok`), the counter afterwards is its value before
minus `size / bsize + (1 if size % bsize > 0 else 0)`. -/
theorem C5_exact_resource_consumption (bkey : bckey) (inp : Mem) (size : Nat)
    (iv : Option Mem) (iv_size : Nat) (hs : size < 2 ^ 64) :
    ((ak_bckey_context_encrypt_ecb bkey inp size).code = .ak_error_ok →
      (ak_bckey_context_encrypt_ecb bkey inp size).bkey.key.resource_counter
        = bkey.key.resource_counter - ((size / bkey.bsize : Nat) : Int))
    ∧ ((ak_bckey_context_decrypt_ecb bkey inp size).code = .ak_error_ok →
      (ak_bckey_context_decrypt_ecb bkey inp size).bkey.key.resource_counter
        = bkey.key.resource_counter - ((size / bkey.bsize : Nat) : Int))
    ∧ ((ak_bckey_context_xcrypt bkey inp size iv iv_size).masks = 1 →
      (ak_bckey_context_xcrypt bkey inp size iv iv_size).bkey.key.resource_counter
        = bkey.key.resource_counter
          - (((size / bkey.bsize : Nat) : Int) + (if size % bkey.bsize > 0 then 1 else 0)))
    ∧ ((ak_bckey_context_xcrypt bkey inp size iv iv_size).code = .ak_error_ok →
      (ak_bckey_context_xcrypt bkey inp size iv iv_size).bkey.key.resource_counter
        = bkey.key.resource_counter
          - (((size / bkey.bsize : Nat) : Int) + (if size % bkey.bsize > 0 then 1 else 0))) :=
  ⟨ecb_mode_ok_counter _ _ _ _ hs, ecb_mode_ok_counter _ _ _ _ hs,
   xcrypt_masks_counter _ _ _ _ _ hs,
   fun h => xcrypt_masks_counter _ _ _ _ _ hs (xcrypt_ok_masks _ _ _ _ _ h)⟩

/-- Witness for C5: block size 8, resource 100; ECB on 24 bytes leaves 97, xcrypt on 19
bytes (two blocks and a tail) leaves 97. -/
theorem C5_exact_resource_consumption_witness :
    (ak_bckey_context_encrypt_ecb (toyKey 8 100) (fun i => i) 24).bkey.key.resource_counter = 97
    ∧ (ak_bckey_context_decrypt_ecb (toyKey 8 100) (fun i => i) 24).bkey.key.resource_counter = 97
    ∧ (ak_bckey_context_xcrypt (toyKey 8 100) (fun i => i) 19 (some (fun i => i)) 4
        ).bkey.key.resource_counter = 97 :=
  have h := C5_exact_resource_consumption (toyKey 8 100) (fun i => i) 24
    (some (fun i => i)) 4 (by decide)
  have h' := C5_exact_resource_consumption (toyKey 8 100) (fun i => i) 19
    (some (fun i => i)) 4 (by decide)
  ⟨h.1 (by decide), h.2.1 (by decide), h'.2.2.2 (by decide)⟩

/-! ## ECB: the blockwise map and the round trip -/

theorem ecb_mode_blocks (f : List Nat → List Nat) (bkey : bckey) (inp : Mem) (n : Nat)
    (hbs : bkey.bsize = 8 ∨ bkey.bsize = 16) (hn : 1 ≤ n) (hs : n * bkey.bsize < 2 ^ 64)
    (hic : bkey.key.check_icode = true) (hres : (n : Int) ≤ bkey.key.resource_counter) :
    ecb_mode f bkey inp (n * bkey.bsize) =
      { code := .ak_error_ok
        bkey := spend bkey (n : Int)
        out := (List.range n).flatMap
                 (fun i => transform f bkey.bsize (load inp (i * bkey.bsize) bkey.bsize))
        calls := n
        masks := 1
        overrun := [] } := by
  have hb : 0 < bkey.bsize := by rcases hbs with h | h <;> omega
  have hdiv : n * bkey.bsize / bkey.bsize = n := Nat.mul_div_cancel n hb
  have hal : n * bkey.bsize % bkey.bsize = 0 := Nat.mul_mod_left n bkey.bsize
  have hres' : ((n * bkey.bsize / bkey.bsize : Nat) : Int) ≤ bkey.key.resource_counter := by
    rw [hdiv]
    exact hres
  rw [ecb_mode_run f bkey inp (n * bkey.bsize) hbs hal hic hs hres', hdiv,
    Nat.sub_add_cancel hn]

/-- C10: for block size 8 or 16, `size = n * bsize` with `n ≥ 1`, a valid integrity code and
sufficient resource, the bytes stored by `ak_bckey_context_encrypt_ecb` (resp.
`ak_bckey_context_decrypt_ecb`) are exactly the concatenation over `i = 0 .. n-1` of the
encrypt (resp. decrypt) transform of input block `i`; so output block `i` is a function of
input block `i` and the key only, exactly `n * bsize` bytes are stored, the transform is
invoked `n` times, and the call returns `ak_error_ok`. -/
theorem C10_ecb_blockwise_map (bkey : bckey) (inp : Mem) (n : Nat)
    (hbs : bkey.bsize = 8 ∨ bkey.bsize = 16) (hn : 1 ≤ n) (hs : n * bkey.bsize < 2 ^ 64)
    (hic : bkey.key.check_icode = true) (hres : (n : Int) ≤ bkey.key.resource_counter) :
    ((ak_bckey_context_encrypt_ecb bkey inp (n * bkey.bsize)).out =
        (List.range n).flatMap
          (fun i => transform bkey.encrypt bkey.bsize (load inp (i * bkey.bsize) bkey.bsize))
      ∧ (ak_bckey_context_encrypt_ecb bkey inp (n * bkey.bsize)).out.length = n * bkey.bsize
      ∧ (ak_bckey_context_encrypt_ecb bkey inp (n * bkey.bsize)).calls = n
      ∧ (ak_bckey_context_encrypt_ecb bkey inp (n * bkey.bsize)).code = .ak_error_ok)
    ∧ ((ak_bckey_context_decrypt_ecb bkey inp (n * bkey.bsize)).out =
        (List.range n).flatMap
          (fun i => transform bkey.decrypt bkey.bsize (load inp (i * bkey.bsize) bkey.bsize))
      ∧ (ak_bckey_context_decrypt_ecb bkey inp (n * bkey.bsize)).out.length = n * bkey.bsize
      ∧ (ak_bckey_context_decrypt_ecb bkey inp (n * bkey.bsize)).calls = n
      ∧ (ak_bckey_context_decrypt_ecb bkey inp (n * bkey.bsize)).code = .ak_error_ok) := by
  unfold ak_bckey_context_encrypt_ecb ak_bckey_context_decrypt_ecb
  rw [ecb_mode_blocks _ bkey inp n hbs hn hs hic hres,
    ecb_mode_blocks _ bkey inp n hbs hn hs hic hres]
  refine ⟨⟨rfl, ?_, rfl, rfl⟩, ⟨rfl, ?_, rfl, rfl⟩⟩
  · exact length_flatMap_range _ _ (fun i => length_transform _ _ _) n
  · exact length_flatMap_range _ _ (fun i => length_transform _ _ _) n

/-- Witness for C10: block size 8, two blocks holding the bytes 0 .. 15. -/
theorem C10_ecb_blockwise_map_witness :
    (ak_bckey_context_encrypt_ecb (toyKey 8 100) (fun i => i) 16).out =
        transform toyE 8 [0, 1, 2, 3, 4, 5, 6, 7] ++ transform toyE 8 [8, 9, 10, 11, 12, 13, 14, 15]
    ∧ (ak_bckey_context_decrypt_ecb (toyKey 8 100) (fun i => i) 16).out.length = 16 :=
  have h := C10_ecb_blockwise_map (toyKey 8 100) (fun i => i) 2 (Or.inl rfl) (by decide)
    (by decide) rfl (by decide)
  ⟨h.1.1.trans (by decide), h.2.2.1⟩

/-- C2: for block size 8 or 16, a decrypt transform that undoes the encrypt transform on
every block of bytes, a valid integrity code, a block-aligned size and a resource that covers
both calls, `ak_bckey_context_decrypt_ecb` applied to the bytes stored by
`ak_bckey_context_encrypt_ecb` on the plaintext `p` (the first `size` bytes at `in`) gives
back `p`, and both calls return `ak_error_ok`.  The first `size` bytes stored by the decrypt
call are `p`; for `size > 0` they are all the bytes it stores (for `size = 0` each loop
still makes one pass). -/
theorem C2_ecb_round_trip (bkey : bckey) (inp : Mem) (size : Nat)
    (hbs : bkey.bsize = 8 ∨ bkey.bsize = 16)
    (hinv : ∀ b : List Nat, b.length = bkey.bsize → (∀ x ∈ b, x < 256) →
      transform bkey.decrypt bkey.bsize (transform bkey.encrypt bkey.bsize b) = b)
    (hbyte : ∀ i, inp i < 256)
    (hic : bkey.key.check_icode = true) (hal : size % bkey.bsize = 0) (hs : size < 2 ^ 64)
    (hres : 2 * ((size / bkey.bsize : Nat) : Int) ≤ bkey.key.resource_counter) :
    (ak_bckey_context_encrypt_ecb bkey inp size).code = .ak_error_ok
    ∧ (ak_bckey_context_decrypt_ecb (ak_bckey_context_encrypt_ecb bkey inp size).bkey
        (ofList (ak_bckey_context_encrypt_ecb bkey inp size).out) size).code = .ak_error_ok
    ∧ (ak_bckey_context_decrypt_ecb (ak_bckey_context_encrypt_ecb bkey inp size).bkey
        (ofList (ak_bckey_context_encrypt_ecb bkey inp size).out) size).out.take size
        = load inp 0 size
    ∧ (0 < size →
        (ak_bckey_context_decrypt_ecb (ak_bckey_context_encrypt_ecb bkey inp size).bkey
          (ofList (ak_bckey_context_encrypt_ecb bkey inp size).out) size).out
          = load inp 0 size) := by
  have hb : 0 < bkey.bsize := by rcases hbs with h | h <;> omega
  have hsz : size / bkey.bsize * bkey.bsize = size :=
    Nat.div_mul_cancel (Nat.dvd_of_mod_eq_zero hal)
  have hres1 : ((size / bkey.bsize : Nat) : Int) ≤ bkey.key.resource_counter := by
    have hnn : (0 : Int) ≤ ((size / bkey.bsize : Nat) : Int) := Int.natCast_nonneg _
    linarith
  have hres2 : ((size / (spend bkey ((size / bkey.bsize : Nat) : Int)).bsize : Nat) : Int)
      ≤ (spend bkey ((size / bkey.bsize : Nat) : Int)).key.resource_counter := by
    show ((size / bkey.bsize : Nat) : Int)
      ≤ bkey.key.resource_counter - ((size / bkey.bsize : Nat) : Int)
    linarith
  have h1 := ecb_mode_run bkey.encrypt bkey inp size hbs hal hic hs hres1
  have h2 := ecb_mode_run bkey.decrypt (spend bkey ((size / bkey.bsize : Nat) : Int))
    (ofList ((List.range (size / bkey.bsize - 1 + 1)).flatMap
      (fun i => transform bkey.encrypt bkey.bsize (load inp (i * bkey.bsize) bkey.bsize))))
    size hbs hal hic hs hres2
  simp only [spend_bsize] at h2
  have hout : (List.range (size / bkey.bsize - 1 + 1)).flatMap
      (fun i => transform bkey.decrypt bkey.bsize
        (load (ofList ((List.range (size / bkey.bsize - 1 + 1)).flatMap
          (fun i => transform bkey.encrypt bkey.bsize (load inp (i * bkey.bsize) bkey.bsize))))
          (i * bkey.bsize) bkey.bsize))
      = load inp 0 ((size / bkey.bsize - 1 + 1) * bkey.bsize) := by
    rw [← flatMap_load]
    apply List.flatMap_congr
    intro i hi
    rw [load_ofList_flatMap _ bkey.bsize (fun i => length_transform _ _ _) _ i
      (List.mem_range.mp hi)]
    apply hinv _ (length_load _ _ _)
    intro x hx
    unfold load at hx
    obtain ⟨j, _, rfl⟩ := List.mem_map.mp hx
    exact hbyte _
  unfold ak_bckey_context_encrypt_ecb ak_bckey_context_decrypt_ecb
  rw [h1]
  refine ⟨rfl, ?_, ?_, ?_⟩
  · show (ecb_mode bkey.decrypt (spend bkey ((size / bkey.bsize : Nat) : Int)) _ size).code = _
    rw [h2]
  · show (ecb_mode bkey.decrypt (spend bkey ((size / bkey.bsize : Nat) : Int)) _ size).out.take
      size = _
    rw [h2]
    show List.take size ((List.range (size / bkey.bsize - 1 + 1)).flatMap _) = _
    rw [hout]
    apply take_load
    calc size = size / bkey.bsize * bkey.bsize := hsz.symm
      _ ≤ (size / bkey.bsize - 1 + 1) * bkey.bsize := Nat.mul_le_mul_right _ (by omega)
  · intro hpos
    have hq : 1 ≤ size / bkey.bsize := by
      rcases Nat.eq_zero_or_pos (size / bkey.bsize) with h0 | h0
      · rw [h0] at hsz
        omega
      · exact h0
    show (ecb_mode bkey.decrypt (spend bkey ((size / bkey.bsize : Nat) : Int)) _ size).out = _
    rw [h2]
    show (List.range (size / bkey.bsize - 1 + 1)).flatMap _ = _
    rw [hout, Nat.sub_add_cancel hq, hsz]

theorem toy_inverse (bsize : Nat) (b : List Nat) (hlen : b.length = bsize)
    (hbyte : ∀ x ∈ b, x < 256) :
    transform toyD bsize (transform toyE bsize b) = b := by
  subst hlen
  apply List.ext_getElem
  · simp [transform]
  · intro i h1 h2
    have hi : i < b.length := h2
    have hx : b[i] < 256 := hbyte _ (List.getElem_mem hi)
    simp only [transform, toyD, toyE, List.getElem_map, List.getElem_range, List.length_map,
      List.length_range, List.getD_eq_getElem?_getD, List.getElem?_map, List.getElem?_range hi,
      Option.map_some', Option.getD_some, List.getElem?_eq_getElem hi]
    omega

/-- Witness for C2: block size 8, the toy transforms, 16 bytes of plaintext. -/
theorem C2_ecb_round_trip_witness :
    (ak_bckey_context_decrypt_ecb
        (ak_bckey_context_encrypt_ecb (toyKey 8 100) (fun i => i % 256) 16).bkey
        (ofList (ak_bckey_context_encrypt_ecb (toyKey 8 100) (fun i => i % 256) 16).out) 16).out
      = load (fun i => i % 256) 0 16 :=
  (C2_ecb_round_trip (toyKey 8 100) (fun i => i % 256) 16 (Or.inl rfl)
    (fun b hl hb => toy_inverse 8 b hl hb) (fun i => Nat.mod_lt i (by decide)) rfl
    (by decide) (by decide) (by decide)).2.2.2 (by decide)

/-! ## xcrypt with a fresh IV -/

/-- A call of `ak_bckey_context_xcrypt` with an IV of at least half a block, on a supported
block size, with valid integrity code and sufficient resource: what it stores and the
context it leaves. -/
theorem xcrypt_fresh (bkey : bckey) (inp : Mem) (size : Nat) (ivm : Mem) (iv_size : Nat)
    (hbs : bkey.bsize = 8 ∨ bkey.bsize = 16) (hic : bkey.key.check_icode = true)
    (hset : bkey.set_size = .ak_error_ok)
    (hs : size < 2 ^ 64) (hiv : bkey.bsize / 2 ≤ iv_size)
    (hres : ((size / bkey.bsize : Nat) : Int) + (if size % bkey.bsize > 0 then 1 else 0)
      ≤ bkey.key.resource_counter) :
    ak_bckey_context_xcrypt bkey inp size (some ivm) iv_size =
      xcrypt_finish
        (reseed (spend bkey (((size / bkey.bsize : Nat) : Int)
          + (if size % bkey.bsize > 0 then 1 else 0))) (seed bkey.bsize ivm iv_size))
        (seed_overrun bkey.bsize ivm iv_size)
        { ivector :=
            if size % bkey.bsize = 0 then
              inc_word0^[size / bkey.bsize - 1 + 1] (seed bkey.bsize ivm iv_size)
            else List.replicate
              (inc_word0^[size / bkey.bsize - 1 + 1] (seed bkey.bsize ivm iv_size)).length 0
          flag := if size % bkey.bsize = 0 then false else true
          off := (size / bkey.bsize - 1 + 1) * bkey.bsize
          out := (List.range ((size / bkey.bsize - 1 + 1) * bkey.bsize + size % bkey.bsize)).map
            (fun i => inp i ^^^ keystream bkey.encrypt bkey.bsize (seed bkey.bsize ivm iv_size)
              (size / bkey.bsize - 1 + 1) (size % bkey.bsize) i)
          calls := size / bkey.bsize - 1 + 1 + (if size % bkey.bsize = 0 then 0 else 1) } := by
  have hd := div_lt_of_bsize _ _ hbs hs
  have hu := xunits_eq bkey.bsize size (units_lt_of_bsize _ _ hbs hs) hd.2
  have hres' : ¬ bkey.key.resource_counter < xunits bkey.bsize size := by
    rw [hu]
    exact not_lt.mpr hres
  have hz : iv_size ≠ 0 := by rcases hbs with h | h <;> rw [h] at hiv <;> omega
  rw [xcrypt_pass bkey inp size (some ivm) iv_size hic hres', hu, toInt64_of_lt hd.1,
    toInt64_of_lt hd.2]
  unfold xcrypt_select
  simp only [if_neg hz, spend_bsize]
  rw [if_neg (not_lt.mpr hiv), if_neg (not_not.mpr (show (spend bkey _).set_size = _ from hset))]
  exact xcrypt_run_eq _ inp _ _ _ _ hbs

theorem getD_map_range (f : Nat → Nat) (n i : Nat) (hi : i < n) :
    ((List.range n).map f).getD i 0 = f i := by
  rw [List.getD_eq_getElem _ _ (by simpa using hi)]
  simp

/-- Applying the same keystream twice gives back the input. -/
theorem xor_twice (inp K : Nat → Nat) (n : Nat) :
    (List.range n).map (fun i => ofList ((List.range n).map (fun i => inp i ^^^ K i)) i ^^^ K i)
      = load inp 0 n := by
  unfold load
  apply List.map_congr_left
  intro i hi
  have hi' := List.mem_range.mp hi
  unfold ofList
  rw [getD_map_range _ _ _ hi', Nat.xor_cancel_right, Nat.zero_add]

/-- C3: for block size 8 or 16, a valid integrity code, a resource sufficient for two calls,
`ak_buffer_set_size` succeeding, an IV of at least `bsize / 2` bytes and a buffer of any
length `size`,
`ak_bckey_context_xcrypt` with that IV applied to the bytes stored by
`ak_bckey_context_xcrypt` with the same IV on the buffer gives back the buffer: the first
`size` bytes stored by the second call are the first `size` bytes at `in`. -/
theorem C3_gamma_self_inverse (bkey : bckey) (inp : Mem) (size : Nat) (ivm : Mem)
    (iv_size : Nat)
    (hbs : bkey.bsize = 8 ∨ bkey.bsize = 16) (hic : bkey.key.check_icode = true)
    (hset : bkey.set_size = .ak_error_ok)
    (hs : size < 2 ^ 64) (hiv : bkey.bsize / 2 ≤ iv_size)
    (hres : 2 * (((size / bkey.bsize : Nat) : Int) + (if size % bkey.bsize > 0 then 1 else 0))
      ≤ bkey.key.resource_counter) :
    (ak_bckey_context_xcrypt
        (ak_bckey_context_xcrypt bkey inp size (some ivm) iv_size).bkey
        (ofList (ak_bckey_context_xcrypt bkey inp size (some ivm) iv_size).out)
        size (some ivm) iv_size).out.take size
      = load inp 0 size := by
  have hnn : (0 : Int) ≤ ((size / bkey.bsize : Nat) : Int)
      + (if size % bkey.bsize > 0 then 1 else 0) := by
    have h0 : (0 : Int) ≤ ((size / bkey.bsize : Nat) : Int) := Int.natCast_nonneg _
    split_ifs <;> linarith
  have hres1 : ((size / bkey.bsize : Nat) : Int) + (if size % bkey.bsize > 0 then 1 else 0)
      ≤ bkey.key.resource_counter := by linarith
  have h1 := xcrypt_fresh bkey inp size ivm iv_size hbs hic hset hs hiv hres1
  rw [h1]
  have hres2 : ((size / bkey.bsize : Nat) : Int) + (if size % bkey.bsize > 0 then 1 else 0)
      ≤ bkey.key.resource_counter
        - (((size / bkey.bsize : Nat) : Int) + (if size % bkey.bsize > 0 then 1 else 0)) := by
    linarith
  have h2 := xcrypt_fresh
    (xcrypt_finish
        (reseed (spend bkey (((size / bkey.bsize : Nat) : Int)
          + (if size % bkey.bsize > 0 then 1 else 0))) (seed bkey.bsize ivm iv_size))
        (seed_overrun bkey.bsize ivm iv_size)
        { ivector :=
            if size % bkey.bsize = 0 then
              inc_word0^[size / bkey.bsize - 1 + 1] (seed bkey.bsize ivm iv_size)
            else List.replicate
              (inc_word0^[size / bkey.bsize - 1 + 1] (seed bkey.bsize ivm iv_size)).length 0
          flag := if size % bkey.bsize = 0 then false else true
          off := (size / bkey.bsize - 1 + 1) * bkey.bsize
          out := (List.range ((size / bkey.bsize - 1 + 1) * bkey.bsize + size % bkey.bsize)).map
            (fun i => inp i ^^^ keystream bkey.encrypt bkey.bsize (seed bkey.bsize ivm iv_size)
              (size / bkey.bsize - 1 + 1) (size % bkey.bsize) i)
          calls := size / bkey.bsize - 1 + 1 + (if size % bkey.bsize = 0 then 0 else 1) }).bkey
    (ofList ((List.range ((size / bkey.bsize - 1 + 1) * bkey.bsize + size % bkey.bsize)).map
            (fun i => inp i ^^^ keystream bkey.encrypt bkey.bsize (seed bkey.bsize ivm iv_size)
              (size / bkey.bsize - 1 + 1) (size % bkey.bsize) i)))
    size ivm iv_size hbs hic hset hs hiv hres2
  simp only [xcrypt_finish] at h2 ⊢
  rw [h2]
  simp only [reseed, spend]
  rw [xor_twice]
  apply take_load
  have hdm := Nat.div_add_mod size bkey.bsize
  have hle : size / bkey.bsize * bkey.bsize ≤ (size / bkey.bsize - 1 + 1) * bkey.bsize :=
    Nat.mul_le_mul_right _ (by omega)
  rw [Nat.mul_comm] at hdm
  omega

/-- Witness for C3: block size 8, a 4-byte IV, a buffer of 11 bytes. -/
theorem C3_gamma_self_inverse_witness :
    (ak_bckey_context_xcrypt
        (ak_bckey_context_xcrypt (toyKey 8 100) (fun i => i) 11 (some (fun i => 10 + i)) 4).bkey
        (ofList
          (ak_bckey_context_xcrypt (toyKey 8 100) (fun i => i) 11 (some (fun i => 10 + i)) 4).out)
        11 (some (fun i => 10 + i)) 4).out.take 11
      = [0, 1, 2, 3, 4, 5, 6, 7, 8, 9, 10] :=
  (C3_gamma_self_inverse (toyKey 8 100) (fun i => i) 11 (fun i => 10 + i) 4 (Or.inl rfl) rfl
    rfl (by decide) (by decide) (by decide)).trans (by decide)

/-! ## Resuming after a tail -/

/-- C1, evaluation at the failing input: block size 8, a 4-byte IV, a buffer of 11 bytes.
One call on the 11 bytes stores `39, 62, 53` at offsets 8 .. 10; the fragments 8 + 3 store
`10, 1, 5` there, and the second fragment call stores 11 bytes although its size is 3. -/
theorem C1_fragments_with_short_last_chunk :
    load (xcrypt_chunks (ofList [0, 1, 2, 3, 4, 5, 6, 7, 8, 9, 10]) (some (ofList [10, 11, 12, 13]))
        4 [11] (toyKey 8 100, 0, fun _ => 0)).2.2 0 11
      = [1, 9, 13, 21, 35, 42, 49, 56, 39, 62, 53]
    ∧ load (xcrypt_chunks (ofList [0, 1, 2, 3, 4, 5, 6, 7, 8, 9, 10])
        (some (ofList [10, 11, 12, 13])) 4 [8, 3] (toyKey 8 100, 0, fun _ => 0)).2.2 0 11
      = [1, 9, 13, 21, 35, 42, 49, 56, 10, 1, 5]
    ∧ (ak_bckey_context_xcrypt
        (ak_bckey_context_xcrypt (toyKey 8 100) (ofList [0, 1, 2, 3, 4, 5, 6, 7, 8, 9, 10]) 8
          (some (ofList [10, 11, 12, 13])) 4).bkey
        (shift (ofList [0, 1, 2, 3, 4, 5, 6, 7, 8, 9, 10]) 8) 3 none 0).out.length = 11 := by
  decide

/-! ## The counter word -/

theorem length_bytes64 (w : Nat) : (bytes64 w).length = 8 := by
  simp [bytes64]

theorem le64_append (a r : List Nat) (ha : a.length = 8) : le64 (a ++ r) = le64 a := by
  unfold le64
  apply congrArg
  apply List.map_congr_left
  intro j hj
  have hj' : j < a.length := by
    rw [ha]
    exact List.mem_range.mp hj
  rw [List.getD_append _ _ _ _ hj']

theorem le64_bytes64 (w : Nat) (hw : w < 2 ^ 64) : le64 (bytes64 w) = w := by
  simp only [le64, bytes64, List.range, List.range.loop, List.map, List.getD_cons_zero,
    List.getD_cons_succ, List.sum_cons, List.sum_nil]
  norm_num
  omega

theorem le64_inc_word0 (v : List Nat) : le64 (inc_word0 v) = (le64 v + 1) % 2 ^ 64 := by
  unfold inc_word0
  rw [le64_append _ _ (length_bytes64 _), le64_bytes64 _ (Nat.mod_lt _ (by norm_num))]

theorem drop_inc_word0 (v : List Nat) : (inc_word0 v).drop 8 = v.drop 8 := by
  unfold inc_word0
  rw [List.drop_append_of_le_length (by rw [length_bytes64]), List.drop_of_length_le
    (by rw [length_bytes64]), List.nil_append]

theorem length_inc_word0 (v : List Nat) (h : 8 ≤ v.length) :
    (inc_word0 v).length = v.length := by
  unfold inc_word0
  rw [List.length_append, length_bytes64, List.length_drop]
  omega

theorem length_iterate_inc (v : List Nat) (h : 8 ≤ v.length) (n : Nat) :
    (inc_word0^[n] v).length = v.length := by
  induction n with
  | zero => rfl
  | succ n ih =>
    rw [Function.iterate_succ_apply', length_inc_word0 _ (by rw [ih]; exact h), ih]

theorem drop_iterate_inc (v : List Nat) (n : Nat) : (inc_word0^[n] v).drop 8 = v.drop 8 := by
  induction n with
  | zero => rfl
  | succ n ih => rw [Function.iterate_succ_apply', drop_inc_word0, ih]

theorem le64_iterate_inc (v : List Nat) (n : Nat) (hn : 1 ≤ n) :
    le64 (inc_word0^[n] v) = (le64 v + n) % 2 ^ 64 := by
  induction n with
  | zero => omega
  | succ n ih =>
    rw [Function.iterate_succ_apply', le64_inc_word0]
    rcases Nat.eq_zero_or_pos n with h0 | h0
    · subst h0
      rfl
    · rw [ih h0]
      omega

theorem length_seed (bsize : Nat) (iv : Mem) (iv_size : Nat) :
    (seed bsize iv iv_size).length = bsize := by
  simp [seed]

/-! ## Completed xcrypt calls -/

theorem start_seed_spend (bkey : bckey) (u : Int) (iv : Option Mem) (iv_size : Nat) :
    start_seed (spend bkey u) iv iv_size = start_seed bkey iv iv_size := rfl

theorem xcrypt_finish_reseed (bkey : bckey) (w ov : List Nat) (s : XState) :
    xcrypt_finish (reseed bkey w) ov s = xcrypt_finish bkey ov s := rfl

/-- A run of `xcrypt_select` that reaches `set_mask` started from `start_seed` and ends in
`final_state`. -/
theorem xcrypt_select_completed (b : bckey) (inp : Mem) (n t : Nat) (iv : Option Mem)
    (iv_size : Nat) (hbs : b.bsize = 8 ∨ b.bsize = 16)
    (hrun : (xcrypt_select b inp (n : Int) (t : Int) iv iv_size).masks = 1) :
    ∃ v ov, start_seed b iv iv_size = some v
      ∧ xcrypt_select b inp (n : Int) (t : Int) iv iv_size
        = xcrypt_finish b ov (final_state b.encrypt b.bsize inp v (n - 1 + 1) t) := by
  unfold xcrypt_select start_seed at *
  cases hsel : (if iv_size = 0 then none else iv) with
  | none =>
    rw [hsel] at hrun
    simp only at hrun ⊢
    cases hv : b.ivector with
    | none =>
      rw [hv] at hrun
      simp [fail] at hrun
    | some v =>
      rw [hv] at hrun
      simp only at hrun ⊢
      by_cases hfl : b.key.flag_not_xcrypt = true
      · rw [if_pos hfl] at hrun
        simp [fail] at hrun
      · refine ⟨v, [], rfl, ?_⟩
        rw [if_neg hfl, xcrypt_run_eq _ _ _ _ _ _ hbs]
        have hf : b.key.flag_not_xcrypt = false := by simpa using hfl
        simp only [final_state, hf]
  | some ivm =>
    rw [hsel] at hrun
    simp only at hrun ⊢
    by_cases hiv : iv_size < b.bsize / 2
    · rw [if_pos hiv] at hrun
      simp [fail] at hrun
    · rw [if_neg hiv] at hrun
      by_cases hss : b.set_size ≠ .ak_error_ok
      · rw [if_pos hss] at hrun
        simp [fail] at hrun
      · refine ⟨seed b.bsize ivm iv_size, seed_overrun b.bsize ivm iv_size, rfl, ?_⟩
        rw [if_neg hiv, if_neg hss,
          xcrypt_run_eq _ _ _ _ _ _ (show (reseed b _).bsize = 8 ∨ _ from hbs),
          xcrypt_finish_reseed]
        rfl

/-- A call of `ak_bckey_context_xcrypt` that reaches its concluding `set_mask`: the checks
it passed, the seed it started from, and the outcome. -/
theorem xcrypt_completed (bkey : bckey) (inp : Mem) (size : Nat) (iv : Option Mem)
    (iv_size : Nat) (hs : size < 2 ^ 64)
    (hrun : (ak_bckey_context_xcrypt bkey inp size iv iv_size).masks = 1) :
    (bkey.bsize = 8 ∨ bkey.bsize = 16) ∧ bkey.key.check_icode = true
    ∧ ((size / bkey.bsize : Nat) : Int) + (if size % bkey.bsize > 0 then 1 else 0)
        ≤ bkey.key.resource_counter
    ∧ ∃ v ov, start_seed bkey iv iv_size = some v
      ∧ ak_bckey_context_xcrypt bkey inp size iv iv_size
        = xcrypt_finish
            (spend bkey (((size / bkey.bsize : Nat) : Int)
              + (if size % bkey.bsize > 0 then 1 else 0)))
            ov
            (final_state bkey.encrypt bkey.bsize inp v (size / bkey.bsize - 1 + 1)
              (size % bkey.bsize)) := by
  by_cases h2 : bkey.key.check_icode = true
  · by_cases h3 : bkey.key.resource_counter < xunits bkey.bsize size
    · rw [xcrypt_low _ _ _ _ _ h2 h3] at hrun
      simp [fail] at hrun
    · rw [xcrypt_pass _ _ _ _ _ h2 h3] at hrun ⊢
      have hbs : (spend bkey (xunits bkey.bsize size)).bsize = 8
          ∨ (spend bkey (xunits bkey.bsize size)).bsize = 16 :=
        (xcrypt_select_masks _ _ _ _ _ _).2 hrun
      have hbs' : bkey.bsize = 8 ∨ bkey.bsize = 16 := hbs
      have hd := div_lt_of_bsize _ _ hbs' hs
      have hu := xunits_eq bkey.bsize size (units_lt_of_bsize _ _ hbs' hs) hd.2
      rw [hu] at h3 hrun ⊢
      rw [toInt64_of_lt hd.1, toInt64_of_lt hd.2] at hrun ⊢
      obtain ⟨v, ov, hv, heq⟩ := xcrypt_select_completed
        (spend bkey (((size / bkey.bsize : Nat) : Int) + (if size % bkey.bsize > 0 then 1 else 0)))
        inp (size / bkey.bsize) (size % bkey.bsize) iv iv_size hbs' hrun
      exact ⟨hbs', h2, not_lt.mp h3, v, ov, hv, heq⟩
  · rw [xcrypt_bad_icode _ _ _ _ _ h2] at hrun
    simp [fail] at hrun

theorem xcrypt_resume (bkey : bckey) (inp : Mem) (size : Nat) (iv : Option Mem) (iv_size : Nat)
    (v : List Nat)
    (hbs : bkey.bsize = 8 ∨ bkey.bsize = 16) (hic : bkey.key.check_icode = true)
    (hs : size < 2 ^ 64) (hno : iv = none ∨ iv_size = 0)
    (hv : bkey.ivector = some v) (hfl : bkey.key.flag_not_xcrypt = false)
    (hres : ((size / bkey.bsize : Nat) : Int) + (if size % bkey.bsize > 0 then 1 else 0)
      ≤ bkey.key.resource_counter) :
    ak_bckey_context_xcrypt bkey inp size iv iv_size =
      xcrypt_finish
        (spend bkey (((size / bkey.bsize : Nat) : Int)
          + (if size % bkey.bsize > 0 then 1 else 0)))
        []
        (final_state bkey.encrypt bkey.bsize inp v (size / bkey.bsize - 1 + 1)
          (size % bkey.bsize)) := by
  have hd := div_lt_of_bsize _ _ hbs hs
  have hu := xunits_eq bkey.bsize size (units_lt_of_bsize _ _ hbs hs) hd.2
  have hres' : ¬ bkey.key.resource_counter < xunits bkey.bsize size := by
    rw [hu]
    exact not_lt.mpr hres
  have hsel : (if iv_size = 0 then none else iv) = none := by
    rcases hno with h | h
    · rw [h]
      simp
    · rw [if_pos h]
  rw [xcrypt_pass bkey inp size iv iv_size hic hres', hu, toInt64_of_lt hd.1,
    toInt64_of_lt hd.2]
  unfold xcrypt_select
  rw [hsel]
  simp only
  have hv' : (spend bkey (((size / bkey.bsize : Nat) : Int)
      + (if size % bkey.bsize > 0 then 1 else 0))).ivector = some v := hv
  rw [hv']
  simp only
  have hfl' : ¬ (spend bkey (((size / bkey.bsize : Nat) : Int)
      + (if size % bkey.bsize > 0 then 1 else 0))).key.flag_not_xcrypt = true := by
    show ¬ bkey.key.flag_not_xcrypt = true
    rw [hfl]
    decide
  rw [if_neg hfl', xcrypt_run_eq _ _ _ _ _ _ (show (spend bkey _).bsize = 8 ∨ _ from hbs)]
  show xcrypt_finish _ _ _ = xcrypt_finish _ _ _
  congr 1
  simp only [final_state, spend, hfl]

/-! ## Keystream of full blocks -/

theorem map_range_blocks (f : Nat → Nat) (bsize n : Nat) :
    (List.range (n * bsize)).map f
      = (List.range n).flatMap (fun i => (List.range bsize).map (fun j => f (i * bsize + j))) := by
  induction n with
  | zero => simp
  | succ n ih =>
    rw [Nat.succ_mul, List.range_add, List.map_append, ih, List.range_succ,
      List.flatMap_append, List.flatMap_singleton, List.map_map]
    rfl

theorem div_mod_block (bsize i j : Nat) (hj : j < bsize) :
    (i * bsize + j) / bsize = i ∧ (i * bsize + j) % bsize = j := by
  have hb : 0 < bsize := by omega
  constructor
  · rw [Nat.mul_comm, Nat.mul_add_div hb, Nat.div_eq_of_lt hj, Nat.add_zero]
  · rw [Nat.mul_comm, Nat.mul_add_mod, Nat.mod_eq_of_lt hj]

theorem gammaByte_block (E : List Nat → List Nat) (bsize : Nat) (v : List Nat) (i j : Nat)
    (hj : j < bsize) :
    gammaByte E bsize v (i * bsize + j) = (transform E bsize (inc_word0^[i] v)).getD j 0 := by
  unfold gammaByte
  rw [(div_mod_block bsize i j hj).1, (div_mod_block bsize i j hj).2]

theorem gammaByte_shift (E : List Nat → List Nat) (bsize : Nat) (hb : 0 < bsize)
    (v : List Nat) (n i : Nat) :
    gammaByte E bsize (inc_word0^[n] v) i = gammaByte E bsize v (n * bsize + i) := by
  unfold gammaByte
  have h1 : (n * bsize + i) / bsize = i / bsize + n := by
    rw [Nat.add_comm, Nat.add_mul_div_right _ _ hb]
  have h2 : (n * bsize + i) % bsize = i % bsize := by
    rw [Nat.add_comm, Nat.add_mul_mod_self_right]
  rw [h1, h2, Function.iterate_add_apply]

theorem xcrypt_fresh_blocks (bkey : bckey) (inp : Mem) (n : Nat) (ivm : Mem) (iv_size : Nat)
    (hbs : bkey.bsize = 8 ∨ bkey.bsize = 16) (hn : 1 ≤ n) (hs : n * bkey.bsize < 2 ^ 64)
    (hic : bkey.key.check_icode = true) (hset : bkey.set_size = .ak_error_ok)
    (hiv : bkey.bsize / 2 ≤ iv_size)
    (hres : (n : Int) ≤ bkey.key.resource_counter) :
    (ak_bckey_context_xcrypt bkey inp (n * bkey.bsize) (some ivm) iv_size).out =
        (List.range n).flatMap (fun i => (List.range bkey.bsize).map (fun j =>
          inp (i * bkey.bsize + j) ^^^
            (transform bkey.encrypt bkey.bsize
              (inc_word0^[i] (seed bkey.bsize ivm iv_size))).getD j 0))
    ∧ (ak_bckey_context_xcrypt bkey inp (n * bkey.bsize) (some ivm) iv_size).calls = n
    ∧ (ak_bckey_context_xcrypt bkey inp (n * bkey.bsize) (some ivm) iv_size).bkey.ivector
        = some (inc_word0^[n] (seed bkey.bsize ivm iv_size))
    ∧ (ak_bckey_context_xcrypt bkey inp (n * bkey.bsize) (some ivm) iv_size).code
        = bkey.key.set_mask := by
  have hb : 0 < bkey.bsize := by rcases hbs with h | h <;> omega
  have hdiv : n * bkey.bsize / bkey.bsize = n := Nat.mul_div_cancel n hb
  have hmod : n * bkey.bsize % bkey.bsize = 0 := Nat.mul_mod_left n bkey.bsize
  have hres' : ((n * bkey.bsize / bkey.bsize : Nat) : Int)
      + (if n * bkey.bsize % bkey.bsize > 0 then 1 else 0) ≤ bkey.key.resource_counter := by
    rw [hdiv, hmod]
    simpa using hres
  have h := xcrypt_fresh bkey inp (n * bkey.bsize) ivm iv_size hbs hic hset hs hiv hres'
  rw [hdiv, hmod, Nat.sub_add_cancel hn] at h
  rw [h]
  refine ⟨?_, ?_, ?_, rfl⟩
  · show (List.range (n * bkey.bsize + 0)).map _ = _
    rw [Nat.add_zero, map_range_blocks]
    apply List.flatMap_congr
    intro i hi
    apply List.map_congr_left
    intro j hj
    have hi' := List.mem_range.mp hi
    have hj' := List.mem_range.mp hj
    have hlt : i * bkey.bsize + j < n * bkey.bsize := by
      have hle : (i + 1) * bkey.bsize ≤ n * bkey.bsize := Nat.mul_le_mul_right _ hi'
      rw [Nat.succ_mul] at hle
      omega
    simp only [keystream, if_pos hlt, gammaByte_block _ _ _ _ _ hj']
  · simp [xcrypt_finish]
  · simp [xcrypt_finish]

/-- C11: for block size 8 or 16, a fresh IV and `size = n * bsize` with `n ≥ 1` (valid
integrity code, sufficient resource, `ak_buffer_set_size` succeeding), output block `i` of
`ak_bckey_context_xcrypt` is input
block `i` XOR the encryption of `seed_i`, where `seed_0` is the freshly built seed and
`seed_(i+1) = inc_word0 seed_i`, i.e. `seed_i` with its first 64-bit word incremented by one
modulo `2 ^ 64` and every byte from offset 8 on unchanged; the encrypt transform is invoked
`n` times and the decrypt transform is not used (replacing it changes nothing). -/
theorem C11_gamma_full_blocks (bkey : bckey) (inp : Mem) (n : Nat) (ivm : Mem) (iv_size : Nat)
    (hbs : bkey.bsize = 8 ∨ bkey.bsize = 16) (hn : 1 ≤ n) (hs : n * bkey.bsize < 2 ^ 64)
    (hic : bkey.key.check_icode = true) (hset : bkey.set_size = .ak_error_ok)
    (hiv : bkey.bsize / 2 ≤ iv_size)
    (hres : (n : Int) ≤ bkey.key.resource_counter) :
    (ak_bckey_context_xcrypt bkey inp (n * bkey.bsize) (some ivm) iv_size).out =
        (List.range n).flatMap (fun i => (List.range bkey.bsize).map (fun j =>
          inp (i * bkey.bsize + j) ^^^
            (transform bkey.encrypt bkey.bsize
              (inc_word0^[i] (seed bkey.bsize ivm iv_size))).getD j 0))
    ∧ (ak_bckey_context_xcrypt bkey inp (n * bkey.bsize) (some ivm) iv_size).calls = n
    ∧ (∀ v : List Nat, le64 (inc_word0 v) = (le64 v + 1) % 2 ^ 64
        ∧ (inc_word0 v).drop 8 = v.drop 8)
    ∧ (∀ D : List Nat → List Nat,
        (ak_bckey_context_xcrypt { bkey with decrypt := D } inp (n * bkey.bsize) (some ivm)
            iv_size).out
          = (ak_bckey_context_xcrypt bkey inp (n * bkey.bsize) (some ivm) iv_size).out
        ∧ (ak_bckey_context_xcrypt { bkey with decrypt := D } inp (n * bkey.bsize) (some ivm)
            iv_size).bkey.ivector
          = (ak_bckey_context_xcrypt bkey inp (n * bkey.bsize) (some ivm) iv_size).bkey.ivector
        ∧ (ak_bckey_context_xcrypt { bkey with decrypt := D } inp (n * bkey.bsize) (some ivm)
            iv_size).code
          = (ak_bckey_context_xcrypt bkey inp (n * bkey.bsize) (some ivm) iv_size).code) := by
  have h := xcrypt_fresh_blocks bkey inp n ivm iv_size hbs hn hs hic hset hiv hres
  refine ⟨h.1, h.2.1, fun v => ⟨le64_inc_word0 v, drop_inc_word0 v⟩, ?_⟩
  intro D
  have hD := xcrypt_fresh_blocks { bkey with decrypt := D } inp n ivm iv_size hbs hn hs hic
    hset hiv hres
  exact ⟨hD.1.trans h.1.symm, hD.2.2.1.trans h.2.2.1.symm, hD.2.2.2.trans h.2.2.2.symm⟩

/-- Witness for C11: block size 8, IV 10, 11, 12, 13, two blocks holding the bytes 0 .. 15. -/
theorem C11_gamma_full_blocks_witness :
    (ak_bckey_context_xcrypt (toyKey 8 100) (fun i => i) 16 (some (fun i => 10 + i)) 4).out
      = [1, 9, 13, 21, 35, 42, 49, 56, 10, 1, 5, 29, 43, 34, 57, 48]
    ∧ (ak_bckey_context_xcrypt (toyKey 8 100) (fun i => i) 16 (some (fun i => 10 + i)) 4).calls
      = 2 :=
  have h := C11_gamma_full_blocks (toyKey 8 100) (fun i => i) 2 (fun i => 10 + i) 4
    (Or.inl rfl) (by decide) (by decide) rfl rfl (by decide) (by decide)
  ⟨h.1.trans (by decide), h.2.1⟩

theorem xcrypt_resume_getD (B : bckey) (inp2 : Mem) (size2 : Nat) (w : List Nat)
    (hbs : B.bsize = 8 ∨ B.bsize = 16) (hic : B.key.check_icode = true)
    (hs2 : size2 < 2 ^ 64) (hvB : B.ivector = some w) (hflB : B.key.flag_not_xcrypt = false)
    (hres2 : ((size2 / B.bsize : Nat) : Int) + (if size2 % B.bsize > 0 then 1 else 0)
      ≤ B.key.resource_counter)
    (hm : 1 ≤ size2 / B.bsize) (i : Nat) (hi : i < size2 / B.bsize * B.bsize) :
    (ak_bckey_context_xcrypt B inp2 size2 none 0).out.getD i 0
      = inp2 i ^^^ gammaByte B.encrypt B.bsize w i := by
  rw [xcrypt_resume B inp2 size2 none 0 w hbs hic hs2 (Or.inl rfl) hvB hflB hres2]
  simp only [xcrypt_finish, final_state]
  rw [Nat.sub_add_cancel hm, getD_map_range _ _ _ (by omega)]
  simp only [keystream, if_pos hi]

/-! ## End states -/

/-- C12: after a successful `ak_bckey_context_xcrypt` call on `size = n * bsize` bytes with
`n ≥ 1`, the flag `bckey_flag_not_xcrypt` is clear and `ivector` holds the seed `v` the call
started from (fresh seed or stored state) after `n` increments of its first 64-bit word:
that word is advanced by exactly `n` modulo `2 ^ 64` and the bytes from offset 8 on are those
of `v`.  A following call without IV therefore continues the keystream at block index `n`:
byte `i` of its full blocks is its input XOR keystream byte `n * bsize + i` of the stream
started from `v`. -/
theorem C12_aligned_end_state (bkey : bckey) (inp : Mem) (n : Nat) (iv : Option Mem)
    (iv_size : Nat) (hn : 1 ≤ n) (hs : n * bkey.bsize < 2 ^ 64)
    (hok : (ak_bckey_context_xcrypt bkey inp (n * bkey.bsize) iv iv_size).code
      = .ak_error_ok) :
    (ak_bckey_context_xcrypt bkey inp (n * bkey.bsize) iv iv_size).bkey.key.flag_not_xcrypt
      = false
    ∧ ∃ v, start_seed bkey iv iv_size = some v
      ∧ (ak_bckey_context_xcrypt bkey inp (n * bkey.bsize) iv iv_size).bkey.ivector
        = some (inc_word0^[n] v)
      ∧ le64 (inc_word0^[n] v) = (le64 v + n) % 2 ^ 64
      ∧ (inc_word0^[n] v).drop 8 = v.drop 8
      ∧ ∀ (inp2 : Mem) (size2 : Nat), size2 < 2 ^ 64 → 1 ≤ size2 / bkey.bsize →
          ((size2 / bkey.bsize : Nat) : Int) + (if size2 % bkey.bsize > 0 then 1 else 0)
            ≤ (ak_bckey_context_xcrypt bkey inp (n * bkey.bsize) iv iv_size
                ).bkey.key.resource_counter →
          ∀ i, i < size2 / bkey.bsize * bkey.bsize →
            (ak_bckey_context_xcrypt
                (ak_bckey_context_xcrypt bkey inp (n * bkey.bsize) iv iv_size).bkey
                inp2 size2 none 0).out.getD i 0
              = inp2 i ^^^ gammaByte bkey.encrypt bkey.bsize v (n * bkey.bsize + i) := by
  have hrun := xcrypt_ok_masks _ _ _ _ _ hok
  obtain ⟨hbs, hic, _, v, ov, hv, heq⟩ := xcrypt_completed bkey inp (n * bkey.bsize) iv iv_size
    hs hrun
  have hb : 0 < bkey.bsize := by rcases hbs with h | h <;> omega
  have hdiv : n * bkey.bsize / bkey.bsize = n := Nat.mul_div_cancel n hb
  have hmod : n * bkey.bsize % bkey.bsize = 0 := Nat.mul_mod_left n bkey.bsize
  rw [hdiv, hmod, Nat.sub_add_cancel hn] at heq
  rw [heq]
  refine ⟨by simp [xcrypt_finish, final_state], v, hv, by simp [xcrypt_finish, final_state],
    le64_iterate_inc v n hn, drop_iterate_inc v n, ?_⟩
  intro inp2 size2 hs2 hm hres2 i hi
  have hvB : (xcrypt_finish (spend bkey (((n : Nat) : Int) + (if 0 > 0 then 1 else 0))) ov
      (final_state bkey.encrypt bkey.bsize inp v n 0)).bkey.ivector
      = some (inc_word0^[n] v) := by
    simp [xcrypt_finish, final_state]
  have hflB : (xcrypt_finish (spend bkey (((n : Nat) : Int) + (if 0 > 0 then 1 else 0))) ov
      (final_state bkey.encrypt bkey.bsize inp v n 0)).bkey.key.flag_not_xcrypt = false := by
    simp [xcrypt_finish, final_state]
  have h2 := xcrypt_resume_getD
    (xcrypt_finish (spend bkey (((n : Nat) : Int) + (if 0 > 0 then 1 else 0))) ov
      (final_state bkey.encrypt bkey.bsize inp v n 0)).bkey
    inp2 size2 (inc_word0^[n] v) hbs hic hs2 hvB hflB hres2 hm i hi
  rw [← gammaByte_shift _ _ hb]
  exact h2

/-- Witness for C12: block size 8, a fresh 4-byte IV 10, 11, 12, 13, two blocks. -/
theorem C12_aligned_end_state_witness :
    (ak_bckey_context_xcrypt (toyKey 8 100) (fun i => i) 16 (some (fun i => 10 + i)) 4
      ).bkey.key.flag_not_xcrypt = false
    ∧ (ak_bckey_context_xcrypt (toyKey 8 100) (fun i => i) 16 (some (fun i => 10 + i)) 4
      ).bkey.ivector = some [2, 0, 0, 0, 10, 11, 12, 13] :=
  have h := C12_aligned_end_state (toyKey 8 100) (fun i => i) 2 (some (fun i => 10 + i)) 4
    (by decide) (by decide) (by decide)
  ⟨h.1, by decide⟩

theorem start_seed_length (bkey : bckey) (iv : Option Mem) (iv_size : Nat) (v : List Nat)
    (hwf : ∀ w, bkey.ivector = some w → w.length = bkey.bsize)
    (hv : start_seed bkey iv iv_size = some v) : v.length = bkey.bsize := by
  unfold start_seed at hv
  cases hsel : (if iv_size = 0 then none else iv) with
  | none =>
    rw [hsel] at hv
    exact hwf v hv
  | some ivm =>
    rw [hsel] at hv
    simp only [Option.some.injEq] at hv
    rw [← hv]
    exact length_seed _ _ _

/-- C13: for block size 8 or 16 and `size = n * bsize + t` with `n ≥ 1` and `0 < t < bsize`,
a call of `ak_bckey_context_xcrypt` that passes its checks stores
`out[n * bsize + i] = in[n * bsize + i] XOR K[bsize - t + i]` for every `i < t`, where `K` is
the encryption of the seed `v` the call started from after `n` increments; afterwards
`ivector` holds `bsize` zero bytes and `bckey_flag_not_xcrypt` is set.  A stored stream
state is taken to have `bsize` bytes. -/
theorem C13_tail_handling (bkey : bckey) (inp : Mem) (n t : Nat) (iv : Option Mem)
    (iv_size : Nat)
    (hbs : bkey.bsize = 8 ∨ bkey.bsize = 16) (hn : 1 ≤ n) (ht0 : 0 < t)
    (htb : t < bkey.bsize) (hs : n * bkey.bsize + t < 2 ^ 64)
    (hwf : ∀ w, bkey.ivector = some w → w.length = bkey.bsize)
    (hrun : (ak_bckey_context_xcrypt bkey inp (n * bkey.bsize + t) iv iv_size).masks = 1) :
    ∃ v, start_seed bkey iv iv_size = some v
      ∧ (∀ i, i < t →
          (ak_bckey_context_xcrypt bkey inp (n * bkey.bsize + t) iv iv_size).out.getD
              (n * bkey.bsize + i) 0
            = inp (n * bkey.bsize + i) ^^^
                (transform bkey.encrypt bkey.bsize (inc_word0^[n] v)).getD
                  (bkey.bsize - t + i) 0)
      ∧ (ak_bckey_context_xcrypt bkey inp (n * bkey.bsize + t) iv iv_size).bkey.ivector
          = some (List.replicate bkey.bsize 0)
      ∧ (ak_bckey_context_xcrypt bkey inp (n * bkey.bsize + t) iv iv_size
          ).bkey.key.flag_not_xcrypt = true := by
  obtain ⟨_, _, _, v, ov, hv, heq⟩ := xcrypt_completed bkey inp (n * bkey.bsize + t) iv iv_size
    hs hrun
  have hdm := div_mod_block bkey.bsize n t htb
  have hlen : v.length = bkey.bsize := start_seed_length bkey iv iv_size v hwf hv
  have hlen' : (inc_word0^[n] v).length = bkey.bsize := by
    rw [length_iterate_inc v (by rw [hlen]; rcases hbs with h | h <;> omega) n, hlen]
  have ht : t ≠ 0 := by omega
  rw [hdm.1, hdm.2, Nat.sub_add_cancel hn] at heq
  rw [heq]
  refine ⟨v, hv, ?_, ?_, ?_⟩
  · intro i hi
    simp only [xcrypt_finish, final_state]
    rw [getD_map_range _ _ _ (by omega)]
    have hnot : ¬ (n * bkey.bsize + i < n * bkey.bsize) := by omega
    simp only [keystream, if_neg hnot, hlen', Nat.add_sub_cancel_left]
  · simp [xcrypt_finish, final_state, ht, hlen']
  · simp [xcrypt_finish, final_state, ht]

/-- Witness for C13: block size 8, a fresh 4-byte IV, 11 bytes (one block and a 3-byte
tail). -/
theorem C13_tail_handling_witness :
    (ak_bckey_context_xcrypt (toyKey 8 100) (fun i => i) 11 (some (fun i => 10 + i)) 4
      ).bkey.ivector = some [0, 0, 0, 0, 0, 0, 0, 0]
    ∧ (ak_bckey_context_xcrypt (toyKey 8 100) (fun i => i) 11 (some (fun i => 10 + i)) 4
      ).bkey.key.flag_not_xcrypt = true :=
  have h := C13_tail_handling (toyKey 8 100) (fun i => i) 1 3 (some (fun i => 10 + i)) 4
    (Or.inl rfl) (by decide) (by decide) (by decide) (by decide)
    (fun w hw => by simp [toyKey] at hw) (by decide)
  h.elim fun _ hv => ⟨hv.2.2.1, hv.2.2.2⟩

/-! ## The initial value -/

/-- C14, evaluation at the failing input: block size 8 and an IV of 6 bytes
10, 11, 12, 13, 14, 15 with `iv_size = 6`.  The call returns `ak_error_ok`, the seed inside
the 8-byte buffer is 0, 0, 0, 0, 10, 11, 12, 13, and `memcpy` stores the bytes 14, 15 past
the end of the buffer. -/
theorem C14_long_iv_stored_past_buffer :
    (ak_bckey_context_xcrypt (toyKey 8 100) (fun i => i) 8
        (some (ofList [10, 11, 12, 13, 14, 15])) 6).code = .ak_error_ok
    ∧ seed 8 (ofList [10, 11, 12, 13, 14, 15]) 6 = [0, 0, 0, 0, 10, 11, 12, 13]
    ∧ (ak_bckey_context_xcrypt (toyKey 8 100) (fun i => i) 8
        (some (ofList [10, 11, 12, 13, 14, 15])) 6).overrun = [14, 15] := by
  decide

theorem xcrypt_pass_nat (bkey : bckey) (inp : Mem) (size : Nat) (iv : Option Mem)
    (iv_size : Nat) (hic : bkey.key.check_icode = true) (hs : size < 2 ^ 63)
    (hres : ((size / bkey.bsize : Nat) : Int) + (if size % bkey.bsize > 0 then 1 else 0)
      ≤ bkey.key.resource_counter) :
    ak_bckey_context_xcrypt bkey inp size iv iv_size =
      xcrypt_select
        (spend bkey (((size / bkey.bsize : Nat) : Int)
          + (if size % bkey.bsize > 0 then 1 else 0)))
        inp ((size / bkey.bsize : Nat) : Int) ((size % bkey.bsize : Nat) : Int) iv iv_size := by
  have hdiv : size / bkey.bsize < 2 ^ 63 := lt_of_le_of_lt (Nat.div_le_self _ _) hs
  have hmod : size % bkey.bsize < 2 ^ 63 := lt_of_le_of_lt (Nat.mod_le _ _) hs
  have hu := xunits_eq bkey.bsize size (units_lt_of_size _ _ hs) hmod
  have hres' : ¬ bkey.key.resource_counter < xunits bkey.bsize size := by
    rw [hu]
    exact not_lt.mpr hres
  rw [xcrypt_pass bkey inp size iv iv_size hic hres', hu, toInt64_of_lt hdiv,
    toInt64_of_lt hmod]

theorem xcrypt_select_short_iv (b : bckey) (inp : Mem) (blocks tail : Int) (ivm : Mem)
    (iv_size : Nat) (h0 : 0 < iv_size) (hlt : iv_size < b.bsize / 2) :
    xcrypt_select b inp blocks tail (some ivm) iv_size = fail .ak_error_wrong_iv_length b := by
  unfold xcrypt_select
  rw [if_neg (by omega)]
  simp only
  rw [if_pos hlt]

/-- C15: a call of `ak_bckey_context_xcrypt` with a non-null IV and `0 < iv_size < bsize / 2`,
the integrity and resource checks passing, returns `ak_error_wrong_iv_length`, stores no
output byte, invokes no transform, and leaves the stored stream state and the continuation
flag unchanged. -/
theorem C15_short_iv_rejected (bkey : bckey) (inp : Mem) (size : Nat) (ivm : Mem)
    (iv_size : Nat) (hs : size < 2 ^ 63) (hic : bkey.key.check_icode = true)
    (hres : ((size / bkey.bsize : Nat) : Int) + (if size % bkey.bsize > 0 then 1 else 0)
      ≤ bkey.key.resource_counter)
    (h0 : 0 < iv_size) (hlt : iv_size < bkey.bsize / 2) :
    (ak_bckey_context_xcrypt bkey inp size (some ivm) iv_size).code = .ak_error_wrong_iv_length
    ∧ (ak_bckey_context_xcrypt bkey inp size (some ivm) iv_size).out = []
    ∧ (ak_bckey_context_xcrypt bkey inp size (some ivm) iv_size).calls = 0
    ∧ (ak_bckey_context_xcrypt bkey inp size (some ivm) iv_size).overrun = []
    ∧ (ak_bckey_context_xcrypt bkey inp size (some ivm) iv_size).bkey.ivector = bkey.ivector
    ∧ (ak_bckey_context_xcrypt bkey inp size (some ivm) iv_size).bkey.key.flag_not_xcrypt
        = bkey.key.flag_not_xcrypt := by
  rw [xcrypt_pass_nat bkey inp size (some ivm) iv_size hic hs hres,
    xcrypt_select_short_iv (spend bkey _) _ _ _ _ _ h0 hlt]
  exact ⟨rfl, rfl, rfl, rfl, rfl, rfl⟩

/-- Witness for C15: block size 16 and an IV of 4 bytes. -/
theorem C15_short_iv_rejected_witness :
    (ak_bckey_context_xcrypt (toyKey 16 100) (fun i => i) 20 (some (fun i => 10 + i)) 4).code
        = .ak_error_wrong_iv_length
    ∧ (ak_bckey_context_xcrypt (toyKey 16 100) (fun i => i) 20 (some (fun i => 10 + i)) 4).out
        = [] :=
  have h := C15_short_iv_rejected (toyKey 16 100) (fun i => i) 20 (fun i => 10 + i) 4
    (by decide) rfl (by decide) (by decide) (by decide)
  ⟨h.1, h.2.1⟩

/-- C16, counterexample: block size 8 and a non-null IV with `iv_size = 6`, which differs
from `bsize / 2 = 4`; the call returns `ak_error_ok`. -/
theorem C16_counterexample :
    (6 : Nat) ≠ (toyKey 8 100).bsize / 2
    ∧ (ak_bckey_context_xcrypt (toyKey 8 100) (fun i => i) 16
        (some (ofList [10, 11, 12, 13, 14, 15])) 6).code = .ak_error_ok := by
  decide

/-- C16, amended: for every non-null IV with `0 < iv_size < bsize / 2`,
`ak_bckey_context_xcrypt` returns an error code; an IV with `iv_size ≥ bsize / 2` is not
rejected for its length: on a supported block size, with the integrity and resource checks
passing and `ak_buffer_set_size` succeeding, the call returns what `set_mask` returns. -/
theorem C16_iv_length_check (bkey : bckey) (inp : Mem) (size : Nat) (ivm : Mem)
    (iv_size : Nat) :
    (0 < iv_size → iv_size < bkey.bsize / 2 →
      (ak_bckey_context_xcrypt bkey inp size (some ivm) iv_size).code ≠ .ak_error_ok)
    ∧ ((bkey.bsize = 8 ∨ bkey.bsize = 16) → bkey.key.check_icode = true →
      bkey.set_size = .ak_error_ok → size < 2 ^ 64 →
      bkey.bsize / 2 ≤ iv_size →
      ((size / bkey.bsize : Nat) : Int) + (if size % bkey.bsize > 0 then 1 else 0)
        ≤ bkey.key.resource_counter →
      (ak_bckey_context_xcrypt bkey inp size (some ivm) iv_size).code = bkey.key.set_mask) := by
  constructor
  · intro h0 hlt
    by_cases h2 : bkey.key.check_icode = true
    · by_cases h3 : bkey.key.resource_counter < xunits bkey.bsize size
      · rw [xcrypt_low _ _ _ _ _ h2 h3]
        simp [fail]
      · rw [xcrypt_pass _ _ _ _ _ h2 h3, xcrypt_select_short_iv (spend bkey _) _ _ _ _ _ h0 hlt]
        simp [fail]
    · rw [xcrypt_bad_icode _ _ _ _ _ h2]
      simp [fail]
  · intro hbs hic hset hs hiv hres
    rw [xcrypt_fresh bkey inp size ivm iv_size hbs hic hset hs hiv hres]
    rfl

/-- Witness for the amended C16: block size 16; a 4-byte IV is rejected, a 10-byte IV is
accepted. -/
theorem C16_iv_length_check_witness :
    (ak_bckey_context_xcrypt (toyKey 16 100) (fun i => i) 20 (some (fun i => 10 + i)) 4).code
        ≠ .ak_error_ok
    ∧ (ak_bckey_context_xcrypt (toyKey 16 100) (fun i => i) 20 (some (fun i => 10 + i)) 10).code
        = .ak_error_ok :=
  ⟨(C16_iv_length_check (toyKey 16 100) (fun i => i) 20 (fun i => 10 + i) 4).1
      (by decide) (by decide),
   (C16_iv_length_check (toyKey 16 100) (fun i => i) 20 (fun i => 10 + i) 10).2
      (Or.inr rfl) rfl rfl (by decide) (by decide) (by decide)⟩

/-- C17: on a context whose `ivector` is not assigned (as `ak_bckey_context_create` leaves
it, no call having supplied an IV), every call of `ak_bckey_context_xcrypt` with `iv = NULL`
or `iv_size = 0`, the integrity and resource checks passing, returns
`ak_error_wrong_block_cipher_function`, stores no output byte and invokes no transform. -/
theorem C17_no_prior_state (bkey : bckey) (inp : Mem) (size : Nat) (iv : Option Mem)
    (iv_size : Nat) (_hb : bkey.bsize ≠ 0) (hs : size < 2 ^ 63)
    (hic : bkey.key.check_icode = true)
    (hres : ((size / bkey.bsize : Nat) : Int) + (if size % bkey.bsize > 0 then 1 else 0)
      ≤ bkey.key.resource_counter)
    (hnone : bkey.ivector = none) (hno : iv = none ∨ iv_size = 0) :
    (ak_bckey_context_xcrypt bkey inp size iv iv_size).code
        = .ak_error_wrong_block_cipher_function
    ∧ (ak_bckey_context_xcrypt bkey inp size iv iv_size).out = []
    ∧ (ak_bckey_context_xcrypt bkey inp size iv iv_size).calls = 0 := by
  have hsel : (if iv_size = 0 then none else iv) = none := by
    rcases hno with h | h
    · rw [h]
      simp
    · rw [if_pos h]
  rw [xcrypt_pass_nat bkey inp size iv iv_size hic hs hres]
  unfold xcrypt_select
  rw [hsel]
  simp only
  have hn' : (spend bkey (((size / bkey.bsize : Nat) : Int)
      + (if size % bkey.bsize > 0 then 1 else 0))).ivector = none := hnone
  rw [hn']
  exact ⟨rfl, rfl, rfl⟩

/-- Witness for C17: the toy context (no stream state), block size 8, 16 bytes, no IV. -/
theorem C17_no_prior_state_witness :
    (ak_bckey_context_xcrypt (toyKey 8 100) (fun i => i) 16 none 0).code
        = .ak_error_wrong_block_cipher_function
    ∧ (ak_bckey_context_xcrypt (toyKey 8 100) (fun i => i) 16 none 0).out = [] :=
  have h := C17_no_prior_state (toyKey 8 100) (fun i => i) 16 none 0 (by decide) (by decide)
    rfl (by decide) rfl (Or.inl rfl)
  ⟨h.1, h.2.1⟩

/-! ## Unsupported block size -/

theorem ecb_run_unsupported (f : List Nat → List Nat) (bkey : bckey) (inp : Mem)
    (blocks : Int) (hns : ¬ (bkey.bsize = 8 ∨ bkey.bsize = 16)) :
    ecb_run f bkey inp blocks = fail .ak_error_wrong_block_cipher bkey := by
  unfold ecb_run
  rw [if_neg hns]

theorem xcrypt_run_unsupported (bkey : bckey) (inp : Mem) (blocks tail : Int)
    (v ov : List Nat) (hns : ¬ (bkey.bsize = 8 ∨ bkey.bsize = 16)) :
    xcrypt_run bkey inp blocks tail v ov =
      { code := .ak_error_wrong_block_cipher, bkey := bkey, out := [], calls := 0, masks := 0,
        overrun := ov } := by
  unfold xcrypt_run
  rw [if_neg hns]

theorem ecb_mode_unsupported (f : List Nat → List Nat) (bkey : bckey) (inp : Mem) (size : Nat)
    (hns : ¬ (bkey.bsize = 8 ∨ bkey.bsize = 16)) (hic : bkey.key.check_icode = true)
    (hs : size < 2 ^ 63) (hal : size % bkey.bsize = 0)
    (hres : ((size / bkey.bsize : Nat) : Int) ≤ bkey.key.resource_counter) :
    ecb_mode f bkey inp size
      = fail .ak_error_wrong_block_cipher (spend bkey ((size / bkey.bsize : Nat) : Int)) := by
  have hdiv : size / bkey.bsize < 2 ^ 63 := lt_of_le_of_lt (Nat.div_le_self _ _) hs
  have hres' : ¬ bkey.key.resource_counter < toInt64 (size / bkey.bsize) := by
    rw [toInt64_of_lt hdiv]
    exact not_lt.mpr hres
  rw [ecb_mode_pass f bkey inp size hal hic hres', toInt64_of_lt hdiv]
  exact ecb_run_unsupported f (spend bkey _) inp _ hns

theorem ecb_mode_counter_bounds (f : List Nat → List Nat) (bkey : bckey) (inp : Mem)
    (size : Nat) (hq : size / bkey.bsize < 2 ^ 63) (h0 : 0 ≤ bkey.key.resource_counter) :
    0 ≤ (ecb_mode f bkey inp size).bkey.key.resource_counter
    ∧ (ecb_mode f bkey inp size).bkey.key.resource_counter ≤ bkey.key.resource_counter := by
  by_cases h1 : size % bkey.bsize = 0
  · by_cases h2 : bkey.key.check_icode = true
    · by_cases h3 : bkey.key.resource_counter < toInt64 (size / bkey.bsize)
      · rw [ecb_mode_low _ _ _ _ h1 h2 h3]
        exact ⟨h0, le_refl _⟩
      · rw [ecb_mode_pass _ _ _ _ h1 h2 h3, ecb_run_bkey, spend_counter]
        rw [toInt64_of_lt hq] at h3 ⊢
        have hnn : (0 : Int) ≤ ((size / bkey.bsize : Nat) : Int) := Int.natCast_nonneg _
        constructor <;> linarith
    · rw [ecb_mode_bad_icode _ _ _ _ h1 h2]
      exact ⟨h0, le_refl _⟩
  · rw [ecb_mode_unaligned _ _ _ _ h1]
    exact ⟨h0, le_refl _⟩

theorem xunits_nonneg (bsize size : Nat)
    (hsum : size / bsize + (if size % bsize > 0 then 1 else 0) < 2 ^ 63) :
    0 ≤ xunits bsize size := by
  have hdiv : size / bsize < 2 ^ 63 := lt_of_le_of_lt (Nat.le_add_right _ _) hsum
  unfold xunits
  rw [toInt64_of_lt hdiv]
  generalize size / bsize = q at hsum hdiv ⊢
  by_cases ht : toInt64 (size % bsize) > 0
  · have hpos : size % bsize > 0 := by
      by_contra hz
      have hz' : size % bsize = 0 := by omega
      rw [hz'] at ht
      exact absurd ht (by decide)
    rw [if_pos hpos] at hsum
    rw [if_pos ht, wrap64_of_range _ (by omega) (by omega)]
    omega
  · have hle : q < 2 ^ 63 := hdiv
    rw [if_neg ht, wrap64_of_range _ (by omega) (by omega)]
    omega

theorem xcrypt_counter_bounds (bkey : bckey) (inp : Mem) (size : Nat) (iv : Option Mem)
    (iv_size : Nat)
    (hsum : size / bkey.bsize + (if size % bkey.bsize > 0 then 1 else 0) < 2 ^ 63)
    (h0 : 0 ≤ bkey.key.resource_counter) :
    0 ≤ (ak_bckey_context_xcrypt bkey inp size iv iv_size).bkey.key.resource_counter
    ∧ (ak_bckey_context_xcrypt bkey inp size iv iv_size).bkey.key.resource_counter
        ≤ bkey.key.resource_counter := by
  by_cases h2 : bkey.key.check_icode = true
  · by_cases h3 : bkey.key.resource_counter < xunits bkey.bsize size
    · rw [xcrypt_low _ _ _ _ _ h2 h3]
      exact ⟨h0, le_refl _⟩
    · rw [xcrypt_pass _ _ _ _ _ h2 h3, xcrypt_select_counter, spend_counter]
      have hnn := xunits_nonneg bkey.bsize size hsum
      constructor <;> linarith
  · rw [xcrypt_bad_icode _ _ _ _ _ h2]
    exact ⟨h0, le_refl _⟩

theorem units_lt_of_bsize_ge (bsize size : Nat) (hb : 3 ≤ bsize) (hs : size < 2 ^ 64) :
    size / bsize + (if size % bsize > 0 then 1 else 0) < 2 ^ 63 := by
  have h1 : (if size % bsize > 0 then 1 else 0) ≤ 1 := by split_ifs <;> omega
  have h2 : size / bsize ≤ size / 3 := Nat.div_le_div_left hb (by decide)
  omega

/-- C19, counterexample: a context with block size 1 and resource counter 100, size
`2 ^ 64 - 5`.  The block count converted to `ak_int64` is `-5`, the resource check passes,
and both `ak_bckey_context_encrypt_ecb` and `ak_bckey_context_xcrypt` (with a 1-byte IV)
return `ak_error_wrong_block_cipher` with the counter at 105, larger than before. -/
theorem C19_counterexample :
    (0 : Int) ≤ (toyKey 1 100).key.resource_counter
    ∧ ((ak_bckey_context_encrypt_ecb (toyKey 1 100) (fun i => i) (2 ^ 64 - 5)).code
        = .ak_error_wrong_block_cipher
      ∧ (ak_bckey_context_encrypt_ecb (toyKey 1 100) (fun i => i) (2 ^ 64 - 5)
          ).bkey.key.resource_counter = 105)
    ∧ ((ak_bckey_context_xcrypt (toyKey 1 100) (fun i => i) (2 ^ 64 - 5)
          (some (fun i => 10 + i)) 1).code = .ak_error_wrong_block_cipher
      ∧ (ak_bckey_context_xcrypt (toyKey 1 100) (fun i => i) (2 ^ 64 - 5)
          (some (fun i => 10 + i)) 1).bkey.key.resource_counter = 105)
    ∧ ¬ ((105 : Int) ≤ (toyKey 1 100).key.resource_counter) := by
  decide

/-- C19, amended: if the resource counter is non-negative before a call whose unit count
fits `ak_int64` (`size / bsize < 2 ^ 63` for `ak_bckey_context_encrypt_ecb` and
`ak_bckey_context_decrypt_ecb`, `size / bsize + (size % bsize > 0) < 2 ^ 63` for
`ak_bckey_context_xcrypt`), then after the call, successful or failed, it is still
non-negative and not larger than before.  Every `size_t` size qualifies when the block size
is at least 3, in particular 8 and 16. -/
theorem C19_resource_invariant (bkey : bckey) (inp : Mem) (size : Nat) (iv : Option Mem)
    (iv_size : Nat)
    (_hb : bkey.bsize ≠ 0) (h0 : 0 ≤ bkey.key.resource_counter) :
    (size / bkey.bsize < 2 ^ 63 →
      (0 ≤ (ak_bckey_context_encrypt_ecb bkey inp size).bkey.key.resource_counter
        ∧ (ak_bckey_context_encrypt_ecb bkey inp size).bkey.key.resource_counter
            ≤ bkey.key.resource_counter)
      ∧ (0 ≤ (ak_bckey_context_decrypt_ecb bkey inp size).bkey.key.resource_counter
        ∧ (ak_bckey_context_decrypt_ecb bkey inp size).bkey.key.resource_counter
            ≤ bkey.key.resource_counter))
    ∧ (size / bkey.bsize + (if size % bkey.bsize > 0 then 1 else 0) < 2 ^ 63 →
      0 ≤ (ak_bckey_context_xcrypt bkey inp size iv iv_size).bkey.key.resource_counter
      ∧ (ak_bckey_context_xcrypt bkey inp size iv iv_size).bkey.key.resource_counter
          ≤ bkey.key.resource_counter)
    ∧ (3 ≤ bkey.bsize → size < 2 ^ 64 →
      (0 ≤ (ak_bckey_context_encrypt_ecb bkey inp size).bkey.key.resource_counter
        ∧ (ak_bckey_context_encrypt_ecb bkey inp size).bkey.key.resource_counter
            ≤ bkey.key.resource_counter)
      ∧ (0 ≤ (ak_bckey_context_decrypt_ecb bkey inp size).bkey.key.resource_counter
        ∧ (ak_bckey_context_decrypt_ecb bkey inp size).bkey.key.resource_counter
            ≤ bkey.key.resource_counter)
      ∧ (0 ≤ (ak_bckey_context_xcrypt bkey inp size iv iv_size).bkey.key.resource_counter
        ∧ (ak_bckey_context_xcrypt bkey inp size iv iv_size).bkey.key.resource_counter
            ≤ bkey.key.resource_counter)) := by
  refine ⟨fun hq => ⟨ecb_mode_counter_bounds _ bkey inp size hq h0,
    ecb_mode_counter_bounds _ bkey inp size hq h0⟩,
    fun hsum => xcrypt_counter_bounds bkey inp size iv iv_size hsum h0, ?_⟩
  intro hb3 hs
  have hsum := units_lt_of_bsize_ge bkey.bsize size hb3 hs
  have hq : size / bkey.bsize < 2 ^ 63 := lt_of_le_of_lt (Nat.le_add_right _ _) hsum
  exact ⟨ecb_mode_counter_bounds _ bkey inp size hq h0,
    ecb_mode_counter_bounds _ bkey inp size hq h0,
    xcrypt_counter_bounds bkey inp size iv iv_size hsum h0⟩

/-- Witness for the amended C19: block size 8, resource 3, 24 bytes. -/
theorem C19_resource_invariant_witness :
    (0 : Int) ≤ (ak_bckey_context_encrypt_ecb (toyKey 8 3) (fun i => i) 24
        ).bkey.key.resource_counter
    ∧ (ak_bckey_context_xcrypt (toyKey 8 3) (fun i => i) 24 (some (fun i => 10 + i)) 4
        ).bkey.key.resource_counter ≤ 3 :=
  have h := C19_resource_invariant (toyKey 8 3) (fun i => i) 24 (some (fun i => 10 + i)) 4
    (by decide) (by decide)
  ⟨(h.1 (by decide)).1.1, (h.2.1 (by decide)).2⟩

/-! ## Re-masking -/

theorem ecb_mode_shape (f : List Nat → List Nat) (bkey : bckey) (inp : Mem) (size : Nat) :
    ((ecb_mode f bkey inp size).masks = 1 ∧ 0 < (ecb_mode f bkey inp size).calls
      ∧ (ecb_mode f bkey inp size).code = .ak_error_ok)
    ∨ ((ecb_mode f bkey inp size).masks = 0 ∧ (ecb_mode f bkey inp size).calls = 0
      ∧ (ecb_mode f bkey inp size).out = []
      ∧ (ecb_mode f bkey inp size).code ≠ .ak_error_ok) := by
  by_cases h1 : size % bkey.bsize = 0
  · by_cases h2 : bkey.key.check_icode = true
    · by_cases h3 : bkey.key.resource_counter < toInt64 (size / bkey.bsize)
      · rw [ecb_mode_low _ _ _ _ h1 h2 h3]
        exact Or.inr ⟨rfl, rfl, rfl, by simp [fail]⟩
      · rw [ecb_mode_pass _ _ _ _ h1 h2 h3]
        by_cases hbs : bkey.bsize = 8 ∨ bkey.bsize = 16
        · left
          unfold ecb_run
          rw [if_pos (show (spend bkey _).bsize = 8 ∨ (spend bkey _).bsize = 16 from hbs),
            ecb_loop_zero]
          exact ⟨rfl, Nat.succ_pos _, rfl⟩
        · rw [ecb_run_unsupported _ _ _ _ (show ¬ ((spend bkey _).bsize = 8
            ∨ (spend bkey _).bsize = 16) from hbs)]
          exact Or.inr ⟨rfl, rfl, rfl, by simp [fail]⟩
    · rw [ecb_mode_bad_icode _ _ _ _ h1 h2]
      exact Or.inr ⟨rfl, rfl, rfl, by simp [fail]⟩
  · rw [ecb_mode_unaligned _ _ _ _ h1]
    exact Or.inr ⟨rfl, rfl, rfl, by simp [fail]⟩

theorem xcrypt_run_shape (bkey : bckey) (inp : Mem) (blocks tail : Int) (v ov : List Nat) :
    ((xcrypt_run bkey inp blocks tail v ov).masks = 1
      ∧ 0 < (xcrypt_run bkey inp blocks tail v ov).calls
      ∧ (xcrypt_run bkey inp blocks tail v ov).code = bkey.key.set_mask)
    ∨ ((xcrypt_run bkey inp blocks tail v ov).masks = 0
      ∧ (xcrypt_run bkey inp blocks tail v ov).calls = 0
      ∧ (xcrypt_run bkey inp blocks tail v ov).out = []
      ∧ (xcrypt_run bkey inp blocks tail v ov).code ≠ .ak_error_ok) := by
  by_cases hbs : bkey.bsize = 8 ∨ bkey.bsize = 16
  · left
    have hb : 0 < bkey.bsize := by rcases hbs with h | h <;> omega
    unfold xcrypt_run
    rw [if_pos hbs, xcrypt_loop_zero _ _ hb]
    refine ⟨rfl, ?_, rfl⟩
    unfold xcrypt_finish xcrypt_tail
    split_ifs
    · exact Nat.succ_pos _
    · exact Nat.succ_pos _
  · rw [xcrypt_run_unsupported _ _ _ _ _ _ hbs]
    exact Or.inr ⟨rfl, rfl, rfl, by simp⟩

theorem xcrypt_shape (bkey : bckey) (inp : Mem) (size : Nat) (iv : Option Mem)
    (iv_size : Nat) :
    ((ak_bckey_context_xcrypt bkey inp size iv iv_size).masks = 1
      ∧ 0 < (ak_bckey_context_xcrypt bkey inp size iv iv_size).calls
      ∧ (ak_bckey_context_xcrypt bkey inp size iv iv_size).code = bkey.key.set_mask)
    ∨ ((ak_bckey_context_xcrypt bkey inp size iv iv_size).masks = 0
      ∧ (ak_bckey_context_xcrypt bkey inp size iv iv_size).calls = 0
      ∧ (ak_bckey_context_xcrypt bkey inp size iv iv_size).out = []
      ∧ (ak_bckey_context_xcrypt bkey inp size iv iv_size).code ≠ .ak_error_ok) := by
  by_cases h2 : bkey.key.check_icode = true
  · by_cases h3 : bkey.key.resource_counter < xunits bkey.bsize size
    · rw [xcrypt_low _ _ _ _ _ h2 h3]
      exact Or.inr ⟨rfl, rfl, rfl, by simp [fail]⟩
    · rw [xcrypt_pass _ _ _ _ _ h2 h3]
      apply xcrypt_select_cases (fun r =>
        (r.masks = 1 ∧ 0 < r.calls ∧ r.code = bkey.key.set_mask)
        ∨ (r.masks = 0 ∧ r.calls = 0 ∧ r.out = [] ∧ r.code ≠ .ak_error_ok))
      · intro e he
        exact Or.inr ⟨rfl, rfl, rfl, he⟩
      · intro v ov
        exact xcrypt_run_shape (spend bkey _) inp _ _ v ov
      · intro w v ov
        exact xcrypt_run_shape (reseed (spend bkey _) w) inp _ _ v ov
  · rw [xcrypt_bad_icode _ _ _ _ _ h2]
    exact Or.inr ⟨rfl, rfl, rfl, by simp [fail]⟩

/-- C20, counterexample: with a failing integrity check `ak_bckey_context_xcrypt` returns
`ak_error_wrong_key_icode` without any invocation of `set_mask`; with the unaligned size 3
`ak_bckey_context_encrypt_ecb` returns `ak_error_wrong_block_cipher_length` without any
invocation of `set_mask`. -/
theorem C20_counterexample :
    ((ak_bckey_context_xcrypt (badKey 8 100) (fun i => i) 16 (some (fun i => 10 + i)) 4).code
        = .ak_error_wrong_key_icode
      ∧ (ak_bckey_context_xcrypt (badKey 8 100) (fun i => i) 16 (some (fun i => 10 + i)) 4).masks
        = 0)
    ∧ ((ak_bckey_context_encrypt_ecb (toyKey 8 100) (fun i => i) 3).code
        = .ak_error_wrong_block_cipher_length
      ∧ (ak_bckey_context_encrypt_ecb (toyKey 8 100) (fun i => i) 3).masks = 0) := by
  decide

/-- C20, amended: each call of `ak_bckey_context_encrypt_ecb`, `ak_bckey_context_decrypt_ecb`
and `ak_bckey_context_xcrypt` ends in one of two ways.  Either it invoked the block
transform, and then `set_mask` was invoked exactly once before the return (the ECB functions
then return `ak_error_ok`, xcrypt returns the value of `set_mask`); or it is an early error
return, which is not preceded by `set_mask`: it returns an error code, having invoked no
block transform and stored no output byte. -/
theorem C20_remasking_on_completed_runs (bkey : bckey) (inp : Mem) (size : Nat)
    (iv : Option Mem) (iv_size : Nat) :
    (((ak_bckey_context_encrypt_ecb bkey inp size).masks = 1
        ∧ 0 < (ak_bckey_context_encrypt_ecb bkey inp size).calls
        ∧ (ak_bckey_context_encrypt_ecb bkey inp size).code = .ak_error_ok)
      ∨ ((ak_bckey_context_encrypt_ecb bkey inp size).masks = 0
        ∧ (ak_bckey_context_encrypt_ecb bkey inp size).calls = 0
        ∧ (ak_bckey_context_encrypt_ecb bkey inp size).out = []
        ∧ (ak_bckey_context_encrypt_ecb bkey inp size).code ≠ .ak_error_ok))
    ∧ (((ak_bckey_context_decrypt_ecb bkey inp size).masks = 1
        ∧ 0 < (ak_bckey_context_decrypt_ecb bkey inp size).calls
        ∧ (ak_bckey_context_decrypt_ecb bkey inp size).code = .ak_error_ok)
      ∨ ((ak_bckey_context_decrypt_ecb bkey inp size).masks = 0
        ∧ (ak_bckey_context_decrypt_ecb bkey inp size).calls = 0
        ∧ (ak_bckey_context_decrypt_ecb bkey inp size).out = []
        ∧ (ak_bckey_context_decrypt_ecb bkey inp size).code ≠ .ak_error_ok))
    ∧ (((ak_bckey_context_xcrypt bkey inp size iv iv_size).masks = 1
        ∧ 0 < (ak_bckey_context_xcrypt bkey inp size iv iv_size).calls
        ∧ (ak_bckey_context_xcrypt bkey inp size iv iv_size).code = bkey.key.set_mask)
      ∨ ((ak_bckey_context_xcrypt bkey inp size iv iv_size).masks = 0
        ∧ (ak_bckey_context_xcrypt bkey inp size iv iv_size).calls = 0
        ∧ (ak_bckey_context_xcrypt bkey inp size iv iv_size).out = []
        ∧ (ak_bckey_context_xcrypt bkey inp size iv iv_size).code ≠ .ak_error_ok)) :=
  ⟨ecb_mode_shape _ bkey inp size, ecb_mode_shape _ bkey inp size,
   xcrypt_shape bkey inp size iv iv_size⟩

/-! ## A failing re-mask -/

theorem ecb_mode_with_set_mask (f : List Nat → List Nat) (bkey : bckey) (e : Err) (inp : Mem)
    (size : Nat) :
    (ecb_mode f (with_set_mask bkey e) inp size).out = (ecb_mode f bkey inp size).out
    ∧ (ecb_mode f (with_set_mask bkey e) inp size).code = (ecb_mode f bkey inp size).code
    ∧ (ecb_mode f (with_set_mask bkey e) inp size).calls = (ecb_mode f bkey inp size).calls
    ∧ (ecb_mode f (with_set_mask bkey e) inp size).bkey.key.resource_counter
        = (ecb_mode f bkey inp size).bkey.key.resource_counter
    ∧ (ecb_mode f (with_set_mask bkey e) inp size).bkey.ivector
        = (ecb_mode f bkey inp size).bkey.ivector := by
  simp only [ecb_mode, ecb_run, spend, fail, with_set_mask]
  split_ifs <;> exact ⟨rfl, rfl, rfl, rfl, rfl⟩

theorem xcrypt_run_with_set_mask (bkey : bckey) (e : Err) (inp : Mem) (blocks tail : Int)
    (v ov : List Nat) :
    (xcrypt_run (with_set_mask bkey e) inp blocks tail v ov).out
        = (xcrypt_run bkey inp blocks tail v ov).out
    ∧ (xcrypt_run (with_set_mask bkey e) inp blocks tail v ov).calls
        = (xcrypt_run bkey inp blocks tail v ov).calls
    ∧ (xcrypt_run (with_set_mask bkey e) inp blocks tail v ov).bkey.key.resource_counter
        = (xcrypt_run bkey inp blocks tail v ov).bkey.key.resource_counter
    ∧ (xcrypt_run (with_set_mask bkey e) inp blocks tail v ov).bkey.ivector
        = (xcrypt_run bkey inp blocks tail v ov).bkey.ivector
    ∧ (xcrypt_run (with_set_mask bkey e) inp blocks tail v ov).bkey.key.flag_not_xcrypt
        = (xcrypt_run bkey inp blocks tail v ov).bkey.key.flag_not_xcrypt := by
  simp only [xcrypt_run, xcrypt_finish, with_set_mask]
  split_ifs <;> exact ⟨rfl, rfl, rfl, rfl, rfl⟩

theorem xcrypt_select_with_set_mask (bkey : bckey) (e : Err) (inp : Mem) (blocks tail : Int)
    (iv : Option Mem) (iv_size : Nat) :
    (xcrypt_select (with_set_mask bkey e) inp blocks tail iv iv_size).out
        = (xcrypt_select bkey inp blocks tail iv iv_size).out
    ∧ (xcrypt_select (with_set_mask bkey e) inp blocks tail iv iv_size).calls
        = (xcrypt_select bkey inp blocks tail iv iv_size).calls
    ∧ (xcrypt_select (with_set_mask bkey e) inp blocks tail iv iv_size
        ).bkey.key.resource_counter
        = (xcrypt_select bkey inp blocks tail iv iv_size).bkey.key.resource_counter
    ∧ (xcrypt_select (with_set_mask bkey e) inp blocks tail iv iv_size).bkey.ivector
        = (xcrypt_select bkey inp blocks tail iv iv_size).bkey.ivector
    ∧ (xcrypt_select (with_set_mask bkey e) inp blocks tail iv iv_size
        ).bkey.key.flag_not_xcrypt
        = (xcrypt_select bkey inp blocks tail iv iv_size).bkey.key.flag_not_xcrypt := by
  unfold xcrypt_select
  cases hsel : (if iv_size = 0 then none else iv) with
  | none =>
    simp only
    have hiv : (with_set_mask bkey e).ivector = bkey.ivector := rfl
    rw [hiv]
    cases hv : bkey.ivector with
    | none => exact ⟨rfl, rfl, rfl, rfl, rfl⟩
    | some v =>
      simp only
      have hfl : (with_set_mask bkey e).key.flag_not_xcrypt = bkey.key.flag_not_xcrypt := rfl
      rw [hfl]
      split_ifs
      · exact ⟨rfl, rfl, rfl, rfl, rfl⟩
      · exact xcrypt_run_with_set_mask bkey e inp blocks tail v []
  | some ivm =>
    simp only
    have hb : (with_set_mask bkey e).bsize = bkey.bsize := rfl
    have hss : (with_set_mask bkey e).set_size = bkey.set_size := rfl
    rw [hb, hss]
    split_ifs
    · exact ⟨rfl, rfl, rfl, rfl, rfl⟩
    · exact ⟨rfl, rfl, rfl, rfl, rfl⟩
    · exact xcrypt_run_with_set_mask (reseed bkey (seed bkey.bsize ivm iv_size)) e inp blocks
        tail _ _

theorem xcrypt_with_set_mask (bkey : bckey) (e : Err) (inp : Mem) (size : Nat)
    (iv : Option Mem) (iv_size : Nat) :
    (ak_bckey_context_xcrypt (with_set_mask bkey e) inp size iv iv_size).out
        = (ak_bckey_context_xcrypt bkey inp size iv iv_size).out
    ∧ (ak_bckey_context_xcrypt (with_set_mask bkey e) inp size iv iv_size).calls
        = (ak_bckey_context_xcrypt bkey inp size iv iv_size).calls
    ∧ (ak_bckey_context_xcrypt (with_set_mask bkey e) inp size iv iv_size
        ).bkey.key.resource_counter
        = (ak_bckey_context_xcrypt bkey inp size iv iv_size).bkey.key.resource_counter
    ∧ (ak_bckey_context_xcrypt (with_set_mask bkey e) inp size iv iv_size).bkey.ivector
        = (ak_bckey_context_xcrypt bkey inp size iv iv_size).bkey.ivector
    ∧ (ak_bckey_context_xcrypt (with_set_mask bkey e) inp size iv iv_size
        ).bkey.key.flag_not_xcrypt
        = (ak_bckey_context_xcrypt bkey inp size iv iv_size).bkey.key.flag_not_xcrypt := by
  unfold ak_bckey_context_xcrypt
  have hc : (with_set_mask bkey e).key.check_icode = bkey.key.check_icode := rfl
  have hr : (with_set_mask bkey e).key.resource_counter = bkey.key.resource_counter := rfl
  have hb : (with_set_mask bkey e).bsize = bkey.bsize := rfl
  rw [hc, hr, hb]
  split_ifs
  · exact ⟨rfl, rfl, rfl, rfl, rfl⟩
  · exact ⟨rfl, rfl, rfl, rfl, rfl⟩
  · exact xcrypt_select_with_set_mask (spend bkey (xunits bkey.bsize size)) e inp _ _ iv iv_size

/-- C21: for ECB encryption, ECB decryption and xcrypt, the bytes stored in the output, the
final resource counter and the final stream state (`ivector` and continuation flag) are the
same whatever the concluding `set_mask` returns, `ak_error_ok` or an error `e`; the ECB
functions also return the same code. -/
theorem C21_remask_failure_keeps_result (bkey : bckey) (e : Err) (inp : Mem) (size : Nat)
    (iv : Option Mem) (iv_size : Nat) :
    ((ak_bckey_context_encrypt_ecb (with_set_mask bkey e) inp size).out
        = (ak_bckey_context_encrypt_ecb (with_set_mask bkey .ak_error_ok) inp size).out
      ∧ (ak_bckey_context_encrypt_ecb (with_set_mask bkey e) inp size).code
        = (ak_bckey_context_encrypt_ecb (with_set_mask bkey .ak_error_ok) inp size).code
      ∧ (ak_bckey_context_encrypt_ecb (with_set_mask bkey e) inp size
          ).bkey.key.resource_counter
        = (ak_bckey_context_encrypt_ecb (with_set_mask bkey .ak_error_ok) inp size
          ).bkey.key.resource_counter
      ∧ (ak_bckey_context_encrypt_ecb (with_set_mask bkey e) inp size).bkey.ivector
        = (ak_bckey_context_encrypt_ecb (with_set_mask bkey .ak_error_ok) inp size
          ).bkey.ivector)
    ∧ ((ak_bckey_context_decrypt_ecb (with_set_mask bkey e) inp size).out
        = (ak_bckey_context_decrypt_ecb (with_set_mask bkey .ak_error_ok) inp size).out
      ∧ (ak_bckey_context_decrypt_ecb (with_set_mask bkey e) inp size).code
        = (ak_bckey_context_decrypt_ecb (with_set_mask bkey .ak_error_ok) inp size).code
      ∧ (ak_bckey_context_decrypt_ecb (with_set_mask bkey e) inp size
          ).bkey.key.resource_counter
        = (ak_bckey_context_decrypt_ecb (with_set_mask bkey .ak_error_ok) inp size
          ).bkey.key.resource_counter
      ∧ (ak_bckey_context_decrypt_ecb (with_set_mask bkey e) inp size).bkey.ivector
        = (ak_bckey_context_decrypt_ecb (with_set_mask bkey .ak_error_ok) inp size
          ).bkey.ivector)
    ∧ ((ak_bckey_context_xcrypt (with_set_mask bkey e) inp size iv iv_size).out
        = (ak_bckey_context_xcrypt (with_set_mask bkey .ak_error_ok) inp size iv iv_size).out
      ∧ (ak_bckey_context_xcrypt (with_set_mask bkey e) inp size iv iv_size
          ).bkey.key.resource_counter
        = (ak_bckey_context_xcrypt (with_set_mask bkey .ak_error_ok) inp size iv iv_size
          ).bkey.key.resource_counter
      ∧ (ak_bckey_context_xcrypt (with_set_mask bkey e) inp size iv iv_size).bkey.ivector
        = (ak_bckey_context_xcrypt (with_set_mask bkey .ak_error_ok) inp size iv iv_size
          ).bkey.ivector
      ∧ (ak_bckey_context_xcrypt (with_set_mask bkey e) inp size iv iv_size
          ).bkey.key.flag_not_xcrypt
        = (ak_bckey_context_xcrypt (with_set_mask bkey .ak_error_ok) inp size iv iv_size
          ).bkey.key.flag_not_xcrypt) := by
  have h1 := ecb_mode_with_set_mask bkey.encrypt bkey e inp size
  have h1' := ecb_mode_with_set_mask bkey.encrypt bkey .ak_error_ok inp size
  have h2 := ecb_mode_with_set_mask bkey.decrypt bkey e inp size
  have h2' := ecb_mode_with_set_mask bkey.decrypt bkey .ak_error_ok inp size
  have h3 := xcrypt_with_set_mask bkey e inp size iv iv_size
  have h3' := xcrypt_with_set_mask bkey .ak_error_ok inp size iv iv_size
  refine ⟨⟨?_, ?_, ?_, ?_⟩, ⟨?_, ?_, ?_, ?_⟩, ⟨?_, ?_, ?_, ?_⟩⟩
  · exact h1.1.trans h1'.1.symm
  · exact h1.2.1.trans h1'.2.1.symm
  · exact h1.2.2.2.1.trans h1'.2.2.2.1.symm
  · exact h1.2.2.2.2.trans h1'.2.2.2.2.symm
  · exact h2.1.trans h2'.1.symm
  · exact h2.2.1.trans h2'.2.1.symm
  · exact h2.2.2.2.1.trans h2'.2.2.2.1.symm
  · exact h2.2.2.2.2.trans h2'.2.2.2.2.symm
  · exact h3.1.trans h3'.1.symm
  · exact h3.2.2.1.trans h3'.2.2.1.symm
  · exact h3.2.2.2.1.trans h3'.2.2.2.1.symm
  · exact h3.2.2.2.2.trans h3'.2.2.2.2.symm

/-! ## Creation, key assignment, destruction -/

/-- C22: for a non-null context `ak_bckey_context_create` returns `ak_error_zero_length`
whenever `keysize = 0` or `blocksize = 0`, without invoking the creation of the secret key
or of the stream-state buffer (empty trace) and without modifying the context (block size
and bindings included); for a null context it returns `ak_error_null_pointer`. -/
theorem C22_create_rejects_zero_sizes (h : Helpers) (c : bckey_obj) (keysize blocksize : Nat) :
    ((keysize = 0 ∨ blocksize = 0) →
      (ak_bckey_context_create h (some c) keysize blocksize).code = .ak_error_zero_length
      ∧ (ak_bckey_context_create h (some c) keysize blocksize).trace = []
      ∧ (ak_bckey_context_create h (some c) keysize blocksize).ctx = some c)
    ∧ ((ak_bckey_context_create h none keysize blocksize).code = .ak_error_null_pointer
      ∧ (ak_bckey_context_create h none keysize blocksize).trace = []) := by
  refine ⟨?_, rfl, rfl⟩
  intro hz
  unfold ak_bckey_context_create
  simp only
  by_cases hk : keysize = 0
  · rw [if_pos hk]
    exact ⟨rfl, rfl, rfl⟩
  · have hbz : blocksize = 0 := by
      rcases hz with h1 | h1
      · exact absurd h1 hk
      · exact h1
    rw [if_neg hk, if_pos hbz]
    exact ⟨rfl, rfl, rfl⟩

/-- Witness for C22: key size 32 and block size 0. -/
theorem C22_create_rejects_zero_sizes_witness :
    (ak_bckey_context_create okHelpers (some toyObj) 32 0).code = .ak_error_zero_length
    ∧ (ak_bckey_context_create okHelpers (some toyObj) 32 0).trace = [] :=
  have h := (C22_create_rejects_zero_sizes okHelpers toyObj 32 0).1 (Or.inr rfl)
  ⟨h.1, h.2.1⟩

/-- C23: whenever `ak_bckey_context_create( bkey, keysize, blocksize )` returns
`ak_error_ok`, the context is non-null, `bkey.bsize = blocksize` and this is non-zero (any
non-zero value), the four bindings `encrypt`, `decrypt`, `schedule_keys`, `delete_keys` are
`NULL`, and the secret key was created with `keysize` and an integrity-code size of 8. -/
theorem C23_create_postcondition (h : Helpers) (bkey : Option bckey_obj)
    (keysize blocksize : Nat)
    (hok : (ak_bckey_context_create h bkey keysize blocksize).code = .ak_error_ok) :
    blocksize ≠ 0 ∧ keysize ≠ 0
    ∧ Event.skey_create keysize 8 ∈ (ak_bckey_context_create h bkey keysize blocksize).trace
    ∧ ∃ c', (ak_bckey_context_create h bkey keysize blocksize).ctx = some c'
      ∧ c'.bsize = blocksize ∧ c'.encrypt.isNone = true ∧ c'.decrypt.isNone = true
      ∧ c'.schedule_keys = none ∧ c'.delete_keys = none := by
  unfold ak_bckey_context_create at hok ⊢
  cases bkey with
  | none => simp at hok
  | some c =>
    simp only at hok ⊢
    by_cases hk : keysize = 0
    · rw [if_pos hk] at hok
      simp at hok
    · rw [if_neg hk] at hok ⊢
      by_cases hbz : blocksize = 0
      · rw [if_pos hbz] at hok
        simp at hok
      · rw [if_neg hbz] at hok ⊢
        by_cases h1 : h.skey_create ≠ .ak_error_ok
        · rw [if_pos h1] at hok
          exact absurd hok h1
        · rw [if_neg h1] at hok ⊢
          by_cases h2 : h.buffer_create ≠ .ak_error_ok
          · rw [if_pos h2] at hok
            exact absurd hok h2
          · rw [if_neg h2]
            exact ⟨hbz, hk, by simp, _, rfl, rfl, rfl, rfl, rfl, rfl⟩

/-- Witness for C23: key size 32 and block size 5 on a context that had bindings. -/
theorem C23_create_postcondition_witness :
    (5 : Nat) ≠ 0
    ∧ Event.skey_create 32 8 ∈ (ak_bckey_context_create okHelpers (some toyObj) 32 5).trace :=
  have h := C23_create_postcondition okHelpers (some toyObj) 32 5 (by decide)
  ⟨h.1, h.2.2.1⟩

/-- C24: `ak_bckey_context_set_key` with non-null context and key pointer: when `size`
differs from the key size it returns `ak_error_wrong_length`, invokes neither
`ak_skey_context_set_key` nor `schedule_keys` and leaves the context unchanged; when the
size matches and the assignment fails it returns the assignment's error and does not invoke
`schedule_keys`; when the assignment succeeds, `schedule_keys`, if bound, is invoked exactly
once, after the assignment, and the call returns `ak_error_ok`. -/
theorem C24_set_key_length_check (h : Helpers) (c : bckey_obj) (k : List Nat) (size : Nat)
    (cflag : Bool) :
    (size ≠ c.key_size →
      (ak_bckey_context_set_key h (some c) (some k) size cflag).code = .ak_error_wrong_length
      ∧ (ak_bckey_context_set_key h (some c) (some k) size cflag).trace = []
      ∧ (ak_bckey_context_set_key h (some c) (some k) size cflag).ctx = some c)
    ∧ (size = c.key_size → h.skey_set_key ≠ .ak_error_ok →
      (ak_bckey_context_set_key h (some c) (some k) size cflag).code = h.skey_set_key
      ∧ (ak_bckey_context_set_key h (some c) (some k) size cflag).trace
          = [Event.skey_set_key size cflag])
    ∧ (size = c.key_size → h.skey_set_key = .ak_error_ok →
      (ak_bckey_context_set_key h (some c) (some k) size cflag).code = .ak_error_ok
      ∧ (ak_bckey_context_set_key h (some c) (some k) size cflag).trace
          = Event.skey_set_key size cflag ::
              (if c.schedule_keys.isSome then [Event.schedule_keys] else [])
      ∧ ((ak_bckey_context_set_key h (some c) (some k) size cflag).trace.count
            Event.schedule_keys = if c.schedule_keys.isSome then 1 else 0)) := by
  unfold ak_bckey_context_set_key
  simp only
  refine ⟨?_, ?_, ?_⟩
  · intro hne
    rw [if_pos hne]
    exact ⟨rfl, rfl, rfl⟩
  · intro heq hfail
    rw [if_neg (not_not.mpr heq), if_pos hfail]
    exact ⟨rfl, rfl⟩
  · intro heq hsucc
    rw [if_neg (not_not.mpr heq), if_neg (not_not.mpr hsucc)]
    refine ⟨hsucc, rfl, ?_⟩
    cases c.schedule_keys <;> simp

/-- Witness for C24: key size 32; a 16-byte key is refused, a 32-byte key is assigned and
the round keys are scheduled. -/
theorem C24_set_key_length_check_witness :
    (ak_bckey_context_set_key okHelpers (some toyObj) (some []) 16 true).code
        = .ak_error_wrong_length
    ∧ (ak_bckey_context_set_key badHelpers (some toyObj) (some []) 32 true).trace
        = [Event.skey_set_key 32 true]
    ∧ (ak_bckey_context_set_key okHelpers (some toyObj) (some []) 32 true).trace
        = [Event.skey_set_key 32 true, Event.schedule_keys] :=
  have h1 := (C24_set_key_length_check okHelpers toyObj [] 16 true).1 (by decide)
  have h2 := (C24_set_key_length_check badHelpers toyObj [] 32 true).2.1 rfl (by decide)
  have h3 := (C24_set_key_length_check okHelpers toyObj [] 32 true).2.2 rfl rfl
  ⟨h1.1, h2.2, h3.2.1⟩

/-- C25: for every non-null context and whatever `delete_keys`, the buffer wipe, the buffer
destroy and the secret-key destroy return, `ak_bckey_context_destroy` invokes, in this
order, `delete_keys` (if bound), the wipe of `ivector` (if its data is allocated), the
destroy of `ivector` and the destroy of the secret key, and finishes with `bsize = 0` and
`encrypt`, `decrypt`, `schedule_keys`, `delete_keys` unset. -/
theorem C25_destroy_always_completes (h : Helpers) (c : bckey_obj) :
    (ak_bckey_context_destroy h (some c)).trace
        = (if c.delete_keys.isSome then [Event.delete_keys] else [])
          ++ (if c.ivector_data then [Event.buffer_wipe] else [])
          ++ [Event.buffer_destroy, Event.skey_destroy]
    ∧ (∀ pre post, (ak_bckey_context_destroy h (some c)).trace
          = pre ++ Event.skey_destroy :: post → c.delete_keys.isSome = true →
          Event.delete_keys ∈ pre)
    ∧ ∃ c', (ak_bckey_context_destroy h (some c)).ctx = some c'
      ∧ c'.bsize = 0 ∧ c'.encrypt.isNone = true ∧ c'.decrypt.isNone = true
      ∧ c'.schedule_keys = none ∧ c'.delete_keys = none := by
  refine ⟨rfl, ?_, _, rfl, rfl, rfl, rfl, rfl, rfl⟩
  intro pre post hsplit hbound
  unfold ak_bckey_context_destroy at hsplit
  simp only [hbound, if_true] at hsplit
  cases pre with
  | nil =>
    simp at hsplit
  | cons x pre' =>
    simp only [List.cons_append, List.singleton_append, List.cons.injEq] at hsplit
    rw [← hsplit.1]
    exact List.mem_cons_self _ _

/-- Witness for C25: every helper fails and `delete_keys` fails; all steps are still made. -/
theorem C25_destroy_always_completes_witness :
    (ak_bckey_context_destroy badHelpers (some toyObj)).trace
      = [Event.delete_keys, Event.buffer_wipe, Event.buffer_destroy, Event.skey_destroy] :=
  (C25_destroy_always_completes badHelpers toyObj).1.trans (by decide)

/-! ## ECB in place -/

theorem store_nil (b : Mem) (off : Nat) : store b off [] = b := by
  funext i
  unfold store
  rw [if_neg]
  simp

theorem store_append (b : Mem) (A B : List Nat) :
    store (store b 0 A) A.length B = store b 0 (A ++ B) := by
  funext i
  unfold store
  by_cases h1 : i < A.length
  · have hn : ¬ (A.length ≤ i ∧ i < A.length + B.length) := by omega
    have hp : 0 ≤ i ∧ i < 0 + A.length := by omega
    have hq : 0 ≤ i ∧ i < 0 + (A ++ B).length := by
      rw [List.length_append]
      omega
    rw [if_neg hn, if_pos hp, if_pos hq, Nat.sub_zero, List.getD_append _ _ _ _ h1]
  · by_cases h2 : i < A.length + B.length
    · have hp : A.length ≤ i ∧ i < A.length + B.length := by omega
      have hq : 0 ≤ i ∧ i < 0 + (A ++ B).length := by
        rw [List.length_append]
        omega
      rw [if_pos hp, if_pos hq, Nat.sub_zero, List.getD_append_right _ _ _ _ (by omega)]
    · have hn : ¬ (A.length ≤ i ∧ i < A.length + B.length) := by omega
      have hn0 : ¬ (0 ≤ i ∧ i < 0 + A.length) := by omega
      have hq : ¬ (0 ≤ i ∧ i < 0 + (A ++ B).length) := by
        rw [List.length_append]
        omega
      rw [if_neg hn, if_neg hn0, if_neg hq]

theorem load_store_beyond (b : Mem) (A : List Nat) (n : Nat) :
    load (store b 0 A) A.length n = load b A.length n := by
  unfold load
  apply List.map_congr_left
  intro j _
  unfold store
  rw [if_neg (by omega)]

theorem load_store_zero (b : Mem) (A : List Nat) : load (store b 0 A) 0 A.length = A := by
  unfold load
  refine Eq.trans ?_ (map_getD_range A A.length rfl)
  apply List.map_congr_left
  intro j hj
  have hj' := List.mem_range.mp hj
  unfold store
  rw [if_pos (by omega), Nat.zero_add, Nat.sub_zero]

theorem ecb_alias_loop (f : List Nat → List Nat) (bsize : Nat) (b : Mem) (k m : Nat) :
    doWhile (ecb_body_alias f bsize) k
      ⟨m * bsize,
       store b 0 ((List.range m).flatMap
         (fun i => transform f bsize (load b (i * bsize) bsize))), m⟩
    = ⟨(m + k + 1) * bsize,
       store b 0 ((List.range (m + k + 1)).flatMap
         (fun i => transform f bsize (load b (i * bsize) bsize))), m + k + 1⟩ := by
  have hlen : ∀ m, ((List.range m).flatMap
      (fun i => transform f bsize (load b (i * bsize) bsize))).length = m * bsize :=
    fun m => length_flatMap_range _ bsize (fun i => length_transform _ _ _) m
  have step : ∀ m, ecb_body_alias f bsize
      ⟨m * bsize,
       store b 0 ((List.range m).flatMap
         (fun i => transform f bsize (load b (i * bsize) bsize))), m⟩
      = ⟨(m + 1) * bsize,
         store b 0 ((List.range (m + 1)).flatMap
           (fun i => transform f bsize (load b (i * bsize) bsize))), m + 1⟩ := by
    intro m
    simp only [ecb_body_alias]
    have h1 := load_store_beyond b ((List.range m).flatMap
      (fun i => transform f bsize (load b (i * bsize) bsize))) bsize
    have h2 := store_append b ((List.range m).flatMap
      (fun i => transform f bsize (load b (i * bsize) bsize)))
      (transform f bsize (load b (m * bsize) bsize))
    rw [hlen m] at h1 h2
    rw [h1, h2, List.range_succ, List.flatMap_append, List.flatMap_singleton, Nat.succ_mul]
  induction k generalizing m with
  | zero => exact step m
  | succ k ih =>
    rw [doWhile, step m, ih (m + 1)]
    have e : m + 1 + k + 1 = m + (k + 1) + 1 := by omega
    rw [e]

theorem ecb_alias_loop_zero (f : List Nat → List Nat) (bsize : Nat) (b : Mem) (k : Nat) :
    doWhile (ecb_body_alias f bsize) k ⟨0, b, 0⟩
    = ⟨(k + 1) * bsize,
       store b 0 ((List.range (k + 1)).flatMap
         (fun i => transform f bsize (load b (i * bsize) bsize))), k + 1⟩ := by
  have h := ecb_alias_loop f bsize b k 0
  simp only [List.range_zero, List.flatMap_nil, store_nil, Nat.zero_mul, Nat.zero_add] at h
  exact h

theorem ecb_mode_alias_blocks (f : List Nat → List Nat) (bkey : bckey) (b : Mem) (n : Nat)
    (hbs : bkey.bsize = 8 ∨ bkey.bsize = 16) (hn : 1 ≤ n) (hs : n * bkey.bsize < 2 ^ 64)
    (hic : bkey.key.check_icode = true) (hres : (n : Int) ≤ bkey.key.resource_counter) :
    ecb_mode_alias f bkey b (n * bkey.bsize) =
      { code := .ak_error_ok
        bkey := spend bkey (n : Int)
        mem := store b 0 ((List.range n).flatMap
          (fun i => transform f bkey.bsize (load b (i * bkey.bsize) bkey.bsize)))
        calls := n } := by
  have hb : 0 < bkey.bsize := by rcases hbs with h | h <;> omega
  have hdiv : n * bkey.bsize / bkey.bsize = n := Nat.mul_div_cancel n hb
  have hal : n * bkey.bsize % bkey.bsize = 0 := Nat.mul_mod_left n bkey.bsize
  have hlt : n < 2 ^ 63 := by
    have := (div_lt_of_bsize _ _ hbs hs).1
    rwa [hdiv] at this
  unfold ecb_mode_alias
  rw [if_neg (not_not.mpr hal), if_neg (not_not.mpr hic), hdiv, toInt64_of_lt hlt,
    if_neg (not_lt.mpr hres)]
  unfold ecb_run_alias
  rw [if_pos (show (spend bkey _).bsize = 8 ∨ (spend bkey _).bsize = 16 from hbs),
    passes_natCast, ecb_alias_loop_zero, Nat.sub_add_cancel hn]
  rfl

/-- C26: for block size 8 or 16 and a block-aligned non-empty buffer of `n * bsize` bytes
(valid integrity code, sufficient resource), `ak_bckey_context_encrypt_ecb` (resp.
`ak_bckey_context_decrypt_ecb`) called with `out = in` leaves in the buffer exactly the
bytes that the same call stores in a separate output buffer, leaves the memory after the
buffer untouched, and returns the same code and context. -/
theorem C26_ecb_in_place (bkey : bckey) (b : Mem) (n : Nat)
    (hbs : bkey.bsize = 8 ∨ bkey.bsize = 16) (hn : 1 ≤ n) (hs : n * bkey.bsize < 2 ^ 64)
    (hic : bkey.key.check_icode = true) (hres : (n : Int) ≤ bkey.key.resource_counter) :
    (load (ak_bckey_context_encrypt_ecb_inplace bkey b (n * bkey.bsize)).mem 0 (n * bkey.bsize)
        = (ak_bckey_context_encrypt_ecb bkey b (n * bkey.bsize)).out
      ∧ (∀ i, n * bkey.bsize ≤ i →
          (ak_bckey_context_encrypt_ecb_inplace bkey b (n * bkey.bsize)).mem i = b i)
      ∧ (ak_bckey_context_encrypt_ecb_inplace bkey b (n * bkey.bsize)).code
          = (ak_bckey_context_encrypt_ecb bkey b (n * bkey.bsize)).code
      ∧ (ak_bckey_context_encrypt_ecb_inplace bkey b (n * bkey.bsize)).bkey
          = (ak_bckey_context_encrypt_ecb bkey b (n * bkey.bsize)).bkey)
    ∧ (load (ak_bckey_context_decrypt_ecb_inplace bkey b (n * bkey.bsize)).mem 0
          (n * bkey.bsize)
        = (ak_bckey_context_decrypt_ecb bkey b (n * bkey.bsize)).out
      ∧ (∀ i, n * bkey.bsize ≤ i →
          (ak_bckey_context_decrypt_ecb_inplace bkey b (n * bkey.bsize)).mem i = b i)
      ∧ (ak_bckey_context_decrypt_ecb_inplace bkey b (n * bkey.bsize)).code
          = (ak_bckey_context_decrypt_ecb bkey b (n * bkey.bsize)).code
      ∧ (ak_bckey_context_decrypt_ecb_inplace bkey b (n * bkey.bsize)).bkey
          = (ak_bckey_context_decrypt_ecb bkey b (n * bkey.bsize)).bkey) := by
  have aux : ∀ f : List Nat → List Nat,
      load (ecb_mode_alias f bkey b (n * bkey.bsize)).mem 0 (n * bkey.bsize)
        = (ecb_mode f bkey b (n * bkey.bsize)).out
      ∧ (∀ i, n * bkey.bsize ≤ i → (ecb_mode_alias f bkey b (n * bkey.bsize)).mem i = b i)
      ∧ (ecb_mode_alias f bkey b (n * bkey.bsize)).code
          = (ecb_mode f bkey b (n * bkey.bsize)).code
      ∧ (ecb_mode_alias f bkey b (n * bkey.bsize)).bkey
          = (ecb_mode f bkey b (n * bkey.bsize)).bkey := by
    intro f
    have hlen : ((List.range n).flatMap
        (fun i => transform f bkey.bsize (load b (i * bkey.bsize) bkey.bsize))).length
        = n * bkey.bsize :=
      length_flatMap_range _ bkey.bsize (fun i => length_transform _ _ _) n
    rw [ecb_mode_alias_blocks f bkey b n hbs hn hs hic hres,
      ecb_mode_blocks f bkey b n hbs hn hs hic hres]
    refine ⟨?_, ?_, rfl, rfl⟩
    · have h := load_store_zero b ((List.range n).flatMap
        (fun i => transform f bkey.bsize (load b (i * bkey.bsize) bkey.bsize)))
      rw [hlen] at h
      exact h
    · intro i hi
      show store b 0 _ i = b i
      unfold store
      rw [if_neg]
      rw [hlen]
      omega
  exact ⟨aux bkey.encrypt, aux bkey.decrypt⟩

/-- Witness for C26: block size 8, two blocks holding the bytes 0 .. 15. -/
theorem C26_ecb_in_place_witness :
    load (ak_bckey_context_encrypt_ecb_inplace (toyKey 8 100) (fun i => i) 16).mem 0 16
      = (ak_bckey_context_encrypt_ecb (toyKey 8 100) (fun i => i) 16).out :=
  (C26_ecb_in_place (toyKey 8 100) (fun i => i) 2 (Or.inl rfl) (by decide) (by decide) rfl
    (by decide)).1.1

/-! ## Fragments that are multiples of the block -/

theorem shift_zero (m : Mem) : shift m 0 = m := by
  funext i
  unfold shift
  rw [Nat.zero_add]

theorem fragment_fresh (bkey : bckey) (inp : Mem) (n : Nat) (ivm : Mem) (iv_size : Nat)
    (hbs : bkey.bsize = 8 ∨ bkey.bsize = 16) (hn : 1 ≤ n) (hs : n * bkey.bsize < 2 ^ 64)
    (hic : bkey.key.check_icode = true) (hset : bkey.set_size = .ak_error_ok)
    (hiv : bkey.bsize / 2 ≤ iv_size)
    (hres : (n : Int) ≤ bkey.key.resource_counter) :
    (ak_bckey_context_xcrypt bkey inp (n * bkey.bsize) (some ivm) iv_size).bkey
      = seeded bkey (seed bkey.bsize ivm iv_size) n
    ∧ (ak_bckey_context_xcrypt bkey inp (n * bkey.bsize) (some ivm) iv_size).out
      = (List.range (n * bkey.bsize)).map
          (fun i => inp i ^^^ gammaByte bkey.encrypt bkey.bsize (seed bkey.bsize ivm iv_size) i) := by
  have hb : 0 < bkey.bsize := by rcases hbs with h | h <;> omega
  have hdiv : n * bkey.bsize / bkey.bsize = n := Nat.mul_div_cancel n hb
  have hmod : n * bkey.bsize % bkey.bsize = 0 := Nat.mul_mod_left n bkey.bsize
  have hres' : ((n * bkey.bsize / bkey.bsize : Nat) : Int)
      + (if n * bkey.bsize % bkey.bsize > 0 then 1 else 0) ≤ bkey.key.resource_counter := by
    rw [hdiv, hmod]
    simpa using hres
  have h := xcrypt_fresh bkey inp (n * bkey.bsize) ivm iv_size hbs hic hset hs hiv hres'
  rw [hdiv, hmod, Nat.sub_add_cancel hn] at h
  rw [h]
  constructor
  · simp [xcrypt_finish, reseed, spend, seeded]
  · show (List.range (n * bkey.bsize + 0)).map _ = _
    rw [Nat.add_zero]
    apply List.map_congr_left
    intro i hi
    simp only [keystream, if_pos (List.mem_range.mp hi)]

theorem fragment_resume (bkey : bckey) (inp : Mem) (sd : List Nat) (m k : Nat)
    (hbs : bkey.bsize = 8 ∨ bkey.bsize = 16) (hk : 1 ≤ k) (hs : k * bkey.bsize < 2 ^ 64)
    (hic : bkey.key.check_icode = true)
    (hres : ((m + k : Nat) : Int) ≤ bkey.key.resource_counter) :
    (ak_bckey_context_xcrypt (seeded bkey sd m) (shift inp (m * bkey.bsize)) (k * bkey.bsize)
        none 0).bkey = seeded bkey sd (m + k)
    ∧ (ak_bckey_context_xcrypt (seeded bkey sd m) (shift inp (m * bkey.bsize)) (k * bkey.bsize)
        none 0).out
      = (List.range (k * bkey.bsize)).map
          (fun i => inp (m * bkey.bsize + i)
            ^^^ gammaByte bkey.encrypt bkey.bsize sd (m * bkey.bsize + i)) := by
  have hb : 0 < bkey.bsize := by rcases hbs with h | h <;> omega
  have hdiv : k * bkey.bsize / bkey.bsize = k := Nat.mul_div_cancel k hb
  have hmod : k * bkey.bsize % bkey.bsize = 0 := Nat.mul_mod_left k bkey.bsize
  have hres' : ((k * (seeded bkey sd m).bsize / (seeded bkey sd m).bsize : Nat) : Int)
      + (if k * (seeded bkey sd m).bsize % (seeded bkey sd m).bsize > 0 then 1 else 0)
      ≤ (seeded bkey sd m).key.resource_counter := by
    show ((k * bkey.bsize / bkey.bsize : Nat) : Int)
      + (if k * bkey.bsize % bkey.bsize > 0 then 1 else 0)
      ≤ bkey.key.resource_counter - (m : Int)
    rw [hdiv, hmod]
    push_cast at hres
    simp only [gt_iff_lt, lt_self_iff_false, if_false, add_zero]
    linarith
  have h := xcrypt_resume (seeded bkey sd m) (shift inp (m * bkey.bsize))
    (k * (seeded bkey sd m).bsize) none 0 (inc_word0^[m] sd) hbs hic hs (Or.inl rfl) rfl rfl
    hres'
  have h' : ak_bckey_context_xcrypt (seeded bkey sd m) (shift inp (m * bkey.bsize))
      (k * bkey.bsize) none 0 = _ := h
  rw [h']
  have hbq : (seeded bkey sd m).bsize = bkey.bsize := rfl
  rw [hbq, hdiv, hmod, Nat.sub_add_cancel hk]
  constructor
  · simp only [xcrypt_finish, final_state, spend, seeded, if_true, gt_iff_lt,
      lt_self_iff_false, if_false, add_zero]
    rw [← Function.iterate_add_apply, Nat.add_comm k m]
    push_cast
    rw [sub_sub]
  · show (List.range (k * bkey.bsize + 0)).map _ = _
    rw [Nat.add_zero]
    apply List.map_congr_left
    intro i hi
    have he : (seeded bkey sd m).encrypt = bkey.encrypt := rfl
    simp only [keystream, if_pos (List.mem_range.mp hi), gammaByte_shift _ _ hb, shift, he]

theorem length_map_range (f : Nat → Nat) (n : Nat) : ((List.range n).map f).length = n := by
  simp

theorem fragments_resume (bkey : bckey) (inp : Mem) (sd : List Nat) (outm0 : Mem)
    (hbs : bkey.bsize = 8 ∨ bkey.bsize = 16) (hic : bkey.key.check_icode = true)
    (ks : List Nat) :
    ∀ m : Nat, (∀ k ∈ ks, 1 ≤ k) → (m + ks.sum) * bkey.bsize < 2 ^ 64 →
      ((m + ks.sum : Nat) : Int) ≤ bkey.key.resource_counter →
      xcrypt_chunks inp none 0 (ks.map (fun k => k * bkey.bsize))
        (seeded bkey sd m, m * bkey.bsize,
         store outm0 0 ((List.range (m * bkey.bsize)).map
           (fun i => inp i ^^^ gammaByte bkey.encrypt bkey.bsize sd i)))
      = (seeded bkey sd (m + ks.sum), (m + ks.sum) * bkey.bsize,
         store outm0 0 ((List.range ((m + ks.sum) * bkey.bsize)).map
           (fun i => inp i ^^^ gammaByte bkey.encrypt bkey.bsize sd i))) := by
  induction ks with
  | nil =>
    intro m _ _ _
    simp [xcrypt_chunks]
  | cons k rest ih =>
    intro m hpos hs hres
    have hk : 1 ≤ k := hpos k (List.mem_cons_self _ _)
    have hrest : ∀ j ∈ rest, 1 ≤ j := fun j hj => hpos j (List.mem_cons_of_mem _ hj)
    have hsum : m + (k :: rest).sum = m + k + rest.sum := by
      rw [List.sum_cons]
      omega
    rw [hsum] at hs hres ⊢
    have hb : 0 < bkey.bsize := by rcases hbs with h | h <;> omega
    have hsk : k * bkey.bsize < 2 ^ 64 := by
      have : k * bkey.bsize ≤ (m + k + rest.sum) * bkey.bsize :=
        Nat.mul_le_mul_right _ (by omega)
      omega
    have hresk : ((m + k : Nat) : Int) ≤ bkey.key.resource_counter := by
      have : ((m + k : Nat) : Int) ≤ ((m + k + rest.sum : Nat) : Int) := by
        exact_mod_cast Nat.le_add_right _ _
      linarith
    obtain ⟨hB, hO⟩ := fragment_resume bkey inp sd m k hbs hk hsk hic hresk
    rw [List.map_cons, xcrypt_chunks]
    rw [hB, hO]
    have hlen := length_map_range
      (fun i => inp i ^^^ gammaByte bkey.encrypt bkey.bsize sd i) (m * bkey.bsize)
    have hst := store_append outm0
      ((List.range (m * bkey.bsize)).map
        (fun i => inp i ^^^ gammaByte bkey.encrypt bkey.bsize sd i))
      ((List.range (k * bkey.bsize)).map
        (fun i => inp (m * bkey.bsize + i)
          ^^^ gammaByte bkey.encrypt bkey.bsize sd (m * bkey.bsize + i)))
    rw [hlen] at hst
    rw [hst]
    have happ : (List.range (m * bkey.bsize)).map
          (fun i => inp i ^^^ gammaByte bkey.encrypt bkey.bsize sd i)
        ++ (List.range (k * bkey.bsize)).map
          (fun i => inp (m * bkey.bsize + i)
            ^^^ gammaByte bkey.encrypt bkey.bsize sd (m * bkey.bsize + i))
        = (List.range ((m + k) * bkey.bsize)).map
          (fun i => inp i ^^^ gammaByte bkey.encrypt bkey.bsize sd i) := by
      rw [Nat.add_mul, List.range_add, List.map_append, List.map_map]
      rfl
    rw [happ, ← Nat.add_mul]
    exact ih (m + k) hrest hs hres

/-- C27: for block size 8 or 16, an IV of at least `bsize / 2` bytes and a buffer split into
consecutive fragments of `k₀ * bsize, k₁ * bsize, …` bytes with every `kᵢ ≥ 1` (valid
integrity code, sufficient resource, `ak_buffer_set_size` succeeding), calling
`ak_bckey_context_xcrypt` on the fragments in
order, with the IV on the first call and `NULL, 0` on the others, stores the same output
bytes and leaves the same context (stream state, continuation flag, resource counter) as one
call on the whole buffer; nothing is stored after the buffer. -/
theorem C27_block_multiple_fragments (bkey : bckey) (inp : Mem) (ivm : Mem) (iv_size : Nat)
    (k0 : Nat) (ks : List Nat) (outm0 : Mem)
    (hbs : bkey.bsize = 8 ∨ bkey.bsize = 16) (hic : bkey.key.check_icode = true)
    (hset : bkey.set_size = .ak_error_ok) (hiv : bkey.bsize / 2 ≤ iv_size)
    (hpos : ∀ k ∈ k0 :: ks, 1 ≤ k)
    (hs : (k0 :: ks).sum * bkey.bsize < 2 ^ 64)
    (hres : (((k0 :: ks).sum : Nat) : Int) ≤ bkey.key.resource_counter) :
    load (xcrypt_chunks inp (some ivm) iv_size ((k0 :: ks).map (fun k => k * bkey.bsize))
        (bkey, 0, outm0)).2.2 0 ((k0 :: ks).sum * bkey.bsize)
      = (ak_bckey_context_xcrypt bkey inp ((k0 :: ks).sum * bkey.bsize) (some ivm) iv_size).out
    ∧ (xcrypt_chunks inp (some ivm) iv_size ((k0 :: ks).map (fun k => k * bkey.bsize))
        (bkey, 0, outm0)).1
      = (ak_bckey_context_xcrypt bkey inp ((k0 :: ks).sum * bkey.bsize) (some ivm) iv_size).bkey
    ∧ (∀ i, (k0 :: ks).sum * bkey.bsize ≤ i →
        (xcrypt_chunks inp (some ivm) iv_size ((k0 :: ks).map (fun k => k * bkey.bsize))
          (bkey, 0, outm0)).2.2 i = outm0 i) := by
  have hk0 : 1 ≤ k0 := hpos k0 (List.mem_cons_self _ _)
  have hrest : ∀ j ∈ ks, 1 ≤ j := fun j hj => hpos j (List.mem_cons_of_mem _ hj)
  have hN : 1 ≤ (k0 :: ks).sum := by
    rw [List.sum_cons]
    omega
  have hsum : (k0 :: ks).sum = k0 + ks.sum := List.sum_cons
  have hs0 : k0 * bkey.bsize < 2 ^ 64 := by
    have : k0 * bkey.bsize ≤ (k0 :: ks).sum * bkey.bsize :=
      Nat.mul_le_mul_right _ (by rw [hsum]; omega)
    omega
  have hres0 : (k0 : Int) ≤ bkey.key.resource_counter := by
    have : ((k0 : Nat) : Int) ≤ (((k0 :: ks).sum : Nat) : Int) := by
      rw [hsum]
      exact_mod_cast Nat.le_add_right _ _
    linarith
  obtain ⟨hB1, hO1⟩ := fragment_fresh bkey inp ((k0 :: ks).sum) ivm iv_size hbs hN hs hic hset hiv
    hres
  obtain ⟨hB0, hO0⟩ := fragment_fresh bkey inp k0 ivm iv_size hbs hk0 hs0 hic hset hiv hres0
  have hchunks : xcrypt_chunks inp (some ivm) iv_size ((k0 :: ks).map (fun k => k * bkey.bsize))
      (bkey, 0, outm0)
      = (seeded bkey (seed bkey.bsize ivm iv_size) (k0 + ks.sum), (k0 + ks.sum) * bkey.bsize,
         store outm0 0 ((List.range ((k0 + ks.sum) * bkey.bsize)).map
           (fun i => inp i ^^^ gammaByte bkey.encrypt bkey.bsize
             (seed bkey.bsize ivm iv_size) i))) := by
    rw [List.map_cons, xcrypt_chunks]
    rw [shift_zero, hB0, hO0, Nat.zero_add]
    exact fragments_resume bkey inp (seed bkey.bsize ivm iv_size) outm0 hbs hic ks k0 hrest
      (by rw [← hsum]; exact hs) (by rw [← hsum]; exact hres)
  rw [hchunks, hB1, hO1, hsum]
  have hlen := length_map_range
    (fun i => inp i ^^^ gammaByte bkey.encrypt bkey.bsize (seed bkey.bsize ivm iv_size) i)
    ((k0 + ks.sum) * bkey.bsize)
  refine ⟨?_, rfl, ?_⟩
  · have h := load_store_zero outm0 ((List.range ((k0 + ks.sum) * bkey.bsize)).map
      (fun i => inp i ^^^ gammaByte bkey.encrypt bkey.bsize (seed bkey.bsize ivm iv_size) i))
    rw [hlen] at h
    exact h
  · intro i hi
    show store outm0 0 _ i = outm0 i
    unfold store
    rw [if_neg]
    rw [hlen]
    omega

/-- Witness for C27: block size 8, 32 bytes in fragments of 8, 16 and 8 bytes. -/
theorem C27_block_multiple_fragments_witness :
    load (xcrypt_chunks (fun i => i) (some (fun i => 10 + i)) 4 [8, 16, 8]
        (toyKey 8 100, 0, fun _ => 0)).2.2 0 32
      = (ak_bckey_context_xcrypt (toyKey 8 100) (fun i => i) 32 (some (fun i => 10 + i)) 4).out :=
  (C27_block_multiple_fragments (toyKey 8 100) (fun i => i) (fun i => 10 + i) 4 1 [2, 1]
    (fun _ => 0) (Or.inl rfl) rfl rfl (by decide) (by decide) (by decide) (by decide)).1

/-! ## Calls shorter than one block -/

/-- C28, evaluation at the failing input: block size 8, IV 10, 11, 12, 13, a 3-byte message
0, 1, 2.  The call invokes the encrypt transform twice, stores 11 bytes, and its first three
output bytes are 1, 9, 13 (input XOR bytes 0 .. 2 of the keystream block), where the claim
requires 47, 54, 61 (input XOR bytes 5 .. 7); it deducts one resource unit. -/
theorem C28_short_message_runs_block_pass :
    (ak_bckey_context_xcrypt (toyKey 8 100) (ofList [0, 1, 2]) 3
        (some (ofList [10, 11, 12, 13])) 4).calls = 2
    ∧ (ak_bckey_context_xcrypt (toyKey 8 100) (ofList [0, 1, 2]) 3
        (some (ofList [10, 11, 12, 13])) 4).out
      = [1, 9, 13, 22, 39, 47, 55, 63, 47, 55, 63]
    ∧ (List.range 3).map (fun i => ofList [0, 1, 2] i
        ^^^ (transform toyE 8 (seed 8 (ofList [10, 11, 12, 13]) 4)).getD (8 - 3 + i) 0)
      = [47, 54, 61]
    ∧ (ak_bckey_context_xcrypt (toyKey 8 100) (ofList [0, 1, 2]) 3
        (some (ofList [10, 11, 12, 13])) 4).bkey.key.resource_counter = 99 := by
  decide

/-- C29, evaluation at the failing input: block size 8, IV 10, 11, 12, 13, size 0.  The call
returns `ak_error_ok` and deducts nothing, but it invokes the encrypt transform once, stores
8 bytes, and leaves the seed with its first word incremented. -/
theorem C29_empty_call_runs_block_pass :
    (ak_bckey_context_xcrypt (toyKey 8 100) (ofList []) 0
        (some (ofList [10, 11, 12, 13])) 4).code = .ak_error_ok
    ∧ (ak_bckey_context_xcrypt (toyKey 8 100) (ofList []) 0
        (some (ofList [10, 11, 12, 13])) 4).bkey.key.resource_counter = 100
    ∧ (ak_bckey_context_xcrypt (toyKey 8 100) (ofList []) 0
        (some (ofList [10, 11, 12, 13])) 4).calls = 1
    ∧ (ak_bckey_context_xcrypt (toyKey 8 100) (ofList []) 0
        (some (ofList [10, 11, 12, 13])) 4).out.length = 8
    ∧ seed 8 (ofList [10, 11, 12, 13]) 4 = [0, 0, 0, 0, 10, 11, 12, 13]
    ∧ (ak_bckey_context_xcrypt (toyKey 8 100) (ofList []) 0
        (some (ofList [10, 11, 12, 13])) 4).bkey.ivector = some [1, 0, 0, 0, 10, 11, 12, 13] := by
  decide

/-! ## Work done under a key -/

theorem ecb_mode_work (f : List Nat → List Nat) (bkey : bckey) (inp : Mem) (size : Nat)
    (h0 : 0 ≤ bkey.key.resource_counter) (hsz : bkey.bsize ≤ size) (hs : size < 2 ^ 63) :
    (((ecb_mode f bkey inp size).calls : Nat) : Int)
        ≤ bkey.key.resource_counter - (ecb_mode f bkey inp size).bkey.key.resource_counter
    ∧ 0 ≤ (ecb_mode f bkey inp size).bkey.key.resource_counter
    ∧ (ecb_mode f bkey inp size).bkey.bsize = bkey.bsize
    ∧ ((ecb_mode f bkey inp size).masks = 1 →
        (((ecb_mode f bkey inp size).calls : Nat) : Int)
          = bkey.key.resource_counter - (ecb_mode f bkey inp size).bkey.key.resource_counter)
    ∧ ((ecb_mode f bkey inp size).masks = 0 → (ecb_mode f bkey inp size).calls = 0) := by
  have hdiv : size / bkey.bsize < 2 ^ 63 := lt_of_le_of_lt (Nat.div_le_self _ _) hs
  have hnn : (0 : Int) ≤ ((size / bkey.bsize : Nat) : Int) := Int.natCast_nonneg _
  by_cases h1 : size % bkey.bsize = 0
  · by_cases h2 : bkey.key.check_icode = true
    · by_cases h3 : bkey.key.resource_counter < ((size / bkey.bsize : Nat) : Int)
      · rw [ecb_mode_low _ _ _ _ h1 h2 (by rw [toInt64_of_lt hdiv]; exact h3)]
        simp [fail, h0]
      · have hres : ((size / bkey.bsize : Nat) : Int) ≤ bkey.key.resource_counter :=
          not_lt.mp h3
        by_cases hbs : bkey.bsize = 8 ∨ bkey.bsize = 16
        · have hb : 0 < bkey.bsize := by rcases hbs with h | h <;> omega
          have hq : 1 ≤ size / bkey.bsize := (Nat.one_le_div_iff hb).mpr hsz
          rw [ecb_mode_run f bkey inp size hbs h1 h2 (by omega) hres, Nat.sub_add_cancel hq]
          simp only [spend_counter, spend_bsize]
          refine ⟨by linarith, by linarith, trivial, fun _ => by ring, fun h => by simp at h⟩
        · rw [ecb_mode_unsupported f bkey inp size hbs h2 hs h1 hres]
          simp only [fail, spend_counter, spend_bsize]
          refine ⟨?_, by linarith, trivial, fun h => by simp at h, fun _ => trivial⟩
          simp only [Nat.cast_zero]
          linarith
    · rw [ecb_mode_bad_icode _ _ _ _ h1 h2]
      simp [fail, h0]
  · rw [ecb_mode_unaligned _ _ _ _ h1]
    simp [fail, h0]

theorem xcrypt_bsize (bkey : bckey) (inp : Mem) (size : Nat) (iv : Option Mem)
    (iv_size : Nat) :
    (ak_bckey_context_xcrypt bkey inp size iv iv_size).bkey.bsize = bkey.bsize := by
  by_cases h2 : bkey.key.check_icode = true
  · by_cases h3 : bkey.key.resource_counter < xunits bkey.bsize size
    · rw [xcrypt_low _ _ _ _ _ h2 h3]
      rfl
    · rw [xcrypt_pass _ _ _ _ _ h2 h3]
      apply xcrypt_select_cases (fun r => r.bkey.bsize = bkey.bsize)
      · intro e _
        rfl
      · intro v ov
        apply xcrypt_run_cases (fun r => r.bkey.bsize = bkey.bsize)
        · intro _ s
          rfl
        · intro _
          rfl
      · intro w v ov
        apply xcrypt_run_cases (fun r => r.bkey.bsize = bkey.bsize)
        · intro _ s
          rfl
        · intro _
          rfl
  · rw [xcrypt_bad_icode _ _ _ _ _ h2]
    rfl

theorem xcrypt_work (bkey : bckey) (inp : Mem) (size : Nat) (iv : Option Mem) (iv_size : Nat)
    (h0 : 0 ≤ bkey.key.resource_counter) (hsz : bkey.bsize ≤ size) (hs : size < 2 ^ 63) :
    (((ak_bckey_context_xcrypt bkey inp size iv iv_size).calls : Nat) : Int)
        ≤ bkey.key.resource_counter
          - (ak_bckey_context_xcrypt bkey inp size iv iv_size).bkey.key.resource_counter
    ∧ 0 ≤ (ak_bckey_context_xcrypt bkey inp size iv iv_size).bkey.key.resource_counter
    ∧ (ak_bckey_context_xcrypt bkey inp size iv iv_size).bkey.bsize = bkey.bsize
    ∧ ((ak_bckey_context_xcrypt bkey inp size iv iv_size).masks = 1 →
        (((ak_bckey_context_xcrypt bkey inp size iv iv_size).calls : Nat) : Int)
          = bkey.key.resource_counter
            - (ak_bckey_context_xcrypt bkey inp size iv iv_size).bkey.key.resource_counter)
    ∧ ((ak_bckey_context_xcrypt bkey inp size iv iv_size).masks = 0 →
        (ak_bckey_context_xcrypt bkey inp size iv iv_size).calls = 0) := by
  have hdiv : size / bkey.bsize < 2 ^ 63 := lt_of_le_of_lt (Nat.div_le_self _ _) hs
  have hcb := xcrypt_counter_bounds bkey inp size iv iv_size (units_lt_of_size _ _ hs) h0
  have hcompleted : (ak_bckey_context_xcrypt bkey inp size iv iv_size).masks = 1 →
      (((ak_bckey_context_xcrypt bkey inp size iv iv_size).calls : Nat) : Int)
        = bkey.key.resource_counter
          - (ak_bckey_context_xcrypt bkey inp size iv iv_size).bkey.key.resource_counter := by
    intro hm
    obtain ⟨hbs, _, _, v, ov, _, heq⟩ := xcrypt_completed bkey inp size iv iv_size
      (by omega) hm
    have hb : 0 < bkey.bsize := by rcases hbs with h | h <;> omega
    have hq : 1 ≤ size / bkey.bsize := (Nat.one_le_div_iff hb).mpr hsz
    rw [heq]
    simp only [xcrypt_finish, final_state, spend, Nat.sub_add_cancel hq]
    by_cases ht : size % bkey.bsize = 0
    · simp [ht]
    · have ht' : size % bkey.bsize > 0 := Nat.pos_of_ne_zero ht
      simp [ht, ht']
  rcases xcrypt_shape bkey inp size iv iv_size with ⟨hm, _, _⟩ | ⟨hm, hc, _, _⟩
  · refine ⟨le_of_eq (hcompleted hm), hcb.1, xcrypt_bsize _ _ _ _ _, hcompleted, ?_⟩
    intro h
    rw [hm] at h
    exact absurd h (by decide)
  · refine ⟨?_, hcb.1, xcrypt_bsize _ _ _ _ _, hcompleted, fun _ => hc⟩
    rw [hc]
    simp only [Nat.cast_zero]
    linarith [hcb.2]

theorem run_call_work (bkey : bckey) (c : Call)
    (h0 : 0 ≤ bkey.key.resource_counter) (hsz : bkey.bsize ≤ c.size) (hs : c.size < 2 ^ 63) :
    (((run_call bkey c).calls : Nat) : Int)
        ≤ bkey.key.resource_counter - (run_call bkey c).bkey.key.resource_counter
    ∧ 0 ≤ (run_call bkey c).bkey.key.resource_counter
    ∧ (run_call bkey c).bkey.bsize = bkey.bsize
    ∧ ((run_call bkey c).masks = 1 →
        (((run_call bkey c).calls : Nat) : Int)
          = bkey.key.resource_counter - (run_call bkey c).bkey.key.resource_counter)
    ∧ ((run_call bkey c).masks = 0 → (run_call bkey c).calls = 0) := by
  cases c with
  | encrypt_ecb inp size => exact ecb_mode_work _ bkey inp size h0 hsz hs
  | decrypt_ecb inp size => exact ecb_mode_work _ bkey inp size h0 hsz hs
  | xcrypt inp size iv iv_size => exact xcrypt_work bkey inp size iv iv_size h0 hsz hs

theorem run_calls_work (cs : List Call) :
    ∀ bkey : bckey, 0 ≤ bkey.key.resource_counter →
      (∀ c ∈ cs, bkey.bsize ≤ c.size ∧ c.size < 2 ^ 63) →
      (((run_calls bkey cs).2 : Nat) : Int)
          ≤ bkey.key.resource_counter - (run_calls bkey cs).1.key.resource_counter
      ∧ 0 ≤ (run_calls bkey cs).1.key.resource_counter := by
  induction cs with
  | nil =>
    intro bkey h0 _
    simp [run_calls, h0]
  | cons c rest ih =>
    intro bkey h0 hcs
    have hc := hcs c (List.mem_cons_self _ _)
    obtain ⟨h1, h2, h3, _, _⟩ := run_call_work bkey c h0 hc.1 hc.2
    have hrest : ∀ d ∈ rest, (run_call bkey c).bkey.bsize ≤ d.size ∧ d.size < 2 ^ 63 := by
      intro d hd
      rw [h3]
      exact hcs d (List.mem_cons_of_mem _ hd)
    obtain ⟨i1, i2⟩ := ih (run_call bkey c).bkey h2 hrest
    simp only [run_calls]
    refine ⟨?_, i2⟩
    push_cast
    linarith

theorem xcrypt_loop_counts (E : List Nat → List Nat) (bsize : Nat) (inp : Mem) (k : Nat) :
    ∀ s : XState, (doWhile (xcrypt_body E bsize inp) k s).calls = s.calls + (k + 1)
      ∧ (doWhile (xcrypt_body E bsize inp) k s).ivector = inc_word0^[k + 1] s.ivector := by
  induction k with
  | zero =>
    intro s
    exact ⟨rfl, rfl⟩
  | succ k ih =>
    intro s
    rw [doWhile]
    obtain ⟨h1, h2⟩ := ih (xcrypt_body E bsize inp s)
    rw [h1, h2]
    constructor
    · simp only [xcrypt_body]
      omega
    · rw [Function.iterate_succ_apply (f := inc_word0) (n := k + 1)]
      rfl

/-- C30, counterexample: (1) on a context with resource 0 and block size 8, an ECB call and
an xcrypt call of size 0 deduct nothing and invoke the block transform once each, two
invocations in total; (2) with resource 100, an xcrypt call without IV on a context without
stream state deducts two units for 16 bytes and invokes the transform zero times. -/
theorem C30_counterexample :
    ((toyKey 8 0).key.resource_counter = 0
      ∧ (run_calls (toyKey 8 0)
          [Call.encrypt_ecb (fun i => i) 0,
           Call.xcrypt (fun i => i) 0 (some (fun i => 10 + i)) 4]).2 = 2)
    ∧ ((ak_bckey_context_xcrypt (toyKey 8 100) (fun i => i) 16 none 0).calls = 0
      ∧ (ak_bckey_context_xcrypt (toyKey 8 100) (fun i => i) 16 none 0
          ).bkey.key.resource_counter = 98) := by
  decide

/-- C30, amended: for every finite sequence of `ak_bckey_context_encrypt_ecb`,
`ak_bckey_context_decrypt_ecb` and `ak_bckey_context_xcrypt` calls on one context that
starts with resource counter `R ≥ 0`, every call having a size of at least one block, the
total number of block-transform invocations is at most `R` (at most what the sequence
deducted).  Each such call that completes invokes the transform exactly as many times as
the units it deducts, each one that is rejected invokes it zero times.  In the xcrypt loop
every increment of the stream counter comes with one transform invocation, so the bound
covers the increments. -/
theorem C30_resource_bounds_work (bkey : bckey) (cs : List Call)
    (_hb : bkey.bsize ≠ 0) (h0 : 0 ≤ bkey.key.resource_counter)
    (hcs : ∀ c ∈ cs, bkey.bsize ≤ c.size ∧ c.size < 2 ^ 63) :
    (((run_calls bkey cs).2 : Nat) : Int) ≤ bkey.key.resource_counter
    ∧ (((run_calls bkey cs).2 : Nat) : Int)
        ≤ bkey.key.resource_counter - (run_calls bkey cs).1.key.resource_counter
    ∧ 0 ≤ (run_calls bkey cs).1.key.resource_counter
    ∧ (∀ (b : bckey) (c : Call), 0 ≤ b.key.resource_counter → b.bsize ≤ c.size →
        c.size < 2 ^ 63 →
        ((run_call b c).masks = 1 →
          (((run_call b c).calls : Nat) : Int)
            = b.key.resource_counter - (run_call b c).bkey.key.resource_counter)
        ∧ ((run_call b c).masks = 0 → (run_call b c).calls = 0))
    ∧ (∀ (E : List Nat → List Nat) (bsize : Nat) (inp : Mem) (k : Nat) (s : XState),
        (doWhile (xcrypt_body E bsize inp) k s).calls = s.calls + (k + 1)
        ∧ (doWhile (xcrypt_body E bsize inp) k s).ivector = inc_word0^[k + 1] s.ivector) := by
  obtain ⟨h1, h2⟩ := run_calls_work cs bkey h0 hcs
  refine ⟨by linarith, h1, h2, ?_, fun E bsize inp k s => xcrypt_loop_counts E bsize inp k s⟩
  intro b c hb0 hsz hs
  exact (run_call_work b c hb0 hsz hs).2.2.2

/-- Witness for the amended C30: block size 8, resource 5; ECB on 16 bytes, then xcrypt on
19 bytes with an IV: five invocations in total. -/
theorem C30_resource_bounds_work_witness :
    (run_calls (toyKey 8 5)
        [Call.encrypt_ecb (fun i => i) 16,
         Call.xcrypt (fun i => i) 19 (some (fun i => 10 + i)) 4]).2 = 5
    ∧ (((run_calls (toyKey 8 5)
        [Call.encrypt_ecb (fun i => i) 16,
         Call.xcrypt (fun i => i) 19 (some (fun i => 10 + i)) 4]).2 : Nat) : Int) ≤ 5 :=
  ⟨by decide,
   (C30_resource_bounds_work (toyKey 8 5)
      [Call.encrypt_ecb (fun i => i) 16,
       Call.xcrypt (fun i => i) 19 (some (fun i => 10 + i)) 4]
      (by decide) (by decide) (by decide)).1⟩

/-! ## Rejections after the resource decrement -/

/-- C32: in every completed run (one that reaches `set_mask`) the ECB functions return
`ak_error_ok` and `ak_bckey_context_xcrypt` returns the value of `set_mask`; so with
`set_mask` returning `e ≠ ak_error_ok` the ECB functions return `ak_error_ok` and xcrypt
returns `e`, and with `set_mask` returning `ak_error_ok` all three return `ak_error_ok`.
A run completes when all checks pass: block size 8 or 16, valid integrity code, sufficient
resource, and an aligned size (ECB) or an IV of at least `bsize / 2` bytes for which
`ak_buffer_set_size` succeeds (xcrypt). -/
theorem C32_return_code_after_remask_failure (bkey : bckey) (inp : Mem) (size : Nat)
    (iv : Option Mem) (iv_size : Nat) :
    ((ak_bckey_context_encrypt_ecb bkey inp size).masks = 1 →
      (ak_bckey_context_encrypt_ecb bkey inp size).code = .ak_error_ok)
    ∧ ((ak_bckey_context_decrypt_ecb bkey inp size).masks = 1 →
      (ak_bckey_context_decrypt_ecb bkey inp size).code = .ak_error_ok)
    ∧ ((ak_bckey_context_xcrypt bkey inp size iv iv_size).masks = 1 →
      (ak_bckey_context_xcrypt bkey inp size iv iv_size).code = bkey.key.set_mask)
    ∧ ((bkey.bsize = 8 ∨ bkey.bsize = 16) → bkey.key.check_icode = true → size < 2 ^ 64 →
        size % bkey.bsize = 0 →
        ((size / bkey.bsize : Nat) : Int) ≤ bkey.key.resource_counter →
        (ak_bckey_context_encrypt_ecb bkey inp size).masks = 1
        ∧ (ak_bckey_context_decrypt_ecb bkey inp size).masks = 1)
    ∧ ((bkey.bsize = 8 ∨ bkey.bsize = 16) → bkey.key.check_icode = true → size < 2 ^ 64 →
        ((size / bkey.bsize : Nat) : Int) + (if size % bkey.bsize > 0 then 1 else 0)
          ≤ bkey.key.resource_counter →
        ∀ ivm, iv = some ivm → bkey.bsize / 2 ≤ iv_size → bkey.set_size = .ak_error_ok →
        (ak_bckey_context_xcrypt bkey inp size iv iv_size).masks = 1) := by
  refine ⟨?_, ?_, ?_, ?_, ?_⟩
  · intro hm
    rcases ecb_mode_shape bkey.encrypt bkey inp size with ⟨_, _, hc⟩ | ⟨h0, _⟩
    · exact hc
    · have h0' : (ak_bckey_context_encrypt_ecb bkey inp size).masks = 0 := h0
      rw [h0'] at hm
      exact absurd hm (by decide)
  · intro hm
    rcases ecb_mode_shape bkey.decrypt bkey inp size with ⟨_, _, hc⟩ | ⟨h0, _⟩
    · exact hc
    · have h0' : (ak_bckey_context_decrypt_ecb bkey inp size).masks = 0 := h0
      rw [h0'] at hm
      exact absurd hm (by decide)
  · intro hm
    rcases xcrypt_shape bkey inp size iv iv_size with ⟨_, _, hc⟩ | ⟨h0, _⟩
    · exact hc
    · rw [h0] at hm
      exact absurd hm (by decide)
  · intro hbs hic hs hal hres
    constructor
    · show (ecb_mode bkey.encrypt bkey inp size).masks = 1
      rw [ecb_mode_run _ bkey inp size hbs hal hic hs hres]
    · show (ecb_mode bkey.decrypt bkey inp size).masks = 1
      rw [ecb_mode_run _ bkey inp size hbs hal hic hs hres]
  · intro hbs hic hs hres ivm hiv hlen hset
    rw [hiv, xcrypt_fresh bkey inp size ivm iv_size hbs hic hset hs hlen hres]
    rfl

/-- Witness for C32: block size 8, `set_mask` returning the error code 5, 16 bytes: ECB
encryption returns `ak_error_ok`, xcrypt returns the error. -/
theorem C32_return_code_after_remask_failure_witness :
    (ak_bckey_context_encrypt_ecb (with_set_mask (toyKey 8 100) (.other 5))
        (fun i => i) 16).code = .ak_error_ok
    ∧ (ak_bckey_context_xcrypt (with_set_mask (toyKey 8 100) (.other 5))
        (fun i => i) 16 (some (fun i => i)) 4).code = .other 5 :=
  ⟨(C32_return_code_after_remask_failure (with_set_mask (toyKey 8 100) (.other 5))
      (fun i => i) 16 (some (fun i => i)) 4).1 (by decide),
   (C32_return_code_after_remask_failure (with_set_mask (toyKey 8 100) (.other 5))
      (fun i => i) 16 (some (fun i => i)) 4).2.2.1 (by decide)⟩

/-! ## Value returned by the destruction -/

/-- C33: for every non-null context the value returned by `ak_bckey_context_destroy` is the
value returned by the final `ak_skey_context_destroy` call, whatever `delete_keys`, the wipe
and the destroy of `ivector` returned; when the secret-key destroy succeeds the function
returns `ak_error_ok`. -/
theorem C33_destroy_reports_last_step (h : Helpers) (c : bckey_obj) :
    (ak_bckey_context_destroy h (some c)).code = h.skey_destroy
    ∧ (h.skey_destroy = .ak_error_ok →
        (ak_bckey_context_destroy h (some c)).code = .ak_error_ok) := by
  have hcode : (ak_bckey_context_destroy h (some c)).code = h.skey_destroy := by
    show (destroy_assignments h c).foldl (fun _ e => e) .ak_error_ok = h.skey_destroy
    unfold destroy_assignments
    rw [List.foldl_append]
    rfl
  exact ⟨hcode, fun hok => hcode.trans hok⟩

/-- Witness for C33: `delete_keys`, the wipe and the destroy of `ivector` fail, the
secret-key destroy succeeds, and the function returns `ak_error_ok`. -/
theorem C33_destroy_reports_last_step_witness :
    (ak_bckey_context_destroy { badHelpers with skey_destroy := .ak_error_ok }
        (some toyObj)).code = .ak_error_ok :=
  (C33_destroy_reports_last_step { badHelpers with skey_destroy := .ak_error_ok } toyObj).2 rfl

/-! ## The counter word of an 8-byte block -/

theorem iterate_inc_eq (v : List Nat) (n : Nat) (hn : 1 ≤ n) :
    inc_word0^[n] v = bytes64 ((le64 v + n) % 2 ^ 64) ++ v.drop 8 := by
  obtain ⟨m, rfl⟩ : ∃ m, n = m + 1 := ⟨n - 1, by omega⟩
  rw [Function.iterate_succ_apply' (f := inc_word0) (n := m)]
  show bytes64 ((le64 (inc_word0^[m] v) + 1) % 2 ^ 64) ++ (inc_word0^[m] v).drop 8 = _
  rw [drop_iterate_inc]
  congr 2
  rcases Nat.eq_zero_or_pos m with h0 | hpos
  · subst h0
    rfl
  · rw [le64_iterate_inc v m hpos]
    omega

theorem seed8_eq (ivm : Mem) :
    seed 8 ivm 4 = [0, 0, 0, 0, ivm 0, ivm 1, ivm 2, ivm 3] := by
  rfl

theorem load4_eq (ivm : Mem) : load ivm 0 4 = [ivm 0, ivm 1, ivm 2, ivm 3] := by
  simp [load, List.range_succ]

theorem le64_load4 (ivm : Mem) :
    le64 (load ivm 0 4) = ivm 0 + 256 * ivm 1 + 65536 * ivm 2 + 16777216 * ivm 3 := by
  rw [load4_eq]
  simp [le64, List.range_succ]
  ring

theorem le64_seed8 (ivm : Mem) : le64 (seed 8 ivm 4) = le64 (load ivm 0 4) * 2 ^ 32 := by
  rw [le64_load4, seed8_eq]
  simp [le64, List.range_succ]
  ring

theorem drop4_bytes64 (w : Nat) :
    (bytes64 w).drop 4
      = [w / 256 ^ 4 % 256, w / 256 ^ 5 % 256, w / 256 ^ 6 % 256, w / 256 ^ 7 % 256] := by
  rfl

theorem seed16_drop (ivm : Mem) : (seed 16 ivm 8).drop 8 = load ivm 0 8 := by
  rfl

theorem iv_half_iff (a b c d n : Nat) (ha : a < 256) (hb : b < 256) (hc : c < 256)
    (hd : d < 256) (hn : n < 2 ^ 64) :
    (bytes64 (((a + 256 * b + 65536 * c + 16777216 * d) * 2 ^ 32 + n) % 2 ^ 64)).drop 4
        = [a, b, c, d]
      ↔ n < 2 ^ 32 := by
  rw [drop4_bytes64]
  simp only [List.cons.injEq, and_true]
  norm_num at hn ⊢
  constructor
  · rintro ⟨h1, h2, h3, h4⟩
    omega
  · intro h
    refine ⟨?_, ?_, ?_, ?_⟩ <;> omega

/-- C34: after a call of `ak_bckey_context_xcrypt` with a fresh IV on `n ≥ 1` full blocks
(valid integrity code, sufficient resource, `ak_buffer_set_size` succeeding):
for block size 8 and a 4-byte IV that reads as the 32-bit integer `v` (little-endian), the
stored stream state has 8 bytes and reads as the 64-bit integer `(v * 2^32 + n) mod 2^64`,
so its bytes 4..7 are the IV exactly when `n < 2^32`; for block size 16 and an 8-byte IV
the bytes 8..15 of the stored stream state are the IV for every `n`.  The same value of the
64-bit word is reached by `n` increments however they are distributed over calls. -/
theorem C34_counter_carry_block8 (bkey : bckey) (inp : Mem) (ivm : Mem) (n : Nat)
    (hic : bkey.key.check_icode = true) (hset : bkey.set_size = .ak_error_ok) (hn : 1 ≤ n)
    (hres : (n : Int) ≤ bkey.key.resource_counter)
    (hbyte : ∀ i, i < 4 → ivm i < 256) :
    (bkey.bsize = 8 → n * 8 < 2 ^ 64 →
      ∃ w, (ak_bckey_context_xcrypt bkey inp (n * 8) (some ivm) 4).bkey.ivector = some w
        ∧ w.length = 8
        ∧ le64 w = (le64 (load ivm 0 4) * 2 ^ 32 + n) % 2 ^ 64
        ∧ (w.drop 4 = load ivm 0 4 ↔ n < 2 ^ 32))
    ∧ (bkey.bsize = 16 → n * 16 < 2 ^ 64 →
      ∃ w, (ak_bckey_context_xcrypt bkey inp (n * 16) (some ivm) 8).bkey.ivector = some w
        ∧ w.length = 16
        ∧ w.drop 8 = load ivm 0 8)
    ∧ le64 (inc_word0^[n] (seed 8 ivm 4)) = (le64 (load ivm 0 4) * 2 ^ 32 + n) % 2 ^ 64 := by
  have hword : le64 (inc_word0^[n] (seed 8 ivm 4))
      = (le64 (load ivm 0 4) * 2 ^ 32 + n) % 2 ^ 64 := by
    rw [le64_iterate_inc _ n hn, le64_seed8]
  refine ⟨?_, ?_, hword⟩
  · intro hbs hs
    have h := (xcrypt_fresh_blocks bkey inp n ivm 4 (Or.inl hbs) hn (by rw [hbs]; exact hs)
      hic hset (by rw [hbs]) hres).2.2.1
    rw [hbs] at h
    refine ⟨_, h, ?_, hword, ?_⟩
    · rw [length_iterate_inc _ (by rw [length_seed]) n, length_seed]
    · rw [iterate_inc_eq _ n hn, le64_seed8, le64_load4, load4_eq]
      have hnil : (seed 8 ivm 4).drop 8 = [] := rfl
      rw [hnil, List.append_nil]
      exact iv_half_iff (ivm 0) (ivm 1) (ivm 2) (ivm 3) n (hbyte 0 (by decide))
        (hbyte 1 (by decide)) (hbyte 2 (by decide)) (hbyte 3 (by decide)) (by omega)
  · intro hbs hs
    have h := (xcrypt_fresh_blocks bkey inp n ivm 8 (Or.inr hbs) hn (by rw [hbs]; exact hs)
      hic hset (by rw [hbs]) hres).2.2.1
    rw [hbs] at h
    refine ⟨_, h, ?_, ?_⟩
    · rw [length_iterate_inc _ (by rw [length_seed]; decide) n, length_seed]
    · rw [drop_iterate_inc, seed16_drop]

/-- Witness for C34: block size 8, IV 10, 11, 12, 13, two blocks. -/
theorem C34_counter_carry_block8_witness :
    ∃ w, (ak_bckey_context_xcrypt (toyKey 8 100) (fun i => i) (2 * 8)
          (some (fun i => 10 + i)) 4).bkey.ivector = some w
      ∧ w.length = 8
      ∧ le64 w = (le64 (load (fun i => 10 + i) 0 4) * 2 ^ 32 + 2) % 2 ^ 64
      ∧ (w.drop 4 = load (fun i => 10 + i) 0 4 ↔ 2 < 2 ^ 32) :=
  (C34_counter_carry_block8 (toyKey 8 100) (fun i => i) (fun i => 10 + i) 2 rfl rfl
    (by decide) (by decide) (by decide)).1 rfl (by decide)

/-! ## The option loop of `aktool_show` -/

theorem next_ite (p : Prop) [Decidable p] (x y : Step) (hx : ∃ s, x = Step.next s)
    (hy : ∃ s, y = Step.next s) : ∃ s, (if p then x else y) = Step.next s := by
  by_cases h : p
  · rw [if_pos h]
    exact hx
  · rw [if_neg h]
    exact hy

theorem option_case_next (s : ShowState) (c : Int) (a : Option (List Nat)) (hc : c ≠ 1) :
    ∃ s1, option_case s c a = Step.next s1 := by
  rw [option_case, if_neg hc]
  iterate 10 refine next_ite _ _ _ ⟨_, rfl⟩ ?_
  exact ⟨_, rfl⟩

theorem option_loop_append (pre : List (Int × Option (List Nat))) :
    ∀ s : ShowState, (∀ p ∈ pre, p.1 ≠ 1 ∧ p.1 ≠ -1) →
      ∃ s1, ∀ rest, option_loop s (pre ++ rest) = option_loop s1 rest := by
  induction pre with
  | nil =>
    intro s _
    exact ⟨s, fun rest => rfl⟩
  | cons p pre ih =>
    intro s hp
    obtain ⟨c, a⟩ := p
    have hc := hp (c, a) (List.mem_cons_self _ _)
    obtain ⟨s1, hs1⟩ := option_case_next s c a hc.1
    obtain ⟨s2, hs2⟩ := ih s1 (fun q hq => hp q (List.mem_cons_of_mem _ hq))
    refine ⟨s2, fun rest => ?_⟩
    rw [List.cons_append, option_loop, hs1]
    simp only [if_neg hc.2]
    exact hs2 rest

/-- C35: in the option loop of `aktool_show`, option code 3 (`--dont-use-colors`) runs
`ak_libakrypt_set_color_output( ak_false )` and then the statements of the `--oids` case.
So for every option sequence that reaches the option (no `--help` before it), the selected
action after processing it is `do_alloids`; an invocation whose only option is
`--dont-use-colors` ends with `work = do_alloids` and performs the OID listing (when the
library is created), where an invocation without options shows the help. -/
theorem C35_dont_use_colors_falls_through (s : ShowState) (a : Option (List Nat))
    (pre : List (Int × Option (List Nat))) (create_ok : Bool) :
    option_case s 3 a
        = option_case { s with events := s.events ++ [.set_color_output_false] } 254 a
    ∧ (∃ s1, option_case s 3 a = .next s1 ∧ s1.work = .do_alloids)
    ∧ ((∀ p ∈ pre, p.1 ≠ 1 ∧ p.1 ≠ -1) →
        ∃ s1, s1.work = .do_alloids
          ∧ ∀ rest, option_loop s (pre ++ (3, a) :: rest) = option_loop s1 rest)
    ∧ (∃ s1, option_loop show_start [(3, a)] = .next s1 ∧ s1.work = .do_alloids)
    ∧ aktool_show create_ok [(3, a)]
        = (if create_ok = true then .performed .do_alloids true else .create_failed)
    ∧ aktool_show create_ok [] = .help := by
  refine ⟨rfl, ⟨_, rfl, rfl⟩, ?_, ⟨_, rfl, rfl⟩, ?_, rfl⟩
  · intro hpre
    obtain ⟨s0, hs0⟩ := option_loop_append pre s hpre
    refine ⟨case_254 { s0 with events := s0.events ++ [.set_color_output_false] }, rfl, ?_⟩
    intro rest
    rw [hs0]
    rfl
  · cases create_ok <;> rfl

/-- Witness for C35: after `--without-caption --engines --dont-use-colors` the selected
action is `do_alloids`. -/
theorem C35_dont_use_colors_falls_through_witness :
    ∃ s1, s1.work = Work.do_alloids
      ∧ ∀ rest, option_loop show_start ([(250, none), (252, none)] ++ (3, none) :: rest)
          = option_loop s1 rest :=
  (C35_dont_use_colors_falls_through show_start none [(250, none), (252, none)] true).2.2.1
    (by decide)

/-! ## The block and tail split of `test_hash_ptr` -/

/-- C36: for every `size` and every block size `bsize > 0`, `test_hash_ptr` computes
`offset = (size / bsize) * bsize`, a multiple of `bsize`; it calls `update` on the first
`offset` bytes exactly when `size ≥ bsize`, and `finalize` on the `size - offset` bytes that
start at `in + offset`, with `size - offset < bsize` and `offset + (size - offset) = size`,
so that prefix and remainder partition the input; it returns the value of `finalize`.  For
the 7-byte input of `main` and a block of 64 bytes `update` is not called and `finalize`
receives all 7 bytes. -/
theorem C36_block_tail_split (bsize size out_size : Nat) (result : Err)
    (hb : 0 < bsize) (hs : size < 2 ^ 64) :
    hash_offset bsize size = size / bsize * bsize
    ∧ hash_offset bsize size % bsize = 0
    ∧ (test_hash_ptr bsize result size out_size).2
        = [HashEvent.clean]
          ++ (if bsize ≤ size then [HashEvent.update 0 (size / bsize * bsize)] else [])
          ++ [HashEvent.finalize (size / bsize * bsize) (size - size / bsize * bsize) out_size,
              HashEvent.clean]
    ∧ size - size / bsize * bsize < bsize
    ∧ size / bsize * bsize + (size - size / bsize * bsize) = size
    ∧ (∀ inp : Mem, load inp 0 (size / bsize * bsize)
          ++ load inp (size / bsize * bsize) (size - size / bsize * bsize) = load inp 0 size)
    ∧ (test_hash_ptr bsize result size out_size).1 = result
    ∧ (main_hash 64 result).2 = [HashEvent.clean, HashEvent.finalize 0 7 32, HashEvent.clean] := by
  have hle : size / bsize * bsize ≤ size := Nat.div_mul_le_self size bsize
  have hoff : hash_offset bsize size = size / bsize * bsize := by
    unfold hash_offset
    exact Nat.mod_eq_of_lt (lt_of_le_of_lt hle hs)
  have hmod : size - size / bsize * bsize = size % bsize := by
    have := Nat.mod_add_div size bsize
    rw [Nat.mul_comm] at this
    omega
  have hsum : size / bsize * bsize + (size - size / bsize * bsize) = size := by omega
  have hquot : size / bsize > 0 ↔ bsize ≤ size := by
    constructor
    · intro h
      exact (Nat.one_le_div_iff hb).mp h
    · intro h
      exact (Nat.one_le_div_iff hb).mpr h
  have hsub : (size + 2 ^ 64 - size / bsize * bsize) % 2 ^ 64 = size - size / bsize * bsize := by
    have h1 : size + 2 ^ 64 - size / bsize * bsize
        = (size - size / bsize * bsize) + 2 ^ 64 := by omega
    rw [h1, Nat.add_mod_right]
    exact Nat.mod_eq_of_lt (by omega)
  refine ⟨hoff, ?_, ?_, ?_, hsum, ?_, rfl, rfl⟩
  · rw [hoff]
    exact Nat.mul_mod_left _ _
  · unfold test_hash_ptr
    simp only [hoff, hsub]
    by_cases h : bsize ≤ size
    · rw [if_pos h, if_pos (hquot.mpr h)]
    · rw [if_neg h, if_neg (fun hq => h (hquot.mp hq))]
  · rw [hmod]
    exact Nat.mod_lt _ hb
  · intro inp
    have := load_add inp (size / bsize * bsize) (size - size / bsize * bsize)
    rw [hsum] at this
    exact this.symm

/-- Witness for C36: block size 64 and 135 bytes: `update` receives 128 bytes, `finalize`
receives the 7 bytes at offset 128. -/
theorem C36_block_tail_split_witness :
    (test_hash_ptr 64 .ak_error_ok 135 32).2
      = [HashEvent.clean, HashEvent.update 0 128, HashEvent.finalize 128 7 32,
         HashEvent.clean] :=
  (C36_block_tail_split 64 135 32 .ak_error_ok (by decide) (by decide)).2.2.1.trans
    (by decide)

end Akrypt
